import Mathlib

/-!
The container `gdwg::graph`, a general directed weighted graph.

Shallow embedding of `include/gdwg/graph.hpp` and a verification development over it.

Representation choices, fixed once here:

* `std::set<T, Cmp>` and `std::map<K, V, Cmp>` are red-black trees; they are embedded by
  their in-order sequence (a `List`), and every container operation used by the source
  (`find`, `contains`, `emplace`, `insert`, `extract`, `erase`) is embedded by what it does
  to that sequence, with the comparator passed explicitly.
* A node handle `N const*` points into a box owned by `node_u_ptrs_`, and the
  comparators `node_compare` / `edge_compare` dereference it.  A handle is embedded by the
  value it points to.  The node store never holds two boxes with the same value
  (`insert_node` and `replace_node` test `is_node` first), hence handle equality
  (`iter->first == dst_ptr`) is equality of values.  A handle whose box has been freed is
  still represented by the value the box held; the source has undefined behaviour when it
  dereferences such a handle, and I1 below is what excludes them.
* A container iterator is embedded by the element it designates (`none` for a past-the-end
  or value-initialised iterator): iterators of node-based containers keep designating the
  same element when other elements are inserted or erased.
* A thrown `std::runtime_error` is `Except.error` with the message of the source; an
  operation that mutates returns its outcome together with the state of the graph after
  the call.  Undefined behaviour of an iterator operation (dereferencing `end()`, erasing
  through an iterator that designates nothing) is `Option.none`.
-/

deriving instance DecidableEq for Except

set_option linter.unusedSectionVars false

namespace gdwg

/-! ## Ordered containers -/

section containers

variable {α β : Type}

/-- Two keys are equivalent for a comparator when neither is ordered before the other;
this is the test `std::set` and `std::map` use for `find`, `contains` and for rejecting a
duplicate on insertion. -/
def equiv_under (lt : α → α → Bool) (a b : α) : Bool := !lt a b && !lt b a

/-- Embedding of `std::set::contains(x)`, also `find(x) != end()`. -/
def set_contains (lt : α → α → Bool) (x : α) (s : List α) : Bool :=
  s.any (fun y => equiv_under lt x y)

/-- Embedding of `std::set::emplace` / `insert` of a value or of an extracted node: the element is
placed at its position in comparator order; nothing happens when an equivalent element is
already there (an extracted node that is refused is destroyed with its handle). -/
def set_emplace (lt : α → α → Bool) (x : α) : List α → List α
  | [] => [x]
  | y :: ys =>
    if lt x y then x :: y :: ys
    else if lt y x then y :: set_emplace lt x ys
    else y :: ys

/-- Embedding of `std::set::erase(it)` / `extract(it)` for an iterator designating `x`: that element
leaves the sequence (a set holds at most one element equivalent to `x`). -/
def set_erase (lt : α → α → Bool) (x : α) (s : List α) : List α :=
  s.filter (fun y => !equiv_under lt x y)

/-- Embedding of `std::map::contains(k)`, also `find(k) != end()`. -/
def map_contains (lt : α → α → Bool) (k : α) (m : List (α × β)) : Bool :=
  m.any (fun p => equiv_under lt k p.1)

/-- The mapped value `it->second` of the entry found for key `k`; `none` when the map has
no such entry (`find(k) == end()`). -/
def map_second (lt : α → α → Bool) (k : α) : List (α × β) → Option β
  | [] => none
  | p :: ps => if equiv_under lt k p.1 then some p.2 else map_second lt k ps

/-- Embedding of `std::map::emplace(k, v)` / `insert` of an extracted node re-keyed to `k`: the
entry is placed at the position of `k`; nothing happens when the key is already present. -/
def map_emplace (lt : α → α → Bool) (k : α) (v : β) : List (α × β) → List (α × β)
  | [] => [(k, v)]
  | p :: ps =>
    if lt k p.1 then (k, v) :: p :: ps
    else if lt p.1 k then p :: map_emplace lt k v ps
    else p :: ps

/-- Embedding of `std::map::erase(it)` / `extract(key)` for the entry with key `k`. -/
def map_erase (lt : α → α → Bool) (k : α) (m : List (α × β)) : List (α × β) :=
  m.filter (fun p => !equiv_under lt k p.1)

/-- In-place update of the mapped value of the entry with key `k` (the source mutates
`it->second` through a reference). -/
def map_modify (lt : α → α → Bool) (k : α) (f : β → β) (m : List (α × β)) : List (α × β) :=
  m.map (fun p => if equiv_under lt k p.1 then (p.1, f p.2) else p)

/-- Embedding of `++it` on a container iterator designating `x`: the element that follows `x` in the
sequence, `none` (past-the-end) when `x` is the last one. -/
def iter_next [DecidableEq α] (x : α) : List α → Option α
  | [] => none
  | y :: ys => if y = x then ys.head? else iter_next x ys

/-- Embedding of `--it` on a container iterator designating `x`: the element that precedes `x`,
`none` when `x` is the first one. -/
def iter_prev [DecidableEq α] (x : α) : List α → Option α
  | [] => none
  | [_] => none
  | y :: z :: zs => if z = x then some y else iter_prev x (z :: zs)

end containers

/-! ## The graph -/

/-- Embedding of `graph<N, E>::value_type`: the record an iterator dereferences to. -/
structure value_type (N E : Type) where
  from_ : N
  to_ : N
  weight : E
  deriving DecidableEq, Repr

/-- The data members of `graph<N, E>`.  `node_u_ptrs_` is the owning store of the node
boxes; the source orders it by box address, which no operation observes, so the boxes are
listed in creation order.  `edges_rep_` is the adjacency index (source handle ↦ bucket of
(destination handle, weight) pairs) and `nodes_rep_` the set of node handles ordered by
value. -/
structure graph (N E : Type) where
  node_u_ptrs_ : List N
  edges_rep_ : List (N × List (N × E))
  nodes_rep_ : List N
  deriving DecidableEq, Repr

section ops

variable {N E : Type} [LinearOrder N] [LinearOrder E]

/-- Embedding of `node_compare::operator()`: `*n1 < *n2`. -/
def node_compare (n1 n2 : N) : Bool := decide (n1 < n2)

/-- Embedding of `edge_compare::operator()`: destinations first, weights second. -/
def edge_compare (pair_1 pair_2 : N × E) : Bool :=
  if pair_1.1 ≠ pair_2.1 then decide (pair_1.1 < pair_2.1)
  else decide (pair_1.2 < pair_2.2)

/-- Embedding of `graph::graph()`: the default constructor. -/
def graph.default : graph N E := ⟨[], [], []⟩

/-- Embedding of `graph::is_node`. -/
def graph.is_node (g : graph N E) (value : N) : Bool :=
  set_contains node_compare value g.nodes_rep_

/-- Embedding of `graph::insert_node`. -/
def graph.insert_node (g : graph N E) (value : N) : Bool × graph N E :=
  if g.is_node value then (false, g)
  else
    (true, ⟨g.node_u_ptrs_ ++ [value], g.edges_rep_, set_emplace node_compare value g.nodes_rep_⟩)

/-- Embedding of `graph::empty`. -/
def graph.empty (g : graph N E) : Bool := g.nodes_rep_.isEmpty

/-- Embedding of `graph::nodes`. -/
def graph.nodes (g : graph N E) : List N := g.nodes_rep_

/-- Embedding of `graph::insert_edge`. -/
def graph.insert_edge (g : graph N E) (src dst : N) (weight : E) :
    Except String Bool × graph N E :=
  if !g.is_node src || !g.is_node dst then
    (.error "Cannot call gdwg::graph<N, E>::insert_edge when either src or dst node does not exist", g)
  else
    let edges1 :=
      if map_contains node_compare src g.edges_rep_ then g.edges_rep_
      else map_emplace node_compare src [] g.edges_rep_
    let bucket := (map_second node_compare src edges1).getD []
    if set_contains edge_compare (dst, weight) bucket then
      (.ok false, { g with edges_rep_ := edges1 })
    else
      let edges2 := map_modify node_compare src (set_emplace edge_compare (dst, weight)) edges1
      (.ok true, { g with edges_rep_ := edges2 })

/-- Embedding of `graph::is_connected`. -/
def graph.is_connected (g : graph N E) (src dst : N) : Except String Bool :=
  if !g.is_node src || !g.is_node dst then
    .error "Cannot call gdwg::graph<N, E>::is_connected if src or dst node don't exist in the graph"
  else
    match map_second node_compare src g.edges_rep_ with
    | none => .ok false
    | some src_edges => .ok (src_edges.any (fun e => decide (e.1 = dst)))

/-- The inner loop of `replace_node` and of `merge_replace_node` over one bucket
`curr_edges`: every element whose destination handle is `old_h` is extracted, its value is
overwritten with `(new_h, weight)` and the node is inserted back.  The first argument is
what is left to visit.  An element that has been put back carries `new_h`: when the cursor
meets it again it fails the test (`old_h ≠ new_h`), and when `old_h = new_h` it returns to
the place it was taken from, which the cursor has already left; so the elements visited
with effect are those of the bucket as it was when the loop started. -/
def repoint_loop (old_h new_h : N) : List (N × E) → List (N × E) → List (N × E)
  | [], curr_edges => curr_edges
  | e :: rest, curr_edges =>
    if e.1 = old_h then
      repoint_loop old_h new_h rest
        (set_emplace edge_compare (new_h, e.2) (set_erase edge_compare e curr_edges))
    else repoint_loop old_h new_h rest curr_edges

/-- The outer loop around `repoint_loop`: every bucket of the adjacency index, in place. -/
def repoint_all (old_h new_h : N) (edges : List (N × List (N × E))) : List (N × List (N × E)) :=
  edges.map (fun p => (p.1, repoint_loop old_h new_h p.2 p.2))

/-- The re-keying step of `replace_node`: when `old_data` has an entry in the adjacency
index, the entry is extracted, its key is overwritten with the handle of `new_data`, and
the entry is inserted back. -/
def rekey_entry (old_data new_data : N) (edges : List (N × List (N × E))) :
    List (N × List (N × E)) :=
  match map_second node_compare old_data edges with
  | some old_bucket =>
    map_emplace node_compare new_data old_bucket (map_erase node_compare old_data edges)
  | none => edges

/-- Embedding of `graph::replace_node`. -/
def graph.replace_node (g : graph N E) (old_data new_data : N) :
    Except String Bool × graph N E :=
  if !g.is_node old_data then
    (.error "Cannot call gdwg::graph<N, E>::replace_node on a node that doesn't exist", g)
  else if g.is_node new_data then (.ok false, g)
  else
    let u_ptrs1 := g.node_u_ptrs_ ++ [new_data]
    let nodes1 := set_emplace node_compare new_data g.nodes_rep_
    let edges1 := rekey_entry old_data new_data g.edges_rep_
    let edges2 := repoint_all old_data new_data edges1
    let nodes2 := set_erase node_compare old_data nodes1
    let u_ptrs2 := u_ptrs1.erase old_data
    (.ok true, ⟨u_ptrs2, edges2, nodes2⟩)

/-- The last loop of `merge_replace_node`: every edge of the bucket of `old_data` that the
bucket of `new_data` does not contain is inserted through `insert_edge`; an exception of
`insert_edge` leaves the loop with the graph as it is at that point. -/
def merge_loop (new_data : N) : List (N × E) → graph N E → Except String Unit × graph N E
  | [], g => (.ok (), g)
  | e :: rest, g =>
    if set_contains edge_compare e ((map_second node_compare new_data g.edges_rep_).getD []) then
      merge_loop new_data rest g
    else
      match g.insert_edge new_data e.1 e.2 with
      | (.error msg, g1) => (.error msg, g1)
      | (.ok _, g1) => merge_loop new_data rest g1

/-- Embedding of `graph::merge_replace_node`. -/
def graph.merge_replace_node (g : graph N E) (old_data new_data : N) :
    Except String Unit × graph N E :=
  if !g.is_node old_data || !g.is_node new_data then
    (.error "Cannot call gdwg::graph<N, E>::merge_replace_node on old or new data if they don't exist in the graph", g)
  else
    let g1 : graph N E := { g with edges_rep_ := repoint_all old_data new_data g.edges_rep_ }
    match map_second node_compare old_data g1.edges_rep_ with
    | some old_data_edges =>
      let g2 : graph N E :=
        if map_contains node_compare new_data g1.edges_rep_ then g1
        else { g1 with edges_rep_ := map_emplace node_compare new_data [] g1.edges_rep_ }
      match merge_loop new_data old_data_edges g2 with
      | (.error msg, g3) => (.error msg, g3)
      | (.ok _, g3) =>
        (.ok (), ⟨g3.node_u_ptrs_.erase old_data,
                  map_erase node_compare old_data g3.edges_rep_,
                  set_erase node_compare old_data g3.nodes_rep_⟩)
    | none =>
      (.ok (), ⟨g1.node_u_ptrs_.erase old_data, g1.edges_rep_,
                set_erase node_compare old_data g1.nodes_rep_⟩)

/-- The loops of `erase_node` over the adjacency index: in every bucket the elements whose
destination handle is `value` are erased, and a bucket left empty is erased. -/
def erase_incoming (value : N) (edges : List (N × List (N × E))) : List (N × List (N × E)) :=
  edges.filterMap (fun p =>
    let curr_edges := p.2.filter (fun e => !decide (e.1 = value))
    if curr_edges.isEmpty then none else some (p.1, curr_edges))

/-- Embedding of `graph::erase_node`. -/
def graph.erase_node (g : graph N E) (value : N) : Bool × graph N E :=
  if !g.is_node value then (false, g)
  else
    let edges1 :=
      if map_contains node_compare value g.edges_rep_ then map_erase node_compare value g.edges_rep_
      else g.edges_rep_
    (true, ⟨g.node_u_ptrs_.erase value, erase_incoming value edges1,
            set_erase node_compare value g.nodes_rep_⟩)

/-- Embedding of `graph::clear`. -/
def graph.clear (_g : graph N E) : graph N E := ⟨[], [], []⟩

/-- Embedding of `graph::weights`. -/
def graph.weights (g : graph N E) (src dst : N) : Except String (List E) :=
  if !g.is_node src || !g.is_node dst then
    .error "Cannot call gdwg::graph<N, E>::weights if src or dst node don't exist in the graph"
  else
    match map_second node_compare src g.edges_rep_ with
    | none => .ok []
    | some src_edges => .ok ((src_edges.filter (fun e => decide (e.1 = dst))).map Prod.snd)

/-- The loop of `connections`: `prev` is the destination handle of the element visited
before (initially that of the first element), `result_vec` the values collected so far. -/
def connections_loop : List (N × E) → Option N → List N → List N
  | [], _, result_vec => result_vec
  | e :: rest, prev, result_vec =>
    if result_vec.isEmpty then connections_loop rest (some e.1) (result_vec ++ [e.1])
    else if some e.1 ≠ prev then connections_loop rest (some e.1) (result_vec ++ [e.1])
    else connections_loop rest (some e.1) result_vec

/-- Embedding of `graph::connections`. -/
def graph.connections (g : graph N E) (src : N) : Except String (List N) :=
  if !g.is_node src then
    .error "Cannot call gdwg::graph<N, E>::connections if src doesn't exist in the graph"
  else
    match map_second node_compare src g.edges_rep_ with
    | none => .ok []
    | some src_edges => .ok (connections_loop src_edges (src_edges.head?.map Prod.fst) [])

/-- Embedding of `graph::operator==`. -/
def graph.operator_eq (g other : graph N E) : Bool :=
  if g.edges_rep_.length ≠ other.edges_rep_.length
      || g.nodes_rep_.length ≠ other.nodes_rep_.length then false
  else if (g.nodes_rep_.zip other.nodes_rep_).any (fun p => decide (p.1 ≠ p.2)) then false
  else
    (g.edges_rep_.zip other.edges_rep_).all (fun p =>
      !decide (p.1.1 ≠ p.2.1) && !decide (p.1.2.length ≠ p.2.2.length)
        && (p.1.2.zip p.2.2).all (fun q => !(decide (q.1.1 ≠ q.2.1) || decide (q.1.2 ≠ q.2.2))))

/-- Embedding of `operator<<`: the text dump, for given renderings of node values and weights. -/
def graph.dump (show_n : N → String) (show_e : E → String) (g : graph N E) : String :=
  String.join (g.nodes_rep_.map (fun v =>
    show_n v ++ " (\n"
      ++ String.join (((map_second node_compare v g.edges_rep_).getD []).map
          (fun e => "  " ++ show_n e.1 ++ " | " ++ show_e e.2 ++ "\n"))
      ++ ")\n"))

/-! ## The iterator -/

/-- The data members of `graph<N, E>::iterator`.  A map iterator is the key of the entry
it designates, a set iterator the element it designates; `none` is an iterator that
designates no element (past-the-end, or value-initialised). -/
structure iterator (N E : Type) where
  edges_map_begin_ : Option N
  edges_map_end_ : Option N
  curr_map_iter_ : Option N
  curr_set_iter_ : Option (N × E)
  deriving DecidableEq, Repr

/-- Embedding of `iterator::iterator(edges)`: the constructor used by `begin()`. -/
def iterator.at_begin (edges : List (N × List (N × E))) : iterator N E :=
  ⟨(edges.map Prod.fst).head?, none, (edges.map Prod.fst).head?,
    match edges with
    | [] => none
    | p :: _ => p.2.head?⟩

/-- Embedding of `iterator::iterator(edges, bool)`: the constructor used by `end()`. -/
def iterator.at_end (edges : List (N × List (N × E))) : iterator N E :=
  ⟨(edges.map Prod.fst).head?, none, none, none⟩

/-- Embedding of `iterator::iterator(edges, map_iter, set_iter)`. -/
def iterator.at_pos (edges : List (N × List (N × E))) (map_iter : Option N)
    (set_iter : Option (N × E)) : iterator N E :=
  ⟨(edges.map Prod.fst).head?, none, map_iter, set_iter⟩

/-- Embedding of `iterator::operator==`. -/
def iterator.operator_eq (it other : iterator N E) : Bool :=
  decide (it.curr_map_iter_ = other.curr_map_iter_)
    && decide (it.curr_set_iter_ = other.curr_set_iter_)

/-- Embedding of `iterator::operator*` on the adjacency index the iterator was made from; undefined
unless the iterator designates an element of a bucket of the index. -/
def iterator.deref (edges : List (N × List (N × E))) (it : iterator N E) :
    Option (value_type N E) :=
  match it.curr_map_iter_, it.curr_set_iter_ with
  | some k, some e =>
    match map_second node_compare k edges with
    | some bucket => if e ∈ bucket then some ⟨k, e.1, e.2⟩ else none
    | none => none
  | _, _ => none

/-- Embedding of `iterator::operator++` (pre-increment) on the adjacency index the iterator was made
from; undefined unless the iterator designates an element of a bucket of the index. -/
def iterator.incr (edges : List (N × List (N × E))) (it : iterator N E) :
    Option (iterator N E) :=
  match it.curr_map_iter_, it.curr_set_iter_ with
  | some k, some e =>
    match map_second node_compare k edges with
    | some bucket =>
      if e ∈ bucket then
        match iter_next e bucket with
        | some e1 => some { it with curr_set_iter_ := some e1 }
        | none =>
          let map_iter1 := iter_next k (edges.map Prod.fst)
          if map_iter1 ≠ it.edges_map_end_ then
            match map_iter1 with
            | some k1 =>
              some { it with curr_map_iter_ := map_iter1,
                             curr_set_iter_ := ((map_second node_compare k1 edges).getD []).head? }
            | none => none
          else some { it with curr_map_iter_ := map_iter1, curr_set_iter_ := none }
      else none
    | none => none
  | _, _ => none

/-- Embedding of `std::prev(it)` for a container iterator `pos`: the last element when `pos` is
past-the-end, else the element before the designated one; `none` when there is none. -/
def iter_pred {α : Type} [DecidableEq α] (pos : Option α) (l : List α) : Option α :=
  match pos with
  | none => l.getLast?
  | some x => iter_prev x l

/-- Embedding of `iterator::operator--` (pre-decrement) on the adjacency index the iterator was made
from. -/
def iterator.decr (edges : List (N × List (N × E))) (it : iterator N E) :
    Option (iterator N E) :=
  if it.curr_map_iter_ = it.edges_map_end_ then
    match iter_pred it.edges_map_end_ (edges.map Prod.fst) with
    | some k1 =>
      match ((map_second node_compare k1 edges).getD []).getLast? with
      | some e1 => some { it with curr_map_iter_ := some k1, curr_set_iter_ := some e1 }
      | none => none
    | none => none
  else
    match it.curr_map_iter_, it.curr_set_iter_ with
    | some k, some e =>
      match map_second node_compare k edges with
      | some bucket =>
        if some e = bucket.head? then
          if it.curr_map_iter_ ≠ it.edges_map_begin_ then
            match iter_prev k (edges.map Prod.fst) with
            | some k1 =>
              match ((map_second node_compare k1 edges).getD []).getLast? with
              | some e1 => some { it with curr_map_iter_ := some k1, curr_set_iter_ := some e1 }
              | none => none
            | none => none
          else some it
        else
          match iter_prev e bucket with
          | some e1 => some { it with curr_set_iter_ := some e1 }
          | none => none
      | none => none
    | _, _ => none

/-- Embedding of `graph::begin`. -/
def graph.begin (g : graph N E) : iterator N E := iterator.at_begin g.edges_rep_

/-- Embedding of `graph::end`. -/
def graph.end_ (g : graph N E) : iterator N E := iterator.at_end g.edges_rep_

/-- Embedding of `graph::find`. -/
def graph.find (g : graph N E) (src dst : N) (weight : E) : iterator N E :=
  match map_second node_compare src g.edges_rep_ with
  | none => iterator.at_end g.edges_rep_
  | some src_edges =>
    if !set_contains node_compare dst g.nodes_rep_ then iterator.at_end g.edges_rep_
    else if !set_contains edge_compare (dst, weight) src_edges then iterator.at_end g.edges_rep_
    else iterator.at_pos g.edges_rep_ (some src) (some (dst, weight))

/-- The erasure step of `erase_edge(iterator)` for an iterator designating element `e` of
the bucket of `k`: the element is erased from the bucket, and when this empties the bucket
the entry of `k` is erased from the adjacency index. -/
def erase_at (k : N) (e : N × E) (edges : List (N × List (N × E))) : List (N × List (N × E)) :=
  let edges1 := map_modify node_compare k (set_erase edge_compare e) edges
  if ((map_second node_compare k edges1).getD []).isEmpty then map_erase node_compare k edges1
  else edges1

/-- Embedding of `graph::erase_edge(iterator)`; undefined unless `i` designates an edge of the
graph. -/
def graph.erase_edge_iter (g : graph N E) (i : iterator N E) :
    Option (iterator N E × graph N E) :=
  match i.curr_map_iter_, i.curr_set_iter_ with
  | some k, some e =>
    match i.incr g.edges_rep_ with
    | some iter => some (iter, { g with edges_rep_ := erase_at k e g.edges_rep_ })
    | none => none
  | _, _ => none

/-- The number of edges stored in the adjacency index. -/
def graph.edge_count (g : graph N E) : Nat := (g.edges_rep_.map (fun p => p.2.length)).sum

/-- The loop of `erase_edge(iterator, iterator)`.  The first argument bounds the number of
passes; every pass erases one edge, so `edge_count` passes are all the loop can make before
`erase_edge(iterator)` is undefined. -/
def erase_range_loop : Nat → graph N E → iterator N E → iterator N E →
    Option (iterator N E × graph N E)
  | 0, g, iter, s => if iter.operator_eq s then some (iter, g) else none
  | n + 1, g, iter, s =>
    if iter.operator_eq s then some (iter, g)
    else
      match g.erase_edge_iter iter with
      | some (iter1, g1) => erase_range_loop n g1 iter1 s
      | none => none

/-- Embedding of `graph::erase_edge(iterator, iterator)`. -/
def graph.erase_edge_range (g : graph N E) (i s : iterator N E) :
    Option (iterator N E × graph N E) :=
  erase_range_loop g.edge_count g i s

/-- Embedding of `graph::erase_edge(src, dst, weight)`. -/
def graph.erase_edge (g : graph N E) (src dst : N) (weight : E) :
    Option (Except String Bool × graph N E) :=
  if !g.is_node src || !g.is_node dst then
    some (.error "Cannot call gdwg::graph<N, E>::erase_edge on src or dst if they don't exist in the graph", g)
  else
    let iter := g.find src dst weight
    if iter.operator_eq g.end_ then some (.ok false, g)
    else
      match g.erase_edge_iter iter with
      | some (_, g1) => some (.ok true, g1)
      | none => none

/-- The client loop `for (it = g.begin(); it != g.end(); ++it) out.push_back(*it)`, from
iterator `it`, with a bound on the number of passes. -/
def iterate_from : Nat → graph N E → iterator N E → Option (List (value_type N E))
  | 0, g, it => if it.operator_eq g.end_ then some [] else none
  | n + 1, g, it =>
    if it.operator_eq g.end_ then some []
    else
      match it.deref g.edges_rep_, it.incr g.edges_rep_ with
      | some v, some it1 => (iterate_from n g it1).map (fun rest => v :: rest)
      | _, _ => none

/-- The sequence of edge records obtained by dereferencing and incrementing from `begin()`
until `end()`; `none` when the traversal does not reach `end()` within `edge_count`
increments or meets an undefined dereference or increment. -/
def graph.edges (g : graph N E) : Option (List (value_type N E)) :=
  iterate_from g.edge_count g g.begin

/-! ## Constructors, copy and move -/

/-- Embedding of `graph::graph(InputIt first, InputIt last)`; `graph(std::initializer_list<N>)`
delegates to it. -/
def graph.from_range (xs : List N) : graph N E :=
  xs.foldl (fun g v => (g.insert_node v).2) graph.default

/-- The inner loop of the copy operations: the edges of one bucket of `other` are inserted
through `insert_edge`. -/
def copy_bucket_loop (curr_src : N) : List (N × E) → graph N E → Except String Unit × graph N E
  | [], g => (.ok (), g)
  | e :: rest, g =>
    match g.insert_edge curr_src e.1 e.2 with
    | (.error msg, g1) => (.error msg, g1)
    | (.ok _, g1) => copy_bucket_loop curr_src rest g1

/-- The outer loop of the copy operations over the adjacency index of `other`. -/
def copy_edges_loop : List (N × List (N × E)) → graph N E → Except String Unit × graph N E
  | [], g => (.ok (), g)
  | p :: rest, g =>
    match copy_bucket_loop p.1 p.2 g with
    | (.error msg, g1) => (.error msg, g1)
    | (.ok _, g1) => copy_edges_loop rest g1

/-- The body shared by the copy constructor and the copy assignment: the nodes of `other`
are inserted into `self`, then its edges. -/
def copy_into (self other : graph N E) : Except String Unit × graph N E :=
  copy_edges_loop other.edges_rep_
    (other.nodes_rep_.foldl (fun g v => (g.insert_node v).2) self)

/-- Embedding of `graph::graph(graph const&)`: the copy constructor starts from empty members. -/
def graph.copy_construct (other : graph N E) : Except String Unit × graph N E :=
  copy_into graph.default other

/-- Embedding of `graph::operator=(graph const&)` for `this != &other` (when `this == &other` the
source returns at once and the graph is as before). -/
def graph.copy_assign (self other : graph N E) : Except String Unit × graph N E :=
  copy_into self other

/-- Embedding of `graph::graph(graph&&)`: the new graph and the state `other` is left in. -/
def graph.move_construct (other : graph N E) : graph N E × graph N E :=
  (⟨other.node_u_ptrs_, other.edges_rep_, other.nodes_rep_⟩, ⟨[], [], []⟩)

/-- Embedding of `graph::operator=(graph&&)` into a distinct graph `self`: the state of `self`
and the state `other` is left in. -/
def graph.move_assign (_self other : graph N E) : graph N E × graph N E :=
  (⟨other.node_u_ptrs_, other.edges_rep_, other.nodes_rep_⟩, ⟨[], [], []⟩)

/-! ## Specification vocabulary -/

/-- A comparator that is a strict total order: the requirement `std::set` and `std::map`
put on `Cmp`, with equivalence being equality. -/
structure strict_total {α : Type} (lt : α → α → Bool) : Prop where
  irrefl : ∀ a, lt a a = false
  trans : ∀ a b c, lt a b = true → lt b c = true → lt a c = true
  total : ∀ a b, lt a b = false → lt b a = false → a = b

/-- A sequence is strictly ascending for a comparator. -/
def ascending {α : Type} (lt : α → α → Bool) (l : List α) : Prop :=
  l.Pairwise (fun a b => lt a b = true)

instance {α : Type} (lt : α → α → Bool) (l : List α) : Decidable (ascending lt l) :=
  inferInstanceAs (Decidable (l.Pairwise (fun a b => lt a b = true)))

/-- The lexicographic order on edge records: `from`, then `to`, then `weight`. -/
def value_compare (a b : value_type N E) : Bool :=
  decide (a.from_ < b.from_)
    || (decide (a.from_ = b.from_)
        && (decide (a.to_ < b.to_) || (decide (a.to_ = b.to_) && decide (a.weight < b.weight))))

/-- The edge records stored in an adjacency index, bucket after bucket. -/
def records : List (N × List (N × E)) → List (value_type N E)
  | [] => []
  | p :: ps => p.2.map (fun e => (⟨p.1, e.1, e.2⟩ : value_type N E)) ++ records ps

/-- The node set is strictly ascending by value (it is a `std::set` under `node_compare`). -/
def graph.nodes_ascending (g : graph N E) : Prop := ascending node_compare g.nodes_rep_

/-- Invariant I1: every source key and every destination of the adjacency index is a node. -/
def graph.I1 (g : graph N E) : Prop :=
  ∀ p ∈ g.edges_rep_, g.is_node p.1 = true ∧ ∀ e ∈ p.2, g.is_node e.1 = true

/-- Invariant I2: every bucket is strictly ascending by destination, then weight. -/
def graph.I2 (g : graph N E) : Prop := ∀ p ∈ g.edges_rep_, ascending edge_compare p.2

/-- Invariant I3: the adjacency index is strictly ascending by source. -/
def graph.I3 (g : graph N E) : Prop := ascending node_compare (g.edges_rep_.map Prod.fst)

/-- No source entry of the adjacency index has an empty bucket. -/
def graph.no_empty_bucket (g : graph N E) : Prop := ∀ p ∈ g.edges_rep_, p.2 ≠ []

/-- A valid graph: the node set is ascending, I1, I2 and I3 hold and no bucket is empty. -/
def graph.valid (g : graph N E) : Prop :=
  g.nodes_ascending ∧ g.I1 ∧ g.I2 ∧ g.I3 ∧ g.no_empty_bucket

instance (g : graph N E) : Decidable g.nodes_ascending :=
  inferInstanceAs (Decidable (ascending node_compare g.nodes_rep_))

instance (g : graph N E) : Decidable g.I1 :=
  inferInstanceAs (Decidable
    (∀ p ∈ g.edges_rep_, g.is_node p.1 = true ∧ ∀ e ∈ p.2, g.is_node e.1 = true))

instance (g : graph N E) : Decidable g.I2 :=
  inferInstanceAs (Decidable (∀ p ∈ g.edges_rep_, ascending edge_compare p.2))

instance (g : graph N E) : Decidable g.I3 :=
  inferInstanceAs (Decidable (ascending node_compare (g.edges_rep_.map Prod.fst)))

instance (g : graph N E) : Decidable g.no_empty_bucket :=
  inferInstanceAs (Decidable (∀ p ∈ g.edges_rep_, p.2 ≠ []))

instance (g : graph N E) : Decidable g.valid :=
  inferInstanceAs (Decidable (g.nodes_ascending ∧ g.I1 ∧ g.I2 ∧ g.I3 ∧ g.no_empty_bucket))

/-- Invariants I3 and I2 stated on the adjacency index. -/
def index_sorted (m : List (N × List (N × E))) : Prop :=
  ascending node_compare (m.map Prod.fst) ∧ (∀ p ∈ m, ascending edge_compare p.2)

/-- The ordering part of validity, stated on the adjacency index: I3, I2 and no empty
bucket. -/
def index_ordered (m : List (N × List (N × E))) : Prop :=
  ascending node_compare (m.map Prod.fst) ∧ (∀ p ∈ m, ascending edge_compare p.2)
    ∧ (∀ p ∈ m, p.2 ≠ [])

/-- The renaming that maps `old_data` to `new_data` and fixes every other node. -/
def rename_node (old_data new_data : N) (x : N) : N := if x = old_data then new_data else x

/-- The renaming applied to the source and the destination of an edge record. -/
def rename_record (old_data new_data : N) (r : value_type N E) : value_type N E :=
  ⟨rename_node old_data new_data r.from_, rename_node old_data new_data r.to_, r.weight⟩

/-- The graphs a client can hold: those obtained from a constructor by any sequence of the
public operations that change a graph, where `merge_replace_node(old, new)` is only called
with arguments satisfying `allowed old new`.  A call that raises stays in the sequence,
with the state it leaves; a call whose behaviour is undefined does not. -/
inductive reachable_by (allowed : N → N → Prop) : graph N E → Prop
  | default : reachable_by allowed graph.default
  | from_range (xs : List N) : reachable_by allowed (graph.from_range xs)
  | copy_construct {other : graph N E} : reachable_by allowed other →
      (graph.copy_construct other).1 = .ok () →
      reachable_by allowed (graph.copy_construct other).2
  | copy_assign {self other : graph N E} : reachable_by allowed self →
      reachable_by allowed other → reachable_by allowed (self.copy_assign other).2
  | move_construct_target {other : graph N E} : reachable_by allowed other →
      reachable_by allowed (graph.move_construct other).1
  | move_construct_source {other : graph N E} : reachable_by allowed other →
      reachable_by allowed (graph.move_construct other).2
  | move_assign_target {self other : graph N E} : reachable_by allowed self →
      reachable_by allowed other → reachable_by allowed (self.move_assign other).1
  | move_assign_source {self other : graph N E} : reachable_by allowed self →
      reachable_by allowed other → reachable_by allowed (self.move_assign other).2
  | insert_node {g : graph N E} (value : N) : reachable_by allowed g →
      reachable_by allowed (g.insert_node value).2
  | insert_edge {g : graph N E} (src dst : N) (weight : E) : reachable_by allowed g →
      reachable_by allowed (g.insert_edge src dst weight).2
  | replace_node {g : graph N E} (old_data new_data : N) : reachable_by allowed g →
      reachable_by allowed (g.replace_node old_data new_data).2
  | merge_replace_node {g : graph N E} (old_data new_data : N) : allowed old_data new_data →
      reachable_by allowed g → reachable_by allowed (g.merge_replace_node old_data new_data).2
  | erase_node {g : graph N E} (value : N) : reachable_by allowed g →
      reachable_by allowed (g.erase_node value).2
  | erase_edge {g : graph N E} (src dst : N) (weight : E) {r : Except String Bool}
      {g1 : graph N E} : reachable_by allowed g → g.erase_edge src dst weight = some (r, g1) →
      reachable_by allowed g1
  | erase_edge_iter {g : graph N E} (i : iterator N E) {i1 : iterator N E} {g1 : graph N E} :
      reachable_by allowed g → g.erase_edge_iter i = some (i1, g1) → reachable_by allowed g1
  | erase_edge_range {g : graph N E} (i s : iterator N E) {i1 : iterator N E}
      {g1 : graph N E} : reachable_by allowed g → g.erase_edge_range i s = some (i1, g1) →
      reachable_by allowed g1
  | clear {g : graph N E} : reachable_by allowed g → reachable_by allowed g.clear

/-- The graphs obtained from a constructor by any sequence of public operations. -/
def reachable (g : graph N E) : Prop := reachable_by (fun _ _ => True) g

/-- The graphs obtained from a constructor by a sequence of public operations in which
`merge_replace_node` is never called with `old == new`. -/
def reachable_without_self_merge (g : graph N E) : Prop :=
  reachable_by (fun old_data new_data => old_data ≠ new_data) g

/-! ## Positions of iterators -/

/-- The two data members `iterator::operator==` compares. -/
def iterator.position (it : iterator N E) : Option N × Option (N × E) :=
  (it.curr_map_iter_, it.curr_set_iter_)

/-- The position of an iterator that designates the edge record `r` (its source entry and
its bucket element), and the position of `end()` when there is no record. -/
def position_of : Option (value_type N E) → Option N × Option (N × E)
  | none => (none, none)
  | some r => (some r.from_, some (r.to_, r.weight))

/-- The client loop that applies `operator++` the given number of times. -/
def iterator.advance (edges : List (N × List (N × E))) : Nat → iterator N E →
    Option (iterator N E)
  | 0, it => some it
  | n + 1, it =>
    match it.incr edges with
    | some it1 => iterator.advance edges n it1
    | none => none

/-- The outgoing (destination, weight) pairs of the node `v` in an edge sequence, in the
order of the sequence. -/
def outgoing (l : List (value_type N E)) (v : N) : List (N × E) :=
  (l.filter (fun r => decide (r.from_ = v))).map (fun r => (r.to_, r.weight))

/-- A call of one of the two inserting operations. -/
inductive insertion (N E : Type) where
  | node (value : N)
  | edge (src dst : N) (weight : E)
  deriving DecidableEq, Repr

/-- The graph after a sequence of `insert_node` and `insert_edge` calls; the values the calls
return are dropped. -/
def build : List (insertion N E) → graph N E → graph N E
  | [], g => g
  | .node value :: calls, g => build calls (g.insert_node value).2
  | .edge src dst weight :: calls, g => build calls (g.insert_edge src dst weight).2

/-- The node values a sequence of calls inserts. -/
def inserted_nodes : List (insertion N E) → List N
  | [] => []
  | .node value :: calls => value :: inserted_nodes calls
  | .edge _ _ _ :: calls => inserted_nodes calls

/-- The edges a sequence of calls inserts. -/
def inserted_edges : List (insertion N E) → List (value_type N E)
  | [] => []
  | .node _ :: calls => inserted_edges calls
  | .edge src dst weight :: calls => ⟨src, dst, weight⟩ :: inserted_edges calls

/-- Every `insert_edge` call of the sequence comes after `insert_node` calls for both of its
endpoints; `seen` are the values inserted before the sequence. -/
def endpoints_first : List N → List (insertion N E) → Bool
  | _, [] => true
  | seen, .node value :: calls => endpoints_first (value :: seen) calls
  | seen, .edge src dst _ :: calls =>
    decide (src ∈ seen) && decide (dst ∈ seen) && endpoints_first seen calls

/-- The records `(src, d, w)` for the destinations `d` of a list, in order, and for each of
them the weights `w` of `weights(src, d)`, in order; an exception of `weights` is passed
on. -/
def records_of_connections (g : graph N E) (src : N) :
    List N → Except String (List (value_type N E))
  | [] => .ok []
  | d :: ds =>
    match g.weights src d with
    | .error msg => .error msg
    | .ok ws =>
      match records_of_connections g src ds with
      | .error msg => .error msg
      | .ok rest => .ok (ws.map (fun w => (⟨src, d, w⟩ : value_type N E)) ++ rest)

/-- The records obtained for the sources `src` of a list, in order, from `connections(src)`
and `weights(src, d)`; an exception of an accessor is passed on. -/
def records_of_nodes (g : graph N E) : List N → Except String (List (value_type N E))
  | [] => .ok []
  | src :: srcs =>
    match g.connections src with
    | .error msg => .error msg
    | .ok ds =>
      match records_of_connections g src ds with
      | .error msg => .error msg
      | .ok l =>
        match records_of_nodes g srcs with
        | .error msg => .error msg
        | .ok rest => .ok (l ++ rest)

/-- The edge list as the accessors give it: for each `src` in `nodes()`, for each `d` in
`connections(src)`, for each `w` in `weights(src, d)`, the record `(src, d, w)`. -/
def graph.edges_by_accessors (g : graph N E) : Except String (List (value_type N E)) :=
  records_of_nodes g g.nodes

/-- The iterators a client obtains from a graph it does not change: `begin()`, `end()`,
`find(src, dst, weight)`, and what `++` and `--` make of such an iterator. -/
inductive obtained_from (g : graph N E) : iterator N E → Prop
  | begin : obtained_from g g.begin
  | end_ : obtained_from g g.end_
  | find (src dst : N) (weight : E) : obtained_from g (g.find src dst weight)
  | incr {it it1 : iterator N E} : obtained_from g it → it.incr g.edges_rep_ = some it1 →
      obtained_from g it1
  | decr {it it1 : iterator N E} : obtained_from g it → it.decr g.edges_rep_ = some it1 →
      obtained_from g it1

/-! ## Concrete graphs used in the scenarios -/

/-- Scenario A of the specification: nodes 1, 2, 3 and edges (1,2,5), (1,2,3), (1,3,10). -/
def scenario_a : graph Nat Nat :=
  ((((graph.from_range [1, 2, 3]).insert_edge 1 2 5).2.insert_edge 1 2 3).2.insert_edge 1 3 10).2

/-- Scenario C of the specification: scenario A with the edge (3,1,99) added. -/
def scenario_c : graph Nat Nat := (scenario_a.insert_edge 3 1 99).2

/-- Two nodes 1 and 2 and the single edge (2,1,7). -/
def two_nodes_one_edge : graph Nat Nat :=
  ((graph.from_range [1, 2]).insert_edge 2 1 7).2

/-- Nodes 1, 2, 3 and the edge (2,1,7); then `merge_replace_node(1, 1)`. -/
def after_self_merge : graph Nat Nat :=
  ((((graph.from_range [1, 2, 3]).insert_edge 2 1 7).2).merge_replace_node 1 1).2

/-- Scenario D of the specification: nodes 1, 2, 3 and the edges from 3 to 2 of weights
5, 6, 16, 122 and 1220. -/
def scenario_d : graph Nat Nat :=
  ((((((graph.from_range [1, 2, 3]).insert_edge 3 2 5).2.insert_edge 3 2 6).2.insert_edge
    3 2 16).2.insert_edge 3 2 122).2.insert_edge 3 2 1220).2

/-- Nodes 1, 2, 3 and the edges (1,2,4), (2,3,8), (3,1,6): every bucket holds one edge. -/
def three_cycle : graph Nat Nat :=
  ((((graph.from_range [1, 2, 3]).insert_edge 1 2 4).2.insert_edge 2 3 8).2.insert_edge 3 1 6).2

/-- Nodes 1, 2, 3 and the edges (1,2,4), (2,3,8), (2,3,9), (3,1,6), inserted in this order:
the bucket of node 1 holds one edge and the bucket of node 2 holds two. -/
def two_after_one : graph Nat Nat :=
  (((((graph.from_range [1, 2, 3]).insert_edge 1 2 4).2.insert_edge 2 3 8).2.insert_edge
    2 3 9).2.insert_edge 3 1 6).2

end ops

/-! ## Ordered containers: basic facts -/

section container_facts
variable {α β : Type}

theorem equiv_under_iff {lt : α → α → Bool} (h : strict_total lt) (a b : α) :
    equiv_under lt a b = true ↔ a = b := by
  unfold equiv_under
  constructor
  · intro hab
    simp only [Bool.and_eq_true, Bool.not_eq_true'] at hab
    exact h.total a b hab.1 hab.2
  · rintro rfl
    simp [h.irrefl]

theorem equiv_under_eq_decide [DecidableEq α] {lt : α → α → Bool} (h : strict_total lt) (a b : α) :
    equiv_under lt a b = decide (a = b) := by
  rw [Bool.eq_iff_iff, equiv_under_iff h]; simp

theorem set_contains_iff {lt : α → α → Bool} (h : strict_total lt) (x : α) (s : List α) :
    set_contains lt x s = true ↔ x ∈ s := by
  simp [set_contains, List.any_eq_true, equiv_under_iff h]

theorem mem_set_emplace {lt : α → α → Bool} (h : strict_total lt) (x y : α) (s : List α) :
    y ∈ set_emplace lt x s ↔ y = x ∨ y ∈ s := by
  induction s with
  | nil => simp [set_emplace]
  | cons z zs ih =>
    unfold set_emplace
    by_cases h1 : lt x z = true
    · simp [h1]
    · by_cases h2 : lt z x = true
      · simp [h1, h2, ih]; tauto
      · have hxz : x = z := h.total x z (by simpa using h1) (by simpa using h2)
        subst hxz
        simp [h1]

theorem ascending_set_emplace {lt : α → α → Bool} (h : strict_total lt) (x : α) {s : List α}
    (hs : ascending lt s) : ascending lt (set_emplace lt x s) := by
  unfold ascending at *
  induction s with
  | nil => simp [set_emplace]
  | cons z zs ih =>
    rw [List.pairwise_cons] at hs
    unfold set_emplace
    by_cases h1 : lt x z = true
    · simp only [h1, if_true]
      refine List.Pairwise.cons ?_ (List.Pairwise.cons hs.1 hs.2)
      intro a ha
      rcases List.mem_cons.1 ha with rfl | ha
      · exact h1
      · exact h.trans _ _ _ h1 (hs.1 a ha)
    · by_cases h2 : lt z x = true
      · simp only [h1, h2, if_true, if_false]
        refine List.Pairwise.cons ?_ (ih hs.2)
        intro a ha
        rcases (mem_set_emplace h x a zs).1 ha with rfl | ha
        · exact h2
        · exact hs.1 a ha
      · simp only [h1, h2, if_false]
        exact List.Pairwise.cons hs.1 hs.2

theorem mem_set_erase {lt : α → α → Bool} (h : strict_total lt) (x y : α) (s : List α) :
    y ∈ set_erase lt x s ↔ y ∈ s ∧ y ≠ x := by
  simp only [set_erase, List.mem_filter, Bool.not_eq_true', ← Bool.not_eq_true, equiv_under_iff h]
  constructor
  · rintro ⟨h1, h2⟩; exact ⟨h1, fun h3 => h2 h3.symm⟩
  · rintro ⟨h1, h2⟩; exact ⟨h1, fun h3 => h2 h3.symm⟩

theorem ascending_set_erase {lt : α → α → Bool} (x : α) {s : List α}
    (hs : ascending lt s) : ascending lt (set_erase lt x s) :=
  List.Pairwise.filter _ hs

theorem ascending_nodup {lt : α → α → Bool} (h : strict_total lt) {s : List α}
    (hs : ascending lt s) : s.Nodup := by
  unfold ascending at hs
  refine List.Pairwise.imp ?_ hs
  intro a b hab heq
  subst heq
  rw [h.irrefl] at hab
  exact Bool.noConfusion hab

theorem ascending_ext {lt : α → α → Bool} (h : strict_total lt) {s t : List α}
    (hs : ascending lt s) (ht : ascending lt t) (hmem : ∀ a, a ∈ s ↔ a ∈ t) : s = t := by
  have hperm : s.Perm t :=
    (List.perm_ext_iff_of_nodup (ascending_nodup h hs) (ascending_nodup h ht)).2 hmem
  haveI : IsAntisymm α (fun a b => lt a b = true) :=
    ⟨fun a b hab hba => by
      have := h.trans a b a hab hba
      rw [h.irrefl] at this
      exact Bool.noConfusion this⟩
  exact List.eq_of_perm_of_sorted hperm hs ht

end container_facts

section map_facts
variable {α β : Type}

theorem map_contains_iff {lt : α → α → Bool} (h : strict_total lt) (k : α) (m : List (α × β)) :
    map_contains lt k m = true ↔ k ∈ m.map Prod.fst := by
  simp only [map_contains, List.any_eq_true, equiv_under_iff h, List.mem_map]
  constructor
  · rintro ⟨p, hp, rfl⟩; exact ⟨p, hp, rfl⟩
  · rintro ⟨p, hp, rfl⟩; exact ⟨p, hp, rfl⟩

theorem map_second_mem {lt : α → α → Bool} (h : strict_total lt) {k : α} {m : List (α × β)}
    {b : β} (hb : map_second lt k m = some b) : (k, b) ∈ m := by
  induction m with
  | nil => simp [map_second] at hb
  | cons p ps ih =>
    unfold map_second at hb
    by_cases hk : equiv_under lt k p.1 = true
    · rw [if_pos hk] at hb
      have hkp : k = p.1 := (equiv_under_iff h _ _).1 hk
      have hbp : p.2 = b := Option.some.inj hb
      rw [hkp, ← hbp]
      exact List.mem_cons_self _ _
    · rw [if_neg hk] at hb
      exact List.mem_cons_of_mem _ (ih hb)

theorem map_second_eq_none {lt : α → α → Bool} (h : strict_total lt) (k : α) (m : List (α × β)) :
    map_second lt k m = none ↔ k ∉ m.map Prod.fst := by
  induction m with
  | nil => simp [map_second]
  | cons p ps ih =>
    unfold map_second
    by_cases hk : equiv_under lt k p.1 = true
    · have hkp : k = p.1 := (equiv_under_iff h _ _).1 hk
      rw [if_pos hk]
      simp [hkp]
    · have hkp : k ≠ p.1 := fun e => hk ((equiv_under_iff h _ _).2 e)
      rw [if_neg hk, ih]
      simp [hkp]

theorem map_second_of_mem {lt : α → α → Bool} (h : strict_total lt) {k : α} {m : List (α × β)}
    {b : β} (hnd : (m.map Prod.fst).Nodup) (hb : (k, b) ∈ m) : map_second lt k m = some b := by
  induction m with
  | nil => simp at hb
  | cons p ps ih =>
    rw [List.map_cons, List.nodup_cons] at hnd
    unfold map_second
    rcases List.mem_cons.1 hb with hp | hp
    · subst hp
      simp [(equiv_under_iff h k k).2 rfl]
    · have hkp : k ≠ p.1 := by
        intro e
        apply hnd.1
        rw [← e]
        exact List.mem_map.2 ⟨(k, b), hp, rfl⟩
      have hk : ¬ equiv_under lt k p.1 = true := fun e => hkp ((equiv_under_iff h _ _).1 e)
      rw [if_neg hk]
      exact ih hnd.2 hp

theorem map_second_isSome {lt : α → α → Bool} (h : strict_total lt) (k : α) (m : List (α × β)) :
    (map_second lt k m).isSome = map_contains lt k m := by
  rw [Bool.eq_iff_iff, map_contains_iff h, Option.isSome_iff_ne_none, Ne, map_second_eq_none h]
  simp

theorem keys_map_emplace (lt : α → α → Bool) (k : α) (v : β) (m : List (α × β)) :
    (map_emplace lt k v m).map Prod.fst = set_emplace lt k (m.map Prod.fst) := by
  induction m with
  | nil => simp [map_emplace, set_emplace]
  | cons p ps ih =>
    simp only [map_emplace, List.map_cons, set_emplace]
    by_cases h1 : lt k p.1 = true
    · simp [h1]
    · by_cases h2 : lt p.1 k = true
      · simp [h1, h2, ih]
      · simp [h1, h2]

theorem mem_map_emplace {lt : α → α → Bool} (h : strict_total lt) (k : α) (v : β)
    {m : List (α × β)} (hm : ascending lt (m.map Prod.fst)) (p : α × β) :
    p ∈ map_emplace lt k v m ↔ p ∈ m ∨ (p = (k, v) ∧ k ∉ m.map Prod.fst) := by
  induction m with
  | nil => simp [map_emplace]
  | cons q qs ih =>
    unfold ascending at hm ih
    rw [List.map_cons, List.pairwise_cons] at hm
    unfold map_emplace
    by_cases h1 : lt k q.1 = true
    · have hk : k ∉ (q :: qs).map Prod.fst := by
        intro hmem
        rw [List.map_cons, List.mem_cons] at hmem
        rcases hmem with e | e
        · rw [← e, h.irrefl] at h1; exact Bool.noConfusion h1
        · have := h.trans _ _ _ h1 (hm.1 k e)
          rw [h.irrefl] at this; exact Bool.noConfusion this
      rw [if_pos h1, List.mem_cons]
      constructor
      · rintro (e | e)
        · exact Or.inr ⟨e, hk⟩
        · exact Or.inl e
      · rintro (e | ⟨e, _⟩)
        · exact Or.inr e
        · exact Or.inl e
    · rw [if_neg h1]
      by_cases h2 : lt q.1 k = true
      · have hkq : k ≠ q.1 := by
          intro e
          rw [e, h.irrefl] at h2; exact Bool.noConfusion h2
        rw [if_pos h2, List.mem_cons, ih hm.2, List.mem_cons, List.map_cons, List.mem_cons]
        constructor
        · rintro (e | e | ⟨e, e2⟩)
          · exact Or.inl (Or.inl e)
          · exact Or.inl (Or.inr e)
          · exact Or.inr ⟨e, fun e3 => e3.elim hkq e2⟩
        · rintro ((e | e) | ⟨e, e2⟩)
          · exact Or.inl e
          · exact Or.inr (Or.inl e)
          · exact Or.inr (Or.inr ⟨e, fun e3 => e2 (Or.inr e3)⟩)
      · have hkq : k = q.1 := h.total k q.1 (by simpa using h1) (by simpa using h2)
        rw [if_neg h2]
        constructor
        · intro e; exact Or.inl e
        · rintro (e | ⟨_, e2⟩)
          · exact e
          · exact absurd (by rw [List.map_cons, hkq]; exact List.mem_cons_self _ _) e2

theorem keys_map_erase (lt : α → α → Bool) (k : α) (m : List (α × β)) :
    (map_erase lt k m).map Prod.fst = set_erase lt k (m.map Prod.fst) := by
  simp only [map_erase, set_erase, List.filter_map]
  rfl

theorem mem_map_erase {lt : α → α → Bool} (h : strict_total lt) (k : α)
    (m : List (α × β)) (p : α × β) :
    p ∈ map_erase lt k m ↔ p ∈ m ∧ p.1 ≠ k := by
  simp only [map_erase, List.mem_filter, Bool.not_eq_true', ← Bool.not_eq_true, equiv_under_iff h]
  constructor
  · rintro ⟨h1, h2⟩; exact ⟨h1, fun h3 => h2 h3.symm⟩
  · rintro ⟨h1, h2⟩; exact ⟨h1, fun h3 => h2 h3.symm⟩

theorem keys_map_modify (lt : α → α → Bool) (k : α) (f : β → β) (m : List (α × β)) :
    (map_modify lt k f m).map Prod.fst = m.map Prod.fst := by
  simp only [map_modify, List.map_map]
  apply List.map_congr_left
  intro p _
  simp only [Function.comp]
  split <;> rfl

theorem mem_map_modify {lt : α → α → Bool} (h : strict_total lt) (k : α) (f : β → β)
    (m : List (α × β)) (p : α × β) :
    p ∈ map_modify lt k f m ↔
      (p ∈ m ∧ p.1 ≠ k) ∨ (∃ b, (k, b) ∈ m ∧ p = (k, f b)) := by
  simp only [map_modify, List.mem_map]
  constructor
  · rintro ⟨q, hq, rfl⟩
    by_cases hk : equiv_under lt k q.1 = true
    · have hkq : k = q.1 := (equiv_under_iff h _ _).1 hk
      right
      refine ⟨q.2, ?_, ?_⟩
      · rw [hkq]; exact hq
      · rw [if_pos hk, hkq]
    · have hkq : k ≠ q.1 := fun e => hk ((equiv_under_iff h _ _).2 e)
      left
      rw [if_neg hk]
      exact ⟨hq, fun e => hkq e.symm⟩
  · rintro (⟨hp, hne⟩ | ⟨b, hb, rfl⟩)
    · refine ⟨p, hp, ?_⟩
      have hk : ¬ equiv_under lt k p.1 = true := fun e => hne ((equiv_under_iff h _ _).1 e).symm
      rw [if_neg hk]
    · refine ⟨(k, b), hb, ?_⟩
      simp [(equiv_under_iff h k k).2 rfl]

end map_facts

/-! ## Comparators and the node set -/

section comparator_facts
variable {N E : Type} [LinearOrder N] [LinearOrder E]

theorem node_compare_strict : strict_total (node_compare : N → N → Bool) where
  irrefl := fun a => by simp [node_compare]
  trans := fun a b c hab hbc => by
    simp only [node_compare, decide_eq_true_eq] at *
    exact lt_trans hab hbc
  total := fun a b hab hba => by
    simp only [node_compare, decide_eq_false_iff_not, not_lt] at *
    exact le_antisymm hba hab

theorem edge_compare_iff (p q : N × E) :
    edge_compare p q = true ↔ p.1 < q.1 ∨ (p.1 = q.1 ∧ p.2 < q.2) := by
  unfold edge_compare
  by_cases h : p.1 = q.1
  · simp [h]
  · simp only [ne_eq, h, not_false_eq_true, if_true, decide_eq_true_eq, false_and, or_false]

theorem edge_compare_strict : strict_total (edge_compare : N × E → N × E → Bool) where
  irrefl := fun a => by
    rw [← Bool.not_eq_true, edge_compare_iff]
    simp
  trans := fun a b c hab hbc => by
    rw [edge_compare_iff] at *
    rcases hab with h1 | ⟨h1, h2⟩
    · rcases hbc with h3 | ⟨h3, _⟩
      · exact Or.inl (lt_trans h1 h3)
      · exact Or.inl (h3 ▸ h1)
    · rcases hbc with h3 | ⟨h3, h4⟩
      · exact Or.inl (h1 ▸ h3)
      · exact Or.inr ⟨h1.trans h3, lt_trans h2 h4⟩
  total := fun a b hab hba => by
    rw [← Bool.not_eq_true, edge_compare_iff] at hab hba
    push_neg at hab hba
    have h1 : a.1 = b.1 := le_antisymm hba.1 hab.1
    have h2 : a.2 = b.2 := le_antisymm (hba.2 h1.symm) (hab.2 h1)
    exact Prod.ext h1 h2

theorem value_compare_iff (a b : value_type N E) :
    value_compare a b = true ↔
      a.from_ < b.from_ ∨ (a.from_ = b.from_ ∧
        (a.to_ < b.to_ ∨ (a.to_ = b.to_ ∧ a.weight < b.weight))) := by
  simp [value_compare]

theorem value_compare_strict : strict_total (value_compare : value_type N E → _ → Bool) where
  irrefl := fun a => by
    rw [← Bool.not_eq_true, value_compare_iff]
    simp
  trans := fun a b c hab hbc => by
    rw [value_compare_iff] at *
    rcases hab with h1 | ⟨h1, h2⟩
    · rcases hbc with h3 | ⟨h3, _⟩
      · exact Or.inl (lt_trans h1 h3)
      · exact Or.inl (h3 ▸ h1)
    · rcases hbc with h3 | ⟨h3, h4⟩
      · exact Or.inl (h1 ▸ h3)
      · refine Or.inr ⟨h1.trans h3, ?_⟩
        rcases h2 with h5 | ⟨h5, h6⟩
        · rcases h4 with h7 | ⟨h7, _⟩
          · exact Or.inl (lt_trans h5 h7)
          · exact Or.inl (h7 ▸ h5)
        · rcases h4 with h7 | ⟨h7, h8⟩
          · exact Or.inl (h5 ▸ h7)
          · exact Or.inr ⟨h5.trans h7, lt_trans h6 h8⟩
  total := fun a b hab hba => by
    rw [← Bool.not_eq_true, value_compare_iff] at hab hba
    push_neg at hab hba
    have h1 : a.from_ = b.from_ := le_antisymm hba.1 hab.1
    have h2 : a.to_ = b.to_ := le_antisymm (hba.2 h1.symm).1 (hab.2 h1).1
    have h3 : a.weight = b.weight :=
      le_antisymm ((hba.2 h1.symm).2 h2.symm) ((hab.2 h1).2 h2)
    cases a; cases b; simp_all

theorem is_node_iff (g : graph N E) (v : N) : g.is_node v = true ↔ v ∈ g.nodes_rep_ :=
  set_contains_iff node_compare_strict v g.nodes_rep_

theorem is_node_congr {g g1 : graph N E} (h : g1.nodes_rep_ = g.nodes_rep_) (v : N) :
    g1.is_node v = g.is_node v := by
  unfold graph.is_node; rw [h]

theorem insert_edge_nodes (g : graph N E) (src dst : N) (w : E) :
    (g.insert_edge src dst w).2.nodes_rep_ = g.nodes_rep_ := by
  unfold graph.insert_edge
  dsimp only
  split_ifs <;> rfl

theorem insert_edge_u_ptrs (g : graph N E) (src dst : N) (w : E) :
    (g.insert_edge src dst w).2.node_u_ptrs_ = g.node_u_ptrs_ := by
  unfold graph.insert_edge
  dsimp only
  split_ifs <;> rfl

theorem insert_edge_raises_iff (g : graph N E) (src dst : N) (w : E) :
    (∃ msg, (g.insert_edge src dst w).1 = .error msg) ↔
      (g.is_node src = false ∨ g.is_node dst = false) := by
  unfold graph.insert_edge
  dsimp only
  split_ifs with h1
  all_goals simp only [Except.error.injEq, exists_eq', true_iff, exists_false, false_iff, reduceCtorEq]
  all_goals simpa using h1

theorem insert_edge_raises_state (g : graph N E) (src dst : N) (w : E) (msg : String)
    (h : (g.insert_edge src dst w).1 = .error msg) : (g.insert_edge src dst w).2 = g := by
  unfold graph.insert_edge at h ⊢
  dsimp only at h ⊢
  split_ifs at h ⊢
  all_goals rfl

end comparator_facts

/-! ## The node set under the operations -/

section node_set
variable {N E : Type} [LinearOrder N] [LinearOrder E]

theorem insert_node_nodes (g : graph N E) (v : N) :
    (g.insert_node v).2.nodes_rep_ =
      if g.is_node v then g.nodes_rep_ else set_emplace node_compare v g.nodes_rep_ := by
  unfold graph.insert_node
  split_ifs <;> rfl

theorem insert_node_edges (g : graph N E) (v : N) :
    (g.insert_node v).2.edges_rep_ = g.edges_rep_ := by
  unfold graph.insert_node
  split_ifs <;> rfl

theorem insert_node_ascending {g : graph N E} (v : N) (h : g.nodes_ascending) :
    (g.insert_node v).2.nodes_ascending := by
  unfold graph.nodes_ascending at *
  rw [insert_node_nodes]
  split_ifs
  · exact h
  · exact ascending_set_emplace node_compare_strict v h

theorem foldl_insert_node_ascending (xs : List N) {g : graph N E} (h : g.nodes_ascending) :
    (xs.foldl (fun g v => (g.insert_node v).2) g).nodes_ascending := by
  induction xs generalizing g with
  | nil => exact h
  | cons x xs ih => exact ih (insert_node_ascending x h)

theorem foldl_insert_node_edges (xs : List N) (g : graph N E) :
    (xs.foldl (fun g v => (g.insert_node v).2) g).edges_rep_ = g.edges_rep_ := by
  induction xs generalizing g with
  | nil => rfl
  | cons x xs ih => rw [List.foldl_cons, ih, insert_node_edges]

theorem merge_loop_nodes (new_data : N) (l : List (N × E)) (g : graph N E) :
    (merge_loop new_data l g).2.nodes_rep_ = g.nodes_rep_ := by
  induction l generalizing g with
  | nil => rfl
  | cons e rest ih =>
    unfold merge_loop
    split_ifs
    · exact ih g
    · have hn := insert_edge_nodes g new_data e.1 e.2
      split
      · rename_i msg g1 heq
        rw [heq] at hn
        exact hn
      · rename_i r g1 heq
        rw [heq] at hn
        rw [ih g1]
        exact hn

theorem merge_loop_ok (new_data : N) (l : List (N × E)) (g : graph N E)
    (hnew : g.is_node new_data = true) (hl : ∀ e ∈ l, g.is_node e.1 = true) :
    (merge_loop new_data l g).1 = .ok () := by
  induction l generalizing g with
  | nil => rfl
  | cons e rest ih =>
    unfold merge_loop
    split_ifs
    · exact ih g hnew (fun x hx => hl x (List.mem_cons_of_mem _ hx))
    · have hn := insert_edge_nodes g new_data e.1 e.2
      have hr := insert_edge_raises_iff g new_data e.1 e.2
      split
      · rename_i msg g1 heq
        rw [heq] at hr
        have := hr.1 ⟨msg, rfl⟩
        rw [hnew, hl e (List.mem_cons_self _ _)] at this
        simp at this
      · rename_i r g1 heq
        rw [heq] at hn
        apply ih g1
        · rw [is_node_congr hn]; exact hnew
        · intro x hx
          rw [is_node_congr hn]
          exact hl x (List.mem_cons_of_mem _ hx)

theorem mem_repoint_loop (old_h new_h : N) (rest cur : List (N × E)) (x : N × E)
    (hx : x ∈ repoint_loop old_h new_h rest cur) : x ∈ cur ∨ x.1 = new_h := by
  induction rest generalizing cur with
  | nil => exact Or.inl hx
  | cons e rest ih =>
    unfold repoint_loop at hx
    split_ifs at hx
    · rcases ih _ hx with h | h
      · rcases (mem_set_emplace edge_compare_strict _ _ _).1 h with h | h
        · right; rw [h]
        · left; exact ((mem_set_erase edge_compare_strict _ _ _).1 h).1
      · exact Or.inr h
    · exact ih _ hx

theorem replace_node_nodes (g : graph N E) (old_data new_data : N) :
    (g.replace_node old_data new_data).2.nodes_rep_ =
      if g.is_node old_data = true ∧ g.is_node new_data = false then
        set_erase node_compare old_data (set_emplace node_compare new_data g.nodes_rep_)
      else g.nodes_rep_ := by
  unfold graph.replace_node
  by_cases h1 : g.is_node old_data = true <;> by_cases h2 : g.is_node new_data = true <;>
    simp [h1, h2]

theorem merge_replace_node_nodes (g : graph N E) (old_data new_data : N) :
    (g.merge_replace_node old_data new_data).2.nodes_rep_ = g.nodes_rep_ ∨
    (g.merge_replace_node old_data new_data).2.nodes_rep_
      = set_erase node_compare old_data g.nodes_rep_ := by
  unfold graph.merge_replace_node
  split_ifs with hpre
  · exact Or.inl rfl
  · dsimp only
    cases hm : map_second node_compare old_data (repoint_all old_data new_data g.edges_rep_) with
    | none => exact Or.inr rfl
    | some ode =>
      dsimp only
      generalize hG2 : (if map_contains node_compare new_data _ = true then _ else _ : graph N E)
        = G2
      have hn2 : G2.nodes_rep_ = g.nodes_rep_ := by
        rw [← hG2]; split_ifs <;> rfl
      have hn3 := merge_loop_nodes new_data ode G2
      rcases hl : merge_loop new_data ode G2 with ⟨r, g3⟩
      rw [hl] at hn3
      cases r with
      | error msg => left; exact hn3.trans hn2
      | ok u =>
        right
        show set_erase node_compare old_data g3.nodes_rep_ = _
        rw [show g3.nodes_rep_ = g.nodes_rep_ from hn3.trans hn2]

theorem erase_node_nodes (g : graph N E) (v : N) :
    (g.erase_node v).2.nodes_rep_ =
      if g.is_node v then set_erase node_compare v g.nodes_rep_ else g.nodes_rep_ := by
  unfold graph.erase_node
  split_ifs <;> simp_all

theorem erase_edge_iter_nodes {g g1 : graph N E} {i i1 : iterator N E}
    (h : g.erase_edge_iter i = some (i1, g1)) :
    g1.nodes_rep_ = g.nodes_rep_ ∧ g1.node_u_ptrs_ = g.node_u_ptrs_ := by
  unfold graph.erase_edge_iter at h
  split at h
  · split at h
    · simp only [Option.some.injEq, Prod.mk.injEq] at h
      rw [← h.2]
      exact ⟨rfl, rfl⟩
    · exact absurd h (by simp)
  · exact absurd h (by simp)

theorem erase_range_loop_nodes (n : Nat) {g g1 : graph N E} {i s i1 : iterator N E}
    (h : erase_range_loop n g i s = some (i1, g1)) :
    g1.nodes_rep_ = g.nodes_rep_ ∧ g1.node_u_ptrs_ = g.node_u_ptrs_ := by
  induction n generalizing g i with
  | zero =>
    unfold erase_range_loop at h
    split_ifs at h
    simp only [Option.some.injEq, Prod.mk.injEq] at h
    rw [← h.2]; exact ⟨rfl, rfl⟩
  | succ n ih =>
    unfold erase_range_loop at h
    split_ifs at h
    · simp only [Option.some.injEq, Prod.mk.injEq] at h
      rw [← h.2]; exact ⟨rfl, rfl⟩
    · split at h
      · rename_i iter1 g2 heq
        have h1 := erase_edge_iter_nodes heq
        have h2 := ih h
        exact ⟨h2.1.trans h1.1, h2.2.trans h1.2⟩
      · exact absurd h (by simp)

theorem erase_edge_nodes {g g1 : graph N E} {src dst : N} {w : E} {r : Except String Bool}
    (h : g.erase_edge src dst w = some (r, g1)) :
    g1.nodes_rep_ = g.nodes_rep_ ∧ g1.node_u_ptrs_ = g.node_u_ptrs_ := by
  unfold graph.erase_edge at h
  dsimp only at h
  split_ifs at h
  · simp only [Option.some.injEq, Prod.mk.injEq] at h
    rw [← h.2]; exact ⟨rfl, rfl⟩
  · simp only [Option.some.injEq, Prod.mk.injEq] at h
    rw [← h.2]; exact ⟨rfl, rfl⟩
  · split at h
    · rename_i i1 g2 heq
      simp only [Option.some.injEq, Prod.mk.injEq] at h
      rw [← h.2]
      exact erase_edge_iter_nodes heq
    · exact absurd h (by simp)

theorem copy_bucket_loop_nodes (curr_src : N) (l : List (N × E)) (g : graph N E) :
    (copy_bucket_loop curr_src l g).2.nodes_rep_ = g.nodes_rep_ := by
  induction l generalizing g with
  | nil => rfl
  | cons e rest ih =>
    unfold copy_bucket_loop
    have hn := insert_edge_nodes g curr_src e.1 e.2
    split
    · rename_i msg g1 heq
      rw [heq] at hn
      exact hn
    · rename_i r g1 heq
      rw [heq] at hn
      rw [ih g1]
      exact hn

theorem copy_edges_loop_nodes (m : List (N × List (N × E))) (g : graph N E) :
    (copy_edges_loop m g).2.nodes_rep_ = g.nodes_rep_ := by
  induction m generalizing g with
  | nil => rfl
  | cons p rest ih =>
    unfold copy_edges_loop
    have hn := copy_bucket_loop_nodes p.1 p.2 g
    split
    · rename_i msg g1 heq
      rw [heq] at hn
      exact hn
    · rename_i r g1 heq
      rw [heq] at hn
      rw [ih g1]
      exact hn

theorem copy_into_ascending {self : graph N E} (other : graph N E) (h : self.nodes_ascending) :
    (copy_into self other).2.nodes_ascending := by
  unfold copy_into graph.nodes_ascending
  rw [copy_edges_loop_nodes]
  exact foldl_insert_node_ascending other.nodes_rep_ h

theorem ascending_nil {α : Type} (lt : α → α → Bool) : ascending lt [] := List.Pairwise.nil

theorem reachable_nodes_ascending {allowed : N → N → Prop} {g : graph N E}
    (h : reachable_by allowed g) : g.nodes_ascending := by
  induction h with
  | default => exact ascending_nil _
  | from_range xs => exact foldl_insert_node_ascending xs (ascending_nil _)
  | copy_construct _ _ _ => exact copy_into_ascending _ (ascending_nil _)
  | copy_assign _ _ ih _ => exact copy_into_ascending _ ih
  | move_construct_target _ ih => exact ih
  | move_construct_source _ _ => exact ascending_nil _
  | move_assign_target _ _ _ ih => exact ih
  | move_assign_source _ _ _ _ => exact ascending_nil _
  | insert_node v _ ih => exact insert_node_ascending v ih
  | insert_edge s d w _ ih =>
    unfold graph.nodes_ascending at *
    rw [insert_edge_nodes]; exact ih
  | replace_node o n _ ih =>
    unfold graph.nodes_ascending at *
    rw [replace_node_nodes]
    split_ifs
    · exact ascending_set_erase _ (ascending_set_emplace node_compare_strict _ ih)
    · exact ih
  | @merge_replace_node g0 o n _ _ ih =>
    unfold graph.nodes_ascending at *
    rcases merge_replace_node_nodes g0 o n with h | h
    · rw [h]; exact ih
    · rw [h]; exact ascending_set_erase _ ih
  | erase_node v _ ih =>
    unfold graph.nodes_ascending at *
    rw [erase_node_nodes]
    split_ifs
    · exact ascending_set_erase _ ih
    · exact ih
  | erase_edge s d w _ h ih =>
    unfold graph.nodes_ascending at *
    rw [(erase_edge_nodes h).1]; exact ih
  | erase_edge_iter i _ h ih =>
    unfold graph.nodes_ascending at *
    rw [(erase_edge_iter_nodes h).1]; exact ih
  | erase_edge_range i s _ h ih =>
    unfold graph.nodes_ascending at *
    rw [(erase_range_loop_nodes _ h).1]; exact ih
  | clear _ _ => exact ascending_nil _

end node_set

/-! ## Traversal by the iterator -/

section traversal
variable {N E : Type} [LinearOrder N] [LinearOrder E]

theorem iter_next_append {α : Type} [DecidableEq α] (x : α) (l1 l2 : List α) (h : x ∉ l1) :
    iter_next x (l1 ++ x :: l2) = l2.head? := by
  induction l1 with
  | nil => simp [iter_next]
  | cons y ys ih =>
    rw [List.mem_cons, not_or] at h
    rw [List.cons_append, iter_next, if_neg (fun e => h.1 e.symm)]
    exact ih h.2

theorem map_second_append {α β : Type} {lt : α → α → Bool} (hlt : strict_total lt) (k : α) (b : β)
    (pre post : List (α × β)) (h : k ∉ pre.map Prod.fst) :
    map_second lt k (pre ++ (k, b) :: post) = some b := by
  induction pre with
  | nil => simp [map_second, (equiv_under_iff hlt k k).2 rfl]
  | cons p ps ih =>
    rw [List.map_cons, List.mem_cons, not_or] at h
    have hk : ¬ equiv_under lt k p.1 = true := fun e => h.1 ((equiv_under_iff hlt _ _).1 e)
    rw [List.cons_append, map_second, if_neg hk]
    exact ih h.2

theorem records_append (m1 m2 : List (N × List (N × E))) :
    records (m1 ++ m2) = records m1 ++ records m2 := by
  induction m1 with
  | nil => rfl
  | cons p ps ih => simp [records, ih]

theorem edge_count_eq (g : graph N E) : g.edge_count = (records g.edges_rep_).length := by
  unfold graph.edge_count
  induction g.edges_rep_ with
  | nil => rfl
  | cons p ps ih => simp [records, ih]

theorem mem_records (m : List (N × List (N × E))) (r : value_type N E) :
    r ∈ records m ↔ ∃ p ∈ m, (r.to_, r.weight) ∈ p.2 ∧ r.from_ = p.1 := by
  induction m with
  | nil => simp [records]
  | cons p ps ih =>
    simp only [records, List.mem_append, List.mem_map, ih, List.mem_cons, exists_eq_or_imp]
    constructor
    · rintro (⟨e, he, rfl⟩ | h)
      · exact Or.inl ⟨he, rfl⟩
      · exact Or.inr h
    · rintro (⟨he, hf⟩ | h)
      · refine Or.inl ⟨(r.to_, r.weight), he, ?_⟩
        cases r; simp_all
      · exact Or.inr h

/-- The traversal from a position inside the adjacency index yields the rest of the current
bucket followed by the records of the buckets after it. -/
theorem iterate_from_pos (g : graph N E)
    (hkeys : (g.edges_rep_.map Prod.fst).Nodup)
    (hbuckets : ∀ p ∈ g.edges_rep_, p.2.Nodup)
    (hne : g.no_empty_bucket) (n : Nat) :
    ∀ (pre post : List (N × List (N × E))) (k : N) (bpre bpost : List (N × E)) (e : N × E)
      (it : iterator N E),
      g.edges_rep_ = pre ++ (k, bpre ++ e :: bpost) :: post →
      it.curr_map_iter_ = some k → it.curr_set_iter_ = some e → it.edges_map_end_ = none →
      bpost.length + 1 + (records post).length ≤ n →
      iterate_from n g it
        = some ((e :: bpost).map (fun x => (⟨k, x.1, x.2⟩ : value_type N E)) ++ records post) := by
  induction n with
  | zero => intro pre post k bpre bpost e it _ _ _ _ hn; omega
  | succ n ih =>
    intro pre post k bpre bpost e it hsplit hk he hend hn
    have hkeys2 := hkeys
    rw [hsplit, List.map_append, List.map_cons, List.nodup_append] at hkeys2
    have hkpre : k ∉ pre.map Prod.fst := by
      intro hmem
      exact hkeys2.2.2 hmem (List.mem_cons_self _ _)
    have hb : (bpre ++ e :: bpost).Nodup :=
      hbuckets (k, bpre ++ e :: bpost) (by rw [hsplit]; simp)
    have hb2 := hb
    rw [List.nodup_append] at hb2
    have hepre : e ∉ bpre := fun hmem => hb2.2.2 hmem (List.mem_cons_self _ _)
    have hms : map_second node_compare k g.edges_rep_ = some (bpre ++ e :: bpost) := by
      rw [hsplit]; exact map_second_append node_compare_strict _ _ _ _ hkpre
    have hnotend : it.operator_eq g.end_ = false := by
      simp [iterator.operator_eq, graph.end_, iterator.at_end, hk]
    have hderef : it.deref g.edges_rep_ = some ⟨k, e.1, e.2⟩ := by
      simp [iterator.deref, hk, he, hms]
    have hnext_e : iter_next e (bpre ++ e :: bpost) = bpost.head? :=
      iter_next_append e bpre bpost hepre
    have hnext_k : iter_next k (g.edges_rep_.map Prod.fst) = (post.map Prod.fst).head? := by
      rw [hsplit, List.map_append, List.map_cons]
      exact iter_next_append k _ _ hkpre
    rw [iterate_from, hnotend, hderef]
    simp only [Bool.false_eq_true, if_false]
    cases bpost with
    | cons e1 bpost1 =>
      have hincr : it.incr g.edges_rep_ = some { it with curr_set_iter_ := some e1 } := by
        simp [iterator.incr, hk, he, hms, hnext_e]
      rw [hincr]
      have := ih pre post k (bpre ++ [e]) bpost1 e1 { it with curr_set_iter_ := some e1 }
        (by rw [hsplit]; simp) hk rfl hend (by simp only [List.length_cons] at hn; omega)
      simp only [this, Option.map_some']
      simp
    | nil =>
      cases post with
      | nil =>
        have hincr : it.incr g.edges_rep_
            = some { it with curr_map_iter_ := none, curr_set_iter_ := none } := by
          simp [iterator.incr, hk, he, hms, hnext_e, hnext_k, hend]
        rw [hincr]
        have hstop : ∀ m, iterate_from m g
            ({ it with curr_map_iter_ := none, curr_set_iter_ := none } : iterator N E) = some [] := by
          intro m
          cases m <;> simp [iterate_from, iterator.operator_eq, graph.end_, iterator.at_end]
        simp [hstop, records]
      | cons q post1 =>
        obtain ⟨k1, b1⟩ := q
        have hb1 : b1 ≠ [] := hne (k1, b1) (by rw [hsplit]; simp)
        obtain ⟨e1, b2, rfl⟩ := List.exists_cons_of_ne_nil hb1
        have hk1 : k1 ∉ (pre ++ [(k, bpre ++ [e])]).map Prod.fst := by
          intro hmem
          rw [List.map_append, List.mem_append] at hmem
          rcases hmem with hmem | hmem
          · exact hkeys2.2.2 hmem (by simp)
          · have hkk : k1 = k := by simpa using hmem
            have hnd := hkeys2.2.1
            rw [List.map_cons, List.nodup_cons] at hnd
            exact hnd.1 (by simp [hkk])
        have hms1 : map_second node_compare k1 g.edges_rep_ = some (e1 :: b2) := by
          have : g.edges_rep_ = (pre ++ [(k, bpre ++ [e])]) ++ (k1, e1 :: b2) :: post1 := by
            rw [hsplit]; simp
          rw [this]
          exact map_second_append node_compare_strict _ _ _ _ hk1
        have hincr : it.incr g.edges_rep_
            = some { it with curr_map_iter_ := some k1, curr_set_iter_ := some e1 } := by
          simp [iterator.incr, hk, he, hms, hnext_e, hnext_k, hend, hms1]
        rw [hincr]
        have := ih (pre ++ [(k, bpre ++ [e])]) post1 k1 [] b2 e1
          { it with curr_map_iter_ := some k1, curr_set_iter_ := some e1 }
          (by rw [hsplit]; simp) rfl rfl hend
          (by simp only [records, List.length_append, List.length_map, List.length_cons,
                List.length_nil] at hn ⊢; omega)
        simp only [this, Option.map_some']
        simp [records]

theorem edges_eq_records (g : graph N E) (h2 : g.I2) (h3 : g.I3) (hne : g.no_empty_bucket) :
    g.edges = some (records g.edges_rep_) := by
  unfold graph.edges
  rw [edge_count_eq]
  cases hm : g.edges_rep_ with
  | nil =>
    simp [records, iterate_from, graph.begin, graph.end_, iterator.at_begin, iterator.at_end,
      iterator.operator_eq, hm]
  | cons p post =>
    obtain ⟨k, b⟩ := p
    have hb : b ≠ [] := hne (k, b) (by rw [hm]; simp)
    obtain ⟨e, bpost, rfl⟩ := List.exists_cons_of_ne_nil hb
    have := iterate_from_pos g (ascending_nodup node_compare_strict h3)
      (fun p hp => ascending_nodup edge_compare_strict (h2 p hp)) hne
      (records ((k, e :: bpost) :: post)).length [] post k [] bpost e g.begin
      (by rw [hm]; rfl)
      (by simp [graph.begin, iterator.at_begin, hm])
      (by simp [graph.begin, iterator.at_begin, hm])
      (by simp [graph.begin, iterator.at_begin])
      (by simp [records]; omega)
    rw [this]
    simp [records]

end traversal

/-! ## insert_edge -/

section insert_edge_shape
variable {N E : Type} [LinearOrder N] [LinearOrder E]

theorem ascending_records {m : List (N × List (N × E))}
    (h3 : ascending node_compare (m.map Prod.fst))
    (h2 : ∀ p ∈ m, ascending edge_compare p.2) :
    ascending value_compare (records m) := by
  induction m with
  | nil => exact ascending_nil _
  | cons p ps ih =>
    unfold ascending at h3
    rw [List.map_cons, List.pairwise_cons] at h3
    unfold records ascending
    rw [List.pairwise_append]
    refine ⟨?_, ih h3.2 (fun q hq => h2 q (List.mem_cons_of_mem _ hq)), ?_⟩
    · rw [List.pairwise_map]
      refine List.Pairwise.imp ?_ (h2 p (List.mem_cons_self _ _))
      intro a b hab
      rw [value_compare_iff]
      rw [edge_compare_iff] at hab
      exact Or.inr ⟨rfl, hab⟩
    · intro a ha b hb
      rw [List.mem_map] at ha
      obtain ⟨e, _, rfl⟩ := ha
      rw [mem_records] at hb
      obtain ⟨q, hq, _, hqf⟩ := hb
      rw [value_compare_iff]
      left
      have := h3.1 q.1 (List.mem_map.2 ⟨q, hq, rfl⟩)
      simp only [node_compare, decide_eq_true_eq] at this
      rw [hqf]; exact this

theorem map_modify_of_not_mem {α β : Type} {lt : α → α → Bool} (hlt : strict_total lt) (k : α)
    (f : β → β) (m : List (α × β)) (h : k ∉ m.map Prod.fst) : map_modify lt k f m = m := by
  unfold map_modify
  conv_rhs => rw [← List.map_id m]
  apply List.map_congr_left
  intro p hp
  have hk : ¬ equiv_under lt k p.1 = true := by
    intro e
    apply h
    rw [(equiv_under_iff hlt _ _).1 e]
    exact List.mem_map.2 ⟨p, hp, rfl⟩
  rw [if_neg hk]; rfl

theorem map_modify_emplace {α β : Type} {lt : α → α → Bool} (hlt : strict_total lt) (k : α)
    (f : β → β) (v : β) (m : List (α × β)) (h : k ∉ m.map Prod.fst) :
    map_modify lt k f (map_emplace lt k v m) = map_emplace lt k (f v) m := by
  induction m with
  | nil => simp [map_emplace, map_modify, (equiv_under_iff hlt k k).2 rfl]
  | cons p ps ih =>
    rw [List.map_cons, List.mem_cons, not_or] at h
    have hk : ¬ equiv_under lt k p.1 = true := fun e => h.1 ((equiv_under_iff hlt _ _).1 e)
    have hps : map_modify lt k f ps = ps := map_modify_of_not_mem hlt k f ps h.2
    unfold map_emplace
    by_cases h1 : lt k p.1 = true
    · rw [if_pos h1, if_pos h1]
      have := map_modify_of_not_mem hlt k f (p :: ps)
        (by rw [List.map_cons, List.mem_cons, not_or]; exact h)
      unfold map_modify at this ⊢
      rw [List.map_cons, this]
      simp [(equiv_under_iff hlt k k).2 rfl]
    · rw [if_neg h1, if_neg h1]
      by_cases h2 : lt p.1 k = true
      · rw [if_pos h2, if_pos h2]
        have := ih h.2
        unfold map_modify at this ⊢
        rw [List.map_cons, this, if_neg hk]
      · exact absurd (hlt.total k p.1 (by simpa using h1) (by simpa using h2)) h.1

theorem map_second_emplace {α β : Type} {lt : α → α → Bool} (hlt : strict_total lt) (k : α)
    (v : β) (m : List (α × β)) (h : k ∉ m.map Prod.fst) :
    map_second lt k (map_emplace lt k v m) = some v := by
  induction m with
  | nil => simp [map_emplace, map_second, (equiv_under_iff hlt k k).2 rfl]
  | cons p ps ih =>
    rw [List.map_cons, List.mem_cons, not_or] at h
    have hk : ¬ equiv_under lt k p.1 = true := fun e => h.1 ((equiv_under_iff hlt _ _).1 e)
    unfold map_emplace
    by_cases h1 : lt k p.1 = true
    · rw [if_pos h1]
      simp [map_second, (equiv_under_iff hlt k k).2 rfl]
    · rw [if_neg h1]
      by_cases h2 : lt p.1 k = true
      · rw [if_pos h2, map_second, if_neg hk]
        exact ih h.2
      · exact absurd (hlt.total k p.1 (by simpa using h1) (by simpa using h2)) h.1

/-- What `insert_edge` does once both endpoints are nodes. -/
theorem insert_edge_eq (g : graph N E) (src dst : N) (w : E)
    (hs : g.is_node src = true) (hd : g.is_node dst = true) :
    g.insert_edge src dst w =
      match map_second node_compare src g.edges_rep_ with
      | some b =>
        if (dst, w) ∈ b then (.ok false, g)
        else (.ok true, ⟨g.node_u_ptrs_,
                map_modify node_compare src (set_emplace edge_compare (dst, w)) g.edges_rep_,
                g.nodes_rep_⟩)
      | none =>
        (.ok true, ⟨g.node_u_ptrs_, map_emplace node_compare src [(dst, w)] g.edges_rep_,
                g.nodes_rep_⟩) := by
  unfold graph.insert_edge
  have hpre : (!g.is_node src || !g.is_node dst) = false := by simp [hs, hd]
  rw [hpre]
  simp only [Bool.false_eq_true, if_false]
  cases hm : map_second node_compare src g.edges_rep_ with
  | none =>
    have hnk : src ∉ g.edges_rep_.map Prod.fst := (map_second_eq_none node_compare_strict _ _).1 hm
    have hc : map_contains node_compare src g.edges_rep_ = false := by
      rw [← Bool.not_eq_true, map_contains_iff node_compare_strict]; exact hnk
    simp only [hc, Bool.false_eq_true, if_false]
    rw [map_second_emplace node_compare_strict _ _ _ hnk,
      map_modify_emplace node_compare_strict _ _ _ _ hnk]
    simp [set_contains, set_emplace]
  | some b =>
    have hc : map_contains node_compare src g.edges_rep_ = true := by
      rw [← map_second_isSome node_compare_strict, hm]; rfl
    simp only [hc, if_true, hm, Option.getD_some]
    by_cases hmem : (dst, w) ∈ b
    · have := (set_contains_iff edge_compare_strict (dst, w) b).2 hmem
      simp [this, hmem]
    · have : set_contains edge_compare (dst, w) b = false := by
        rw [← Bool.not_eq_true, set_contains_iff edge_compare_strict]; exact hmem
      simp [this, hmem]

end insert_edge_shape

section index_facts
variable {N E : Type} [LinearOrder N] [LinearOrder E]

theorem valid_index_ordered {g : graph N E} (h : g.valid) : index_ordered g.edges_rep_ :=
  ⟨h.2.2.2.1, h.2.2.1, h.2.2.2.2⟩

theorem edges_of_index_ordered {g : graph N E} (h : index_ordered g.edges_rep_) :
    g.edges = some (records g.edges_rep_) :=
  edges_eq_records g h.2.1 h.1 h.2.2

theorem set_emplace_ne_nil {α : Type} (lt : α → α → Bool) (x : α) (s : List α) :
    set_emplace lt x s ≠ [] := by
  cases s with
  | nil => simp [set_emplace]
  | cons y ys =>
    unfold set_emplace
    split_ifs <;> simp

theorem index_ordered_modify {m : List (N × List (N × E))} (h : index_ordered m) (k : N)
    (f : List (N × E) → List (N × E))
    (hf : ∀ b, ascending edge_compare b → ascending edge_compare (f b))
    (hne : ∀ b, (k, b) ∈ m → f b ≠ []) :
    index_ordered (map_modify node_compare k f m) := by
  refine ⟨?_, ?_, ?_⟩
  · rw [keys_map_modify]; exact h.1
  · intro p hp
    rcases (mem_map_modify node_compare_strict k f m p).1 hp with ⟨hp, _⟩ | ⟨b, hb, rfl⟩
    · exact h.2.1 p hp
    · exact hf b (h.2.1 _ hb)
  · intro p hp
    rcases (mem_map_modify node_compare_strict k f m p).1 hp with ⟨hp, _⟩ | ⟨b, hb, rfl⟩
    · exact h.2.2 p hp
    · exact hne b hb

theorem index_ordered_emplace {m : List (N × List (N × E))} (h : index_ordered m) (k : N)
    (v : List (N × E)) (hv : ascending edge_compare v) (hne : v ≠ []) :
    index_ordered (map_emplace node_compare k v m) := by
  refine ⟨?_, ?_, ?_⟩
  · rw [keys_map_emplace]; exact ascending_set_emplace node_compare_strict k h.1
  · intro p hp
    rcases (mem_map_emplace node_compare_strict k v h.1 p).1 hp with hp | ⟨rfl, _⟩
    · exact h.2.1 p hp
    · exact hv
  · intro p hp
    rcases (mem_map_emplace node_compare_strict k v h.1 p).1 hp with hp | ⟨rfl, _⟩
    · exact h.2.2 p hp
    · exact hne

theorem index_ordered_erase {m : List (N × List (N × E))} (h : index_ordered m) (k : N) :
    index_ordered (map_erase node_compare k m) := by
  refine ⟨?_, ?_, ?_⟩
  · rw [keys_map_erase]; exact ascending_set_erase k h.1
  · intro p hp
    exact h.2.1 p ((mem_map_erase node_compare_strict k m p).1 hp).1
  · intro p hp
    exact h.2.2 p ((mem_map_erase node_compare_strict k m p).1 hp).1

theorem mem_records_modify (m : List (N × List (N × E))) (k : N)
    (f : List (N × E) → List (N × E)) (r : value_type N E) :
    r ∈ records (map_modify node_compare k f m) ↔
      (r ∈ records m ∧ r.from_ ≠ k) ∨
        (r.from_ = k ∧ ∃ b, (k, b) ∈ m ∧ (r.to_, r.weight) ∈ f b) := by
  simp only [mem_records]
  constructor
  · rintro ⟨p, hp, hmem, hfrom⟩
    rcases (mem_map_modify node_compare_strict k f m p).1 hp with ⟨hp, hne⟩ | ⟨b, hb, rfl⟩
    · exact Or.inl ⟨⟨p, hp, hmem, hfrom⟩, by rw [hfrom]; exact hne⟩
    · exact Or.inr ⟨hfrom, b, hb, hmem⟩
  · rintro (⟨⟨p, hp, hmem, hfrom⟩, hne⟩ | ⟨hfrom, b, hb, hmem⟩)
    · exact ⟨p, (mem_map_modify node_compare_strict k f m p).2
        (Or.inl ⟨hp, by rw [← hfrom]; exact hne⟩), hmem, hfrom⟩
    · exact ⟨(k, f b), (mem_map_modify node_compare_strict k f m _).2
        (Or.inr ⟨b, hb, rfl⟩), hmem, hfrom⟩

theorem mem_records_emplace {m : List (N × List (N × E))}
    (h3 : ascending node_compare (m.map Prod.fst)) (k : N) (v : List (N × E))
    (r : value_type N E) :
    r ∈ records (map_emplace node_compare k v m) ↔
      r ∈ records m ∨ (k ∉ m.map Prod.fst ∧ r.from_ = k ∧ (r.to_, r.weight) ∈ v) := by
  simp only [mem_records]
  constructor
  · rintro ⟨p, hp, hmem, hfrom⟩
    rcases (mem_map_emplace node_compare_strict k v h3 p).1 hp with hp | ⟨rfl, hk⟩
    · exact Or.inl ⟨p, hp, hmem, hfrom⟩
    · exact Or.inr ⟨hk, hfrom, hmem⟩
  · rintro (⟨p, hp, hmem, hfrom⟩ | ⟨hk, hfrom, hmem⟩)
    · exact ⟨p, (mem_map_emplace node_compare_strict k v h3 p).2 (Or.inl hp), hmem, hfrom⟩
    · exact ⟨(k, v), (mem_map_emplace node_compare_strict k v h3 _).2 (Or.inr ⟨rfl, hk⟩),
        hmem, hfrom⟩

theorem mem_records_erase (m : List (N × List (N × E))) (k : N) (r : value_type N E) :
    r ∈ records (map_erase node_compare k m) ↔ r ∈ records m ∧ r.from_ ≠ k := by
  simp only [mem_records]
  constructor
  · rintro ⟨p, hp, hmem, hfrom⟩
    have := (mem_map_erase node_compare_strict k m p).1 hp
    exact ⟨⟨p, this.1, hmem, hfrom⟩, by rw [hfrom]; exact this.2⟩
  · rintro ⟨⟨p, hp, hmem, hfrom⟩, hne⟩
    exact ⟨p, (mem_map_erase node_compare_strict k m p).2 ⟨hp, by rw [← hfrom]; exact hne⟩,
      hmem, hfrom⟩

/-- An edge record is stored iff its (destination, weight) pair is in the bucket found for
its source. -/
theorem mem_records_iff_bucket {m : List (N × List (N × E))}
    (h3 : ascending node_compare (m.map Prod.fst)) (r : value_type N E) :
    r ∈ records m ↔ ∃ b, map_second node_compare r.from_ m = some b ∧ (r.to_, r.weight) ∈ b := by
  rw [mem_records]
  constructor
  · rintro ⟨p, hp, hmem, hfrom⟩
    refine ⟨p.2, ?_, hmem⟩
    rw [hfrom]
    exact map_second_of_mem node_compare_strict (ascending_nodup node_compare_strict h3) hp
  · rintro ⟨b, hb, hmem⟩
    exact ⟨(r.from_, b), map_second_mem node_compare_strict hb, hmem, rfl⟩

theorem insert_edge_index_ordered (g : graph N E) (src dst : N) (w : E)
    (h : index_ordered g.edges_rep_) : index_ordered (g.insert_edge src dst w).2.edges_rep_ := by
  by_cases hs : g.is_node src = true
  · by_cases hd : g.is_node dst = true
    · rw [insert_edge_eq g src dst w hs hd]
      cases hm : map_second node_compare src g.edges_rep_ with
      | none =>
        exact index_ordered_emplace h src _ (by simp [ascending]) (by simp)
      | some b =>
        dsimp only
        split_ifs
        · exact h
        · exact index_ordered_modify h src _
            (fun b hb => ascending_set_emplace edge_compare_strict _ hb)
            (fun b _ => set_emplace_ne_nil _ _ _)
    · have : (g.insert_edge src dst w).2 = g := by
        obtain ⟨msg, hmsg⟩ := (insert_edge_raises_iff g src dst w).2 (Or.inr (by simpa using hd))
        exact insert_edge_raises_state g src dst w msg hmsg
      rw [this]; exact h
  · have : (g.insert_edge src dst w).2 = g := by
      obtain ⟨msg, hmsg⟩ := (insert_edge_raises_iff g src dst w).2 (Or.inl (by simpa using hs))
      exact insert_edge_raises_state g src dst w msg hmsg
    rw [this]; exact h

theorem insert_edge_mem_records (g : graph N E) (src dst : N) (w : E)
    (hs : g.is_node src = true) (hd : g.is_node dst = true)
    (h3 : ascending node_compare (g.edges_rep_.map Prod.fst)) (r : value_type N E) :
    r ∈ records (g.insert_edge src dst w).2.edges_rep_ ↔
      r = ⟨src, dst, w⟩ ∨ r ∈ records g.edges_rep_ := by
  have hr : r = ⟨src, dst, w⟩ ↔ r.from_ = src ∧ (r.to_, r.weight) = (dst, w) := by
    cases r; simp
  rw [insert_edge_eq g src dst w hs hd]
  cases hm : map_second node_compare src g.edges_rep_ with
  | none =>
    have hnk : src ∉ g.edges_rep_.map Prod.fst := (map_second_eq_none node_compare_strict _ _).1 hm
    dsimp only
    rw [mem_records_emplace h3, hr]
    simp only [List.mem_singleton]
    tauto
  | some b =>
    have hb := map_second_mem node_compare_strict hm
    dsimp only
    split_ifs with hmem
    · constructor
      · exact fun h => Or.inr h
      · rintro (h | h)
        · rw [hr] at h
          rw [mem_records]
          exact ⟨(src, b), hb, by rw [h.2]; exact hmem, h.1⟩
        · exact h
    · dsimp only
      rw [mem_records_modify, hr]
      constructor
      · rintro (⟨h1, _⟩ | ⟨hfrom, b1, hb1, hmem1⟩)
        · exact Or.inr h1
        · rcases (mem_set_emplace edge_compare_strict _ _ _).1 hmem1 with h | h
          · exact Or.inl ⟨hfrom, h⟩
          · right
            rw [mem_records]
            exact ⟨(src, b1), hb1, h, hfrom⟩
      · rintro (⟨hfrom, h⟩ | h)
        · exact Or.inr ⟨hfrom, b, hb, (mem_set_emplace edge_compare_strict _ _ _).2 (Or.inl h)⟩
        · by_cases hfrom : r.from_ = src
          · right
            refine ⟨hfrom, b, hb, (mem_set_emplace edge_compare_strict _ _ _).2 (Or.inr ?_)⟩
            obtain ⟨b1, hb1, hmem1⟩ := (mem_records_iff_bucket h3 r).1 h
            rw [hfrom, hm] at hb1
            rw [Option.some.inj hb1]; exact hmem1
          · exact Or.inl ⟨h, hfrom⟩

theorem insert_edge_result (g : graph N E) (src dst : N) (w : E)
    (hs : g.is_node src = true) (hd : g.is_node dst = true)
    (h3 : ascending node_compare (g.edges_rep_.map Prod.fst)) :
    (g.insert_edge src dst w).1
      = .ok (decide ((⟨src, dst, w⟩ : value_type N E) ∉ records g.edges_rep_)) := by
  rw [insert_edge_eq g src dst w hs hd]
  have hiff := mem_records_iff_bucket h3 (⟨src, dst, w⟩ : value_type N E)
  cases hm : map_second node_compare src g.edges_rep_ with
  | none =>
    rw [hm] at hiff
    simp [hiff]
  | some b =>
    rw [hm] at hiff
    dsimp only
    split_ifs with hmem
    · simp [hiff, hmem]
    · simp [hiff, hmem]

end index_facts

/-! ## The contract of insert_edge -/

section insert_edge_contract
variable {N E : Type} [LinearOrder N] [LinearOrder E]

/-- C1: on a valid graph whose nodes include `src` and `dst`, `insert_edge(src, dst, w)`
returns true exactly when the edge was not in the graph; afterwards the edge sequence is
the previous one with `(src, dst, w)` added at its sorted position (the same sequence when
the edge was present) and `nodes()` is unchanged.  `src = dst` is allowed. -/
theorem insert_edge_adds_at_sorted_position (g : graph N E) (hv : g.valid) (src dst : N)
    (weight : E) (hsrc : g.is_node src = true) (hdst : g.is_node dst = true) :
    ∃ l, g.edges = some l ∧
      (g.insert_edge src dst weight).1
        = .ok (decide ((⟨src, dst, weight⟩ : value_type N E) ∉ l)) ∧
      (g.insert_edge src dst weight).2.edges
        = some (set_emplace value_compare ⟨src, dst, weight⟩ l) ∧
      ((⟨src, dst, weight⟩ : value_type N E) ∈ l →
        (g.insert_edge src dst weight).2.edges = some l) ∧
      (g.insert_edge src dst weight).2.nodes = g.nodes := by
  have ho := valid_index_ordered hv
  have ho1 := insert_edge_index_ordered g src dst weight ho
  have hasc : ascending value_compare (records g.edges_rep_) := ascending_records ho.1 ho.2.1
  have hasc1 : ascending value_compare (records (g.insert_edge src dst weight).2.edges_rep_) :=
    ascending_records ho1.1 ho1.2.1
  have hrec : records (g.insert_edge src dst weight).2.edges_rep_
      = set_emplace value_compare ⟨src, dst, weight⟩ (records g.edges_rep_) := by
    apply ascending_ext value_compare_strict hasc1
      (ascending_set_emplace value_compare_strict _ hasc)
    intro r
    rw [insert_edge_mem_records g src dst weight hsrc hdst ho.1,
      mem_set_emplace value_compare_strict]
  refine ⟨records g.edges_rep_, edges_of_index_ordered ho,
    insert_edge_result g src dst weight hsrc hdst ho.1, ?_, ?_, ?_⟩
  · rw [edges_of_index_ordered ho1, hrec]
  · intro hmem
    rw [edges_of_index_ordered ho1, hrec]
    congr 1
    apply ascending_ext value_compare_strict
      (ascending_set_emplace value_compare_strict _ hasc) hasc
    intro r
    rw [mem_set_emplace value_compare_strict]
    constructor
    · rintro (rfl | h)
      · exact hmem
      · exact h
    · exact fun h => Or.inr h
  · exact insert_edge_nodes g src dst weight

/-- Witness for C1: the self-loop (2,2,7) inserted into scenario A. -/
theorem insert_edge_adds_at_sorted_position_witness :
    scenario_a.valid ∧ scenario_a.is_node 2 = true ∧
    ∃ l, scenario_a.edges = some l ∧
      (scenario_a.insert_edge 2 2 7).1
        = .ok (decide ((⟨2, 2, 7⟩ : value_type Nat Nat) ∉ l)) ∧
      (scenario_a.insert_edge 2 2 7).2.edges
        = some (set_emplace value_compare ⟨2, 2, 7⟩ l) ∧
      ((⟨2, 2, 7⟩ : value_type Nat Nat) ∈ l →
        (scenario_a.insert_edge 2 2 7).2.edges = some l) ∧
      (scenario_a.insert_edge 2 2 7).2.nodes = scenario_a.nodes :=
  ⟨by decide, by decide,
    insert_edge_adds_at_sorted_position scenario_a (by decide) 2 2 7 (by decide) (by decide)⟩

end insert_edge_contract

/-! ## Precondition failures -/

section precondition_failures
variable {N E : Type} [LinearOrder N] [LinearOrder E]

theorem incr_defined (edges : List (N × List (N × E))) (it : iterator N E) (k : N) (e : N × E)
    (b : List (N × E)) (hk : it.curr_map_iter_ = some k) (he : it.curr_set_iter_ = some e)
    (hb : map_second node_compare k edges = some b) (hmem : e ∈ b)
    (hend : it.edges_map_end_ = none) : ∃ it1, it.incr edges = some it1 := by
  unfold iterator.incr
  rw [hk, he]
  dsimp only
  rw [hb]
  dsimp only
  rw [if_pos hmem]
  cases iter_next e b with
  | some e1 => exact ⟨_, rfl⟩
  | none =>
    dsimp only
    rw [hend]
    cases iter_next k (edges.map Prod.fst) with
    | none => simp
    | some k1 => simp

theorem erase_edge_iter_defined (g : graph N E) (i : iterator N E) (k : N) (e : N × E)
    (b : List (N × E)) (hk : i.curr_map_iter_ = some k) (he : i.curr_set_iter_ = some e)
    (hb : map_second node_compare k g.edges_rep_ = some b) (hmem : e ∈ b)
    (hend : i.edges_map_end_ = none) : ∃ r, g.erase_edge_iter i = some r := by
  obtain ⟨it1, hit1⟩ := incr_defined g.edges_rep_ i k e b hk he hb hmem hend
  unfold graph.erase_edge_iter
  rw [hk, he]
  dsimp only
  rw [hit1]
  exact ⟨_, rfl⟩

/-- What `find` returns: the position of the edge when it is stored and `dst` is a node,
`end()` otherwise. -/
theorem find_eq (g : graph N E) (src dst : N) (w : E) :
    g.find src dst w =
      if (∃ b, map_second node_compare src g.edges_rep_ = some b ∧ (dst, w) ∈ b)
          ∧ g.is_node dst = true
      then iterator.at_pos g.edges_rep_ (some src) (some (dst, w))
      else iterator.at_end g.edges_rep_ := by
  unfold graph.find
  cases hm : map_second node_compare src g.edges_rep_ with
  | none => simp
  | some b =>
    dsimp only
    by_cases hd : g.is_node dst = true
    · have hd2 : set_contains node_compare dst g.nodes_rep_ = true := hd
      by_cases hmem : (dst, w) ∈ b
      · have := (set_contains_iff edge_compare_strict (dst, w) b).2 hmem
        simp [hd, hd2, hmem, this]
      · have : set_contains edge_compare (dst, w) b = false := by
          rw [← Bool.not_eq_true, set_contains_iff edge_compare_strict]; exact hmem
        simp [hd, hd2, hmem, this]
    · have hd2 : set_contains node_compare dst g.nodes_rep_ = false := by
        simpa [graph.is_node] using hd
      simp [hd, hd2]

theorem erase_edge_defined (g : graph N E) (src dst : N) (w : E) :
    ∃ r g1, g.erase_edge src dst w = some (r, g1) ∧
      ((∃ msg, r = .error msg) ↔ (g.is_node src = false ∨ g.is_node dst = false)) ∧
      (∀ msg, r = .error msg → g1 = g) := by
  unfold graph.erase_edge
  by_cases hpre : (!g.is_node src || !g.is_node dst) = true
  · rw [if_pos hpre]
    refine ⟨_, _, rfl, ?_, fun _ _ => rfl⟩
    simp only [Except.error.injEq, exists_eq', true_iff]
    simpa using hpre
  · rw [if_neg hpre]
    have hpre2 : ¬ (g.is_node src = false ∨ g.is_node dst = false) := by simpa using hpre
    dsimp only
    by_cases hend : (g.find src dst w).operator_eq g.end_ = true
    · rw [if_pos hend]
      refine ⟨_, _, rfl, ?_, ?_⟩
      · simp [hpre2]
      · intro msg h; exact absurd h (by simp)
    · rw [if_neg hend]
      have hfind := find_eq g src dst w
      by_cases hc : (∃ b, map_second node_compare src g.edges_rep_ = some b ∧ (dst, w) ∈ b)
          ∧ g.is_node dst = true
      · rw [if_pos hc] at hfind
        obtain ⟨⟨b, hb, hmem⟩, _⟩ := hc
        obtain ⟨⟨i1, g1⟩, hr⟩ := erase_edge_iter_defined g (g.find src dst w) src (dst, w) b
          (by rw [hfind]; rfl) (by rw [hfind]; rfl) hb hmem (by rw [hfind]; rfl)
        rw [hr]
        refine ⟨_, _, rfl, ?_, ?_⟩
        · simp [hpre2]
        · intro msg h; exact absurd h (by simp)
      · rw [if_neg hc] at hfind
        exfalso
        apply hend
        rw [hfind]
        simp [iterator.operator_eq, graph.end_]

theorem replace_node_raises_iff (g : graph N E) (old_data new_data : N) :
    (∃ msg, (g.replace_node old_data new_data).1 = .error msg) ↔ g.is_node old_data = false := by
  unfold graph.replace_node
  by_cases h1 : g.is_node old_data = true <;> by_cases h2 : g.is_node new_data = true <;>
    simp [h1, h2]

theorem replace_node_raises_state (g : graph N E) (old_data new_data : N) (msg : String)
    (h : (g.replace_node old_data new_data).1 = .error msg) :
    (g.replace_node old_data new_data).2 = g := by
  unfold graph.replace_node at h ⊢
  by_cases h1 : g.is_node old_data = true <;> by_cases h2 : g.is_node new_data = true <;>
    simp [h1, h2] at h ⊢

theorem mem_repoint_all {old_h new_h : N} {m : List (N × List (N × E))} {p : N × List (N × E)}
    (hp : p ∈ repoint_all old_h new_h m) :
    ∃ q ∈ m, p = (q.1, repoint_loop old_h new_h q.2 q.2) := by
  unfold repoint_all at hp
  rw [List.mem_map] at hp
  obtain ⟨q, hq, rfl⟩ := hp
  exact ⟨q, hq, rfl⟩

theorem merge_replace_node_raises_iff (g : graph N E) (h1 : g.I1) (old_data new_data : N) :
    (∃ msg, (g.merge_replace_node old_data new_data).1 = .error msg)
      ↔ (g.is_node old_data = false ∨ g.is_node new_data = false) := by
  unfold graph.merge_replace_node
  split_ifs with hpre
  · simp only [Except.error.injEq, exists_eq', true_iff]
    simpa using hpre
  · have hpre2 : ¬ (g.is_node old_data = false ∨ g.is_node new_data = false) := by
      simpa using hpre
    have hnew : g.is_node new_data = true := by
      simpa using (not_or.1 hpre2).2
    dsimp only
    cases hm : map_second node_compare old_data (repoint_all old_data new_data g.edges_rep_) with
    | none => simp [hpre2]
    | some ode =>
      dsimp only
      generalize hG2 : (if map_contains node_compare new_data _ = true then _ else _ : graph N E)
        = G2
      have hn2 : G2.nodes_rep_ = g.nodes_rep_ := by
        rw [← hG2]; split_ifs <;> rfl
      have hode : ∀ e ∈ ode, G2.is_node e.1 = true := by
        intro e he
        rw [is_node_congr hn2]
        obtain ⟨q, hq, hpq⟩ := mem_repoint_all (map_second_mem node_compare_strict hm)
        have hode2 : ode = repoint_loop old_data new_data q.2 q.2 := (Prod.mk.inj hpq).2
        rw [hode2] at he
        rcases mem_repoint_loop _ _ _ _ _ he with h | h
        · exact (h1 q hq).2 e h
        · rw [h]; exact hnew
      have hok := merge_loop_ok new_data ode G2 (by rw [is_node_congr hn2]; exact hnew) hode
      rcases hl : merge_loop new_data ode G2 with ⟨r, g3⟩
      rw [hl] at hok
      dsimp only at hok
      subst hok
      simp [hpre2]

theorem merge_replace_node_raises_state (g : graph N E) (h1 : g.I1) (old_data new_data : N)
    (msg : String) (h : (g.merge_replace_node old_data new_data).1 = .error msg) :
    (g.merge_replace_node old_data new_data).2 = g := by
  have hpre := (merge_replace_node_raises_iff g h1 old_data new_data).1 ⟨msg, h⟩
  unfold graph.merge_replace_node
  have : (!g.is_node old_data || !g.is_node new_data) = true := by
    rcases hpre with h | h <;> simp [h]
  rw [if_pos this]

end precondition_failures

/-! ## What is raised -/

section messages
variable {N E : Type} [LinearOrder N] [LinearOrder E]

theorem insert_edge_raises_message (g : graph N E) (src dst : N) (w : E) (msg : String)
    (h : (g.insert_edge src dst w).1 = .error msg) :
    msg = "Cannot call gdwg::graph<N, E>::insert_edge when either src or dst node does not exist" := by
  unfold graph.insert_edge at h
  dsimp only at h
  split_ifs at h
  exact (Except.error.inj h).symm

theorem erase_edge_raises_message (g g1 : graph N E) (src dst : N) (w : E) (msg : String)
    (h : g.erase_edge src dst w = some (.error msg, g1)) :
    msg = "Cannot call gdwg::graph<N, E>::erase_edge on src or dst if they don't exist in the graph" := by
  unfold graph.erase_edge at h
  dsimp only at h
  split_ifs at h
  · simp only [Option.some.injEq, Prod.mk.injEq, Except.error.injEq] at h
    exact h.1.symm
  · simp at h
  · split at h <;> simp at h

theorem replace_node_raises_message (g : graph N E) (old_data new_data : N) (msg : String)
    (h : (g.replace_node old_data new_data).1 = .error msg) :
    msg = "Cannot call gdwg::graph<N, E>::replace_node on a node that doesn't exist" := by
  unfold graph.replace_node at h
  by_cases h1 : g.is_node old_data = true <;> by_cases h2 : g.is_node new_data = true <;>
    simp [h1, h2] at h <;> exact h.symm

theorem merge_replace_node_raises_message (g : graph N E) (h1 : g.I1) (old_data new_data : N)
    (msg : String) (h : (g.merge_replace_node old_data new_data).1 = .error msg) :
    msg = "Cannot call gdwg::graph<N, E>::merge_replace_node on old or new data if they don't exist in the graph" := by
  have hpre := (merge_replace_node_raises_iff g h1 old_data new_data).1 ⟨msg, h⟩
  unfold graph.merge_replace_node at h
  have : (!g.is_node old_data || !g.is_node new_data) = true := by
    rcases hpre with h | h <;> simp [h]
  rw [if_pos this] at h
  exact (Except.error.inj h).symm

theorem is_connected_raises_message (g : graph N E) (src dst : N) (msg : String)
    (h : g.is_connected src dst = .error msg) :
    msg = "Cannot call gdwg::graph<N, E>::is_connected if src or dst node don't exist in the graph" := by
  unfold graph.is_connected at h
  split_ifs at h
  · exact (Except.error.inj h).symm
  · split at h <;> simp at h

theorem weights_raises_message (g : graph N E) (src dst : N) (msg : String)
    (h : g.weights src dst = .error msg) :
    msg = "Cannot call gdwg::graph<N, E>::weights if src or dst node don't exist in the graph" := by
  unfold graph.weights at h
  split_ifs at h
  · exact (Except.error.inj h).symm
  · split at h <;> simp at h

theorem connections_raises_message (g : graph N E) (src : N) (msg : String)
    (h : g.connections src = .error msg) :
    msg = "Cannot call gdwg::graph<N, E>::connections if src doesn't exist in the graph" := by
  unfold graph.connections at h
  split_ifs at h
  · exact (Except.error.inj h).symm
  · split at h <;> simp at h

end messages

section raise_contracts
variable {N E : Type} [LinearOrder N] [LinearOrder E]

/-- C2: `insert_edge(src, dst, w)` and `erase_edge(src, dst, w)` raise exactly when `src` or
`dst` is not a node; what is raised is the precondition error of the operation, and a call
that raises leaves the graph as it was.  `erase_edge` is defined for all arguments. -/
theorem edge_modifiers_raise_iff_endpoint_missing (g : graph N E) (src dst : N) (weight : E) :
    ((∃ msg, (g.insert_edge src dst weight).1 = .error msg)
        ↔ (g.is_node src = false ∨ g.is_node dst = false)) ∧
    (∀ msg, (g.insert_edge src dst weight).1 = .error msg →
        msg = "Cannot call gdwg::graph<N, E>::insert_edge when either src or dst node does not exist"
        ∧ (g.insert_edge src dst weight).2 = g) ∧
    (∃ r g1, g.erase_edge src dst weight = some (r, g1) ∧
      ((∃ msg, r = .error msg) ↔ (g.is_node src = false ∨ g.is_node dst = false)) ∧
      (∀ msg, r = .error msg →
        msg = "Cannot call gdwg::graph<N, E>::erase_edge on src or dst if they don't exist in the graph"
        ∧ g1 = g)) := by
  refine ⟨insert_edge_raises_iff g src dst weight,
    fun msg h => ⟨insert_edge_raises_message g src dst weight msg h,
      insert_edge_raises_state g src dst weight msg h⟩, ?_⟩
  obtain ⟨r, g1, h1, h2, h3⟩ := erase_edge_defined g src dst weight
  refine ⟨r, g1, h1, h2, fun msg h => ⟨?_, h3 msg h⟩⟩
  rw [h] at h1
  exact erase_edge_raises_message g g1 src dst weight msg h1

/-- C3: on a valid graph `replace_node(old, new)` raises exactly when `old` is not a node
(whatever `new` is) and `merge_replace_node(old, new)` raises exactly when `old` or `new`
is not a node; what is raised is the precondition error of the operation, and a call that
raises leaves the graph as it was. -/
theorem node_replacers_raise_iff_node_missing (g : graph N E) (hv : g.valid)
    (old_data new_data : N) :
    ((∃ msg, (g.replace_node old_data new_data).1 = .error msg)
        ↔ g.is_node old_data = false) ∧
    (∀ msg, (g.replace_node old_data new_data).1 = .error msg →
        msg = "Cannot call gdwg::graph<N, E>::replace_node on a node that doesn't exist"
        ∧ (g.replace_node old_data new_data).2 = g) ∧
    ((∃ msg, (g.merge_replace_node old_data new_data).1 = .error msg)
        ↔ (g.is_node old_data = false ∨ g.is_node new_data = false)) ∧
    (∀ msg, (g.merge_replace_node old_data new_data).1 = .error msg →
        msg = "Cannot call gdwg::graph<N, E>::merge_replace_node on old or new data if they don't exist in the graph"
        ∧ (g.merge_replace_node old_data new_data).2 = g) :=
  ⟨replace_node_raises_iff g old_data new_data,
    fun msg h => ⟨replace_node_raises_message g old_data new_data msg h,
      replace_node_raises_state g old_data new_data msg h⟩,
    merge_replace_node_raises_iff g hv.2.1 old_data new_data,
    fun msg h => ⟨merge_replace_node_raises_message g hv.2.1 old_data new_data msg h,
      merge_replace_node_raises_state g hv.2.1 old_data new_data msg h⟩⟩

/-- Witness for C3: scenario C with `old = 20` (not a node) and `new = 1` (a node). -/
theorem node_replacers_raise_iff_node_missing_witness :
    scenario_c.valid ∧
    ((∃ msg, (scenario_c.replace_node 20 1).1 = .error msg)
        ↔ scenario_c.is_node 20 = false) ∧
    (∀ msg, (scenario_c.replace_node 20 1).1 = .error msg →
        msg = "Cannot call gdwg::graph<N, E>::replace_node on a node that doesn't exist"
        ∧ (scenario_c.replace_node 20 1).2 = scenario_c) ∧
    ((∃ msg, (scenario_c.merge_replace_node 20 1).1 = .error msg)
        ↔ (scenario_c.is_node 20 = false ∨ scenario_c.is_node 1 = false)) ∧
    (∀ msg, (scenario_c.merge_replace_node 20 1).1 = .error msg →
        msg = "Cannot call gdwg::graph<N, E>::merge_replace_node on old or new data if they don't exist in the graph"
        ∧ (scenario_c.merge_replace_node 20 1).2 = scenario_c) :=
  ⟨by decide, node_replacers_raise_iff_node_missing scenario_c (by decide) 20 1⟩

end raise_contracts


/-! ## Accessors, the node set, and replace_node on an existing node -/

section accessors_and_nodes
variable {N E : Type} [LinearOrder N] [LinearOrder E]

theorem is_connected_raises_iff (g : graph N E) (src dst : N) :
    (∃ msg, g.is_connected src dst = .error msg)
      ↔ (g.is_node src = false ∨ g.is_node dst = false) := by
  unfold graph.is_connected
  split_ifs with hpre
  · simp only [Except.error.injEq, exists_eq', true_iff]
    simpa using hpre
  · have hpre2 : ¬ (g.is_node src = false ∨ g.is_node dst = false) := by simpa using hpre
    split <;> simp [hpre2]

theorem weights_raises_iff (g : graph N E) (src dst : N) :
    (∃ msg, g.weights src dst = .error msg)
      ↔ (g.is_node src = false ∨ g.is_node dst = false) := by
  unfold graph.weights
  split_ifs with hpre
  · simp only [Except.error.injEq, exists_eq', true_iff]
    simpa using hpre
  · have hpre2 : ¬ (g.is_node src = false ∨ g.is_node dst = false) := by simpa using hpre
    split <;> simp [hpre2]

theorem connections_raises_iff (g : graph N E) (src : N) :
    (∃ msg, g.connections src = .error msg) ↔ g.is_node src = false := by
  unfold graph.connections
  split_ifs with hpre
  · simp only [Except.error.injEq, exists_eq', true_iff]
    simpa using hpre
  · have hpre2 : ¬ g.is_node src = false := by simpa using hpre
    split <;> simp [hpre2]

theorem no_bucket_of_no_outgoing {g : graph N E} (hne : g.no_empty_bucket) {src : N}
    (h : ∀ r ∈ records g.edges_rep_, r.from_ ≠ src) :
    map_second node_compare src g.edges_rep_ = none := by
  cases hm : map_second node_compare src g.edges_rep_ with
  | none => rfl
  | some b =>
    exfalso
    have hb := map_second_mem node_compare_strict hm
    obtain ⟨e, b1, rfl⟩ := List.exists_cons_of_ne_nil (hne _ hb)
    exact h ⟨src, e.1, e.2⟩
      ((mem_records _ _).2 ⟨(src, e :: b1), hb, List.mem_cons_self _ _, rfl⟩) rfl

/-- C4: on a valid graph `is_connected(src, dst)` and `weights(src, dst)` raise exactly when
`src` or `dst` is not a node and `connections(src)` raises exactly when `src` is not a
node, each with the precondition error of the operation; for a node `src` without outgoing
edges they return `false`, the empty sequence and the empty sequence. -/
theorem accessors_raise_iff_node_missing (g : graph N E) (hv : g.valid) (src dst : N) :
    ((∃ msg, g.is_connected src dst = .error msg)
        ↔ (g.is_node src = false ∨ g.is_node dst = false)) ∧
    (∀ msg, g.is_connected src dst = .error msg →
        msg = "Cannot call gdwg::graph<N, E>::is_connected if src or dst node don't exist in the graph") ∧
    ((∃ msg, g.weights src dst = .error msg)
        ↔ (g.is_node src = false ∨ g.is_node dst = false)) ∧
    (∀ msg, g.weights src dst = .error msg →
        msg = "Cannot call gdwg::graph<N, E>::weights if src or dst node don't exist in the graph") ∧
    ((∃ msg, g.connections src = .error msg) ↔ g.is_node src = false) ∧
    (∀ msg, g.connections src = .error msg →
        msg = "Cannot call gdwg::graph<N, E>::connections if src doesn't exist in the graph") ∧
    (g.is_node src = true → (∃ l, g.edges = some l ∧ ∀ r ∈ l, r.from_ ≠ src) →
      g.connections src = .ok [] ∧
      (g.is_node dst = true →
        g.is_connected src dst = .ok false ∧ g.weights src dst = .ok [])) := by
  refine ⟨is_connected_raises_iff g src dst, is_connected_raises_message g src dst,
    weights_raises_iff g src dst, weights_raises_message g src dst,
    connections_raises_iff g src, connections_raises_message g src, ?_⟩
  rintro hs ⟨l, hl, hno⟩
  rw [edges_of_index_ordered (valid_index_ordered hv)] at hl
  have hl2 : records g.edges_rep_ = l := Option.some.inj hl
  rw [← hl2] at hno
  have hnone := no_bucket_of_no_outgoing hv.2.2.2.2 hno
  refine ⟨?_, fun hd => ⟨?_, ?_⟩⟩
  · simp [graph.connections, hs, hnone]
  · simp [graph.is_connected, hs, hd, hnone]
  · simp [graph.weights, hs, hd, hnone]

/-- Witness for C4: node 2 of scenario A has no outgoing edge. -/
theorem accessors_raise_iff_node_missing_witness :
    scenario_a.valid ∧ scenario_a.is_node 2 = true ∧
    (∃ l, scenario_a.edges = some l ∧ ∀ r ∈ l, r.from_ ≠ 2) ∧
    scenario_a.connections 2 = .ok [] ∧
    scenario_a.is_connected 2 3 = .ok false ∧ scenario_a.weights 2 3 = .ok [] :=
  have h := accessors_raise_iff_node_missing scenario_a (by decide) 2 3
  have hno : ∃ l, scenario_a.edges = some l ∧ ∀ r ∈ l, r.from_ ≠ 2 :=
    ⟨[⟨1, 2, 3⟩, ⟨1, 2, 5⟩, ⟨1, 3, 10⟩], by decide, by decide⟩
  ⟨by decide, by decide, hno, (h.2.2.2.2.2.2 (by decide) hno).1,
    (h.2.2.2.2.2.2 (by decide) hno).2 (by decide)⟩

/-- C5: in every graph obtained from a constructor by public operations, `nodes()` is
strictly ascending, has no duplicates, and holds exactly the values `v` for which
`is_node(v)` is true. -/
theorem nodes_strictly_ascending_and_exact (g : graph N E) (hr : reachable g) :
    g.nodes.Pairwise (fun a b => a < b) ∧ g.nodes.Nodup ∧
      ∀ v, g.is_node v = true ↔ v ∈ g.nodes := by
  have h := reachable_nodes_ascending hr
  refine ⟨?_, ascending_nodup node_compare_strict h, fun v => is_node_iff g v⟩
  unfold graph.nodes_ascending ascending at h
  refine List.Pairwise.imp ?_ h
  intro a b hab
  simpa [node_compare] using hab

/-- Witness for C5: scenario A after `replace_node(1, 5)`. -/
theorem nodes_strictly_ascending_and_exact_witness :
    reachable (scenario_a.replace_node 1 5).2 ∧
    (scenario_a.replace_node 1 5).2.nodes.Pairwise (fun a b => a < b) ∧
    (scenario_a.replace_node 1 5).2.nodes.Nodup ∧
    ∀ v, (scenario_a.replace_node 1 5).2.is_node v = true
      ↔ v ∈ (scenario_a.replace_node 1 5).2.nodes :=
  have hr : reachable (scenario_a.replace_node 1 5).2 :=
    reachable_by.replace_node 1 5
      (reachable_by.insert_edge 1 3 10 (reachable_by.insert_edge 1 2 3
        (reachable_by.insert_edge 1 2 5 (reachable_by.from_range [1, 2, 3]))))
  ⟨hr, nodes_strictly_ascending_and_exact _ hr⟩

/-- C10: when `old` and `new` are both nodes (also when they are the same node),
`replace_node(old, new)` returns false without raising and the graph is as it was. -/
theorem replace_node_existing_new_is_noop (g : graph N E) (old_data new_data : N)
    (hold : g.is_node old_data = true) (hnew : g.is_node new_data = true) :
    g.replace_node old_data new_data = (.ok false, g) := by
  unfold graph.replace_node
  simp [hold, hnew]

/-- Witness for C10: `replace_node(1, 3)` and `replace_node(1, 1)` on scenario C. -/
theorem replace_node_existing_new_is_noop_witness :
    scenario_c.is_node 1 = true ∧ scenario_c.is_node 3 = true ∧
    scenario_c.replace_node 1 3 = (.ok false, scenario_c) ∧
    scenario_c.replace_node 1 1 = (.ok false, scenario_c) :=
  ⟨by decide, by decide,
    replace_node_existing_new_is_noop scenario_c 1 3 (by decide) (by decide),
    replace_node_existing_new_is_noop scenario_c 1 1 (by decide) (by decide)⟩

end accessors_and_nodes

/-! ## The re-pointing loop -/

section repointing
variable {N E : Type} [LinearOrder N] [LinearOrder E]

theorem repoint_loop_ascending (old_h new_h : N) (rest : List (N × E)) {cur : List (N × E)}
    (h : ascending edge_compare cur) : ascending edge_compare (repoint_loop old_h new_h rest cur) := by
  induction rest generalizing cur with
  | nil => exact h
  | cons e rest ih =>
    unfold repoint_loop
    split_ifs
    · exact ih (ascending_set_emplace edge_compare_strict _ (ascending_set_erase _ h))
    · exact ih h

theorem repoint_loop_ne_nil (old_h new_h : N) (rest : List (N × E)) {cur : List (N × E)}
    (h : cur ≠ []) : repoint_loop old_h new_h rest cur ≠ [] := by
  induction rest generalizing cur with
  | nil => exact h
  | cons e rest ih =>
    unfold repoint_loop
    split_ifs
    · exact ih (set_emplace_ne_nil _ _ _)
    · exact ih h

/-- Membership after the re-pointing loop, for distinct handles. -/
theorem mem_repoint_loop_iff {old_h new_h : N} (hne : old_h ≠ new_h) (rest cur : List (N × E))
    (x : N × E) :
    x ∈ repoint_loop old_h new_h rest cur ↔
      (x ∈ cur ∧ ¬ (x.1 = old_h ∧ x ∈ rest)) ∨ (x.1 = new_h ∧ (old_h, x.2) ∈ rest) := by
  induction rest generalizing cur with
  | nil => simp [repoint_loop]
  | cons e rest ih =>
    unfold repoint_loop
    by_cases he : e.1 = old_h
    · rw [if_pos he, ih, mem_set_emplace edge_compare_strict, mem_set_erase edge_compare_strict]
      have hee : e = (old_h, e.2) := Prod.ext he rfl
      by_cases hx : x = (new_h, e.2)
      · subst hx
        simp only [true_or, true_and, List.mem_cons]
        constructor
        · intro _
          right
          exact Or.inl hee.symm
        · intro _
          left
          intro h
          exact hne h.1.symm
      · simp only [hx, false_or, List.mem_cons]
        have hx2 : ¬ (x.1 = new_h ∧ (old_h, x.2) = e) := by
          rintro ⟨h1, h2⟩
          apply hx
          rw [← h2] at *
          exact Prod.ext h1 rfl
        constructor
        · rintro (⟨⟨h1, h2⟩, h3⟩ | ⟨h1, h2⟩)
          · left
            refine ⟨h1, ?_⟩
            rintro ⟨h4, h5 | h5⟩
            · exact h2 h5
            · exact h3 ⟨h4, h5⟩
          · exact Or.inr ⟨h1, Or.inr h2⟩
        · rintro (⟨h1, h2⟩ | ⟨h1, h2 | h2⟩)
          · left
            refine ⟨⟨h1, ?_⟩, ?_⟩
            · intro h3
              apply h2
              exact ⟨by rw [h3]; exact he, Or.inl h3⟩
            · rintro ⟨h3, h4⟩
              exact h2 ⟨h3, Or.inr h4⟩
          · exact absurd ⟨h1, h2⟩ hx2
          · exact Or.inr ⟨h1, h2⟩
    · rw [if_neg he, ih]
      simp only [List.mem_cons]
      have h1 : ∀ y : N × E, y.1 = old_h → y ≠ e := by
        intro y hy hye
        rw [hye] at hy
        exact he hy
      constructor
      · rintro (⟨h2, h3⟩ | ⟨h2, h3⟩)
        · left
          refine ⟨h2, ?_⟩
          rintro ⟨h4, h5 | h5⟩
          · exact h1 x h4 h5
          · exact h3 ⟨h4, h5⟩
        · exact Or.inr ⟨h2, Or.inr h3⟩
      · rintro (⟨h2, h3⟩ | ⟨h2, h3 | h3⟩)
        · left
          exact ⟨h2, fun h4 => h3 ⟨h4.1, Or.inr h4.2⟩⟩
        · exact absurd h3 (h1 (old_h, x.2) rfl)
        · exact Or.inr ⟨h2, h3⟩

theorem index_ordered_repoint_all (old_h new_h : N) {m : List (N × List (N × E))}
    (h : index_ordered m) : index_ordered (repoint_all old_h new_h m) := by
  refine ⟨?_, ?_, ?_⟩
  · have : (repoint_all old_h new_h m).map Prod.fst = m.map Prod.fst := by
      simp [repoint_all, List.map_map, Function.comp]
    rw [this]; exact h.1
  · intro p hp
    obtain ⟨q, hq, rfl⟩ := mem_repoint_all hp
    exact repoint_loop_ascending _ _ _ (h.2.1 q hq)
  · intro p hp
    obtain ⟨q, hq, rfl⟩ := mem_repoint_all hp
    exact repoint_loop_ne_nil _ _ _ (h.2.2 q hq)

/-- The records after re-pointing every bucket: destinations renamed. -/
theorem mem_records_repoint_all {old_h new_h : N} (hne : old_h ≠ new_h)
    (m : List (N × List (N × E))) (r : value_type N E) :
    r ∈ records (repoint_all old_h new_h m) ↔
      ∃ r1 ∈ records m, r = ⟨r1.from_, rename_node old_h new_h r1.to_, r1.weight⟩ := by
  constructor
  · intro hr
    obtain ⟨p, hp, hmem, hfrom⟩ := (mem_records _ _).1 hr
    obtain ⟨q, hq, rfl⟩ := mem_repoint_all hp
    rcases (mem_repoint_loop_iff hne _ _ _).1 hmem with ⟨h1, h2⟩ | ⟨h1, h2⟩
    · refine ⟨r, (mem_records _ _).2 ⟨q, hq, h1, hfrom⟩, ?_⟩
      have : r.to_ ≠ old_h := fun e => h2 ⟨e, h1⟩
      cases r
      simp_all [rename_node]
    · refine ⟨⟨r.from_, old_h, r.weight⟩, (mem_records _ _).2 ⟨q, hq, h2, hfrom⟩, ?_⟩
      cases r
      simp_all [rename_node]
  · rintro ⟨r1, hr1, rfl⟩
    obtain ⟨q, hq, hmem, hfrom⟩ := (mem_records _ _).1 hr1
    refine (mem_records _ _).2 ⟨(q.1, repoint_loop old_h new_h q.2 q.2), ?_, ?_, hfrom⟩
    · exact List.mem_map.2 ⟨q, hq, rfl⟩
    · rw [mem_repoint_loop_iff hne]
      by_cases hto : r1.to_ = old_h
      · right
        refine ⟨by simp [rename_node, hto], ?_⟩
        rw [← hto]; exact hmem
      · left
        simp only [rename_node, hto, if_false]
        exact ⟨hmem, fun h => h.1⟩

end repointing

/-! ## replace_node onto a fresh value -/

section replace_node_contract
variable {N E : Type} [LinearOrder N] [LinearOrder E]

theorem replace_node_eq (g : graph N E) (old_data new_data : N)
    (hold : g.is_node old_data = true) (hnew : g.is_node new_data = false) :
    g.replace_node old_data new_data =
      (.ok true, ⟨(g.node_u_ptrs_ ++ [new_data]).erase old_data,
        repoint_all old_data new_data (rekey_entry old_data new_data g.edges_rep_),
        set_erase node_compare old_data (set_emplace node_compare new_data g.nodes_rep_)⟩) := by
  unfold graph.replace_node
  simp [hold, hnew]

theorem index_ordered_rekey_entry (old_data new_data : N) {m : List (N × List (N × E))}
    (h : index_ordered m) : index_ordered (rekey_entry old_data new_data m) := by
  unfold rekey_entry
  cases hm : map_second node_compare old_data m with
  | none => exact h
  | some b =>
    have hb := map_second_mem node_compare_strict hm
    exact index_ordered_emplace (index_ordered_erase h old_data) new_data b
      (h.2.1 _ hb) (h.2.2 _ hb)

/-- The records after the re-keying step: sources renamed. -/
theorem mem_records_rekey_entry {old_data new_data : N} {m : List (N × List (N × E))}
    (h3 : ascending node_compare (m.map Prod.fst)) (hnew : new_data ∉ m.map Prod.fst)
    (r : value_type N E) :
    r ∈ records (rekey_entry old_data new_data m) ↔
      ∃ r0 ∈ records m, r = ⟨rename_node old_data new_data r0.from_, r0.to_, r0.weight⟩ := by
  unfold rekey_entry
  cases hm : map_second node_compare old_data m with
  | none =>
    have hno : old_data ∉ m.map Prod.fst := (map_second_eq_none node_compare_strict _ _).1 hm
    have hfrom : ∀ r0 ∈ records m, r0.from_ ≠ old_data := by
      intro r0 hr0 e
      obtain ⟨p, hp, _, hpf⟩ := (mem_records _ _).1 hr0
      apply hno
      rw [← e, hpf]
      exact List.mem_map.2 ⟨p, hp, rfl⟩
    dsimp only
    constructor
    · intro hr
      refine ⟨r, hr, ?_⟩
      simp [rename_node, hfrom r hr]
    · rintro ⟨r0, hr0, rfl⟩
      simpa [rename_node, hfrom r0 hr0] using hr0
  | some b =>
    have hb := map_second_mem node_compare_strict hm
    have h3e : ascending node_compare ((map_erase node_compare old_data m).map Prod.fst) := by
      rw [keys_map_erase]; exact ascending_set_erase _ h3
    have hnew2 : new_data ∉ (map_erase node_compare old_data m).map Prod.fst := by
      rw [keys_map_erase]
      intro h
      exact hnew ((mem_set_erase node_compare_strict _ _ _).1 h).1
    dsimp only
    rw [mem_records_emplace h3e, mem_records_erase]
    constructor
    · rintro (⟨h1, h2⟩ | ⟨_, h2, h3⟩)
      · refine ⟨r, h1, ?_⟩
        simp [rename_node, h2]
      · refine ⟨⟨old_data, r.to_, r.weight⟩, (mem_records _ _).2 ⟨_, hb, h3, rfl⟩, ?_⟩
        cases r
        simp_all [rename_node]
    · rintro ⟨r0, hr0, rfl⟩
      by_cases hf : r0.from_ = old_data
      · right
        refine ⟨hnew2, by simp [rename_node, hf], ?_⟩
        obtain ⟨b1, hb1, hmem1⟩ := (mem_records_iff_bucket h3 r0).1 hr0
        rw [hf, hm] at hb1
        rw [Option.some.inj hb1]
        exact hmem1
      · left
        simp only [rename_node, hf, if_false]
        exact ⟨hr0, hf⟩

theorem keys_not_node {g : graph N E} (h1 : g.I1) {v : N} (hv : g.is_node v = false) :
    v ∉ g.edges_rep_.map Prod.fst := by
  intro hmem
  obtain ⟨p, hp, rfl⟩ := List.mem_map.1 hmem
  rw [(h1 p hp).1] at hv
  exact Bool.noConfusion hv

/-- C9: on a valid graph with `old` a node and `new` not a node, `replace_node(old, new)`
returns true; afterwards `old` is not a node, `new` is, `nodes()` is the previous node set
with `old` replaced by `new` (still strictly ascending), and the edge sequence, strictly
ascending, holds exactly the images of the previous edges under renaming `old` to `new` in
source and destination, weights unchanged. -/
theorem replace_node_renames (g : graph N E) (hv : g.valid) (old_data new_data : N)
    (hold : g.is_node old_data = true) (hnew : g.is_node new_data = false) :
    (g.replace_node old_data new_data).1 = .ok true ∧
    (g.replace_node old_data new_data).2.is_node old_data = false ∧
    (g.replace_node old_data new_data).2.is_node new_data = true ∧
    (∀ v, v ∈ (g.replace_node old_data new_data).2.nodes
        ↔ v = new_data ∨ (v ∈ g.nodes ∧ v ≠ old_data)) ∧
    ascending node_compare (g.replace_node old_data new_data).2.nodes ∧
    ∃ l l1, g.edges = some l ∧ (g.replace_node old_data new_data).2.edges = some l1 ∧
      ascending value_compare l1 ∧
      ∀ r, r ∈ l1 ↔ ∃ r0 ∈ l, r = rename_record old_data new_data r0 := by
  have hne : old_data ≠ new_data := by
    intro e
    rw [e, hnew] at hold
    exact Bool.noConfusion hold
  have ho := valid_index_ordered hv
  have ho1 : index_ordered (repoint_all old_data new_data
      (rekey_entry old_data new_data g.edges_rep_)) :=
    index_ordered_repoint_all _ _ (index_ordered_rekey_entry _ _ ho)
  have hnodes : ∀ v, v ∈ set_erase node_compare old_data
      (set_emplace node_compare new_data g.nodes_rep_)
        ↔ v = new_data ∨ (v ∈ g.nodes_rep_ ∧ v ≠ old_data) := by
    intro v
    rw [mem_set_erase node_compare_strict, mem_set_emplace node_compare_strict]
    constructor
    · rintro ⟨h1 | h1, h2⟩
      · exact Or.inl h1
      · exact Or.inr ⟨h1, h2⟩
    · rintro (h1 | ⟨h1, h2⟩)
      · exact ⟨Or.inl h1, by rw [h1]; exact fun e => hne e.symm⟩
      · exact ⟨Or.inr h1, h2⟩
  rw [replace_node_eq g old_data new_data hold hnew]
  refine ⟨rfl, ?_, ?_, hnodes, ?_, ?_⟩
  · rw [← Bool.not_eq_true, is_node_iff]
    intro h
    rcases (hnodes _).1 h with h1 | ⟨_, h1⟩
    · exact hne h1
    · exact h1 rfl
  · rw [is_node_iff]
    exact (hnodes _).2 (Or.inl rfl)
  · exact ascending_set_erase _ (ascending_set_emplace node_compare_strict _ hv.1)
  · refine ⟨records g.edges_rep_, _, edges_of_index_ordered ho, edges_of_index_ordered ho1,
      ascending_records ho1.1 ho1.2.1, ?_⟩
    intro r
    show r ∈ records (repoint_all old_data new_data
      (rekey_entry old_data new_data g.edges_rep_)) ↔ _
    rw [mem_records_repoint_all hne]
    constructor
    · rintro ⟨r1, hr1, rfl⟩
      obtain ⟨r0, hr0, rfl⟩ :=
        (mem_records_rekey_entry ho.1 (keys_not_node hv.2.1 hnew) r1).1 hr1
      exact ⟨r0, hr0, rfl⟩
    · rintro ⟨r0, hr0, rfl⟩
      exact ⟨⟨rename_node old_data new_data r0.from_, r0.to_, r0.weight⟩,
        (mem_records_rekey_entry ho.1 (keys_not_node hv.2.1 hnew) _).2 ⟨r0, hr0, rfl⟩, rfl⟩

/-- Witness for C9 (scenario B): `replace_node(1, 5)` on scenario A. -/
theorem replace_node_renames_witness :
    scenario_a.valid ∧
    (scenario_a.replace_node 1 5).1 = .ok true ∧
    (scenario_a.replace_node 1 5).2.is_node 1 = false ∧
    (scenario_a.replace_node 1 5).2.is_node 5 = true ∧
    (scenario_a.replace_node 1 5).2.weights 5 2 = .ok [3, 5] ∧
    (scenario_a.replace_node 1 5).2.weights 5 3 = .ok [10] ∧
    ∃ l l1, scenario_a.edges = some l ∧ (scenario_a.replace_node 1 5).2.edges = some l1 ∧
      ascending value_compare l1 ∧
      ∀ r, r ∈ l1 ↔ ∃ r0 ∈ l, r = rename_record 1 5 r0 :=
  have h := replace_node_renames scenario_a (by decide) 1 5 (by decide) (by decide)
  ⟨by decide, h.1, h.2.1, h.2.2.1, by decide, by decide, h.2.2.2.2.2⟩

end replace_node_contract

/-! ## merge_replace_node of a node with itself -/

section self_merge

/-- C6 (failing input): insert nodes 1, 2, 3 and the edge (2,1,7), call
`merge_replace_node(1, 1)` and then `merge_replace_node(2, 3)`.  The first call returns
normally and leaves the edge (2,1,7) although 1 is no longer a node; the second call
creates the bucket of 3, raises from its inner `insert_edge` and leaves that bucket empty.
Incrementing `begin()` once then gives an iterator that is not `end()` and designates no
edge, so the traversal from `begin()` to `end()` is undefined. -/
theorem self_merge_then_merge_breaks_traversal :
    reachable (after_self_merge.merge_replace_node 2 3).2 ∧
    (((graph.from_range [1, 2, 3] : graph Nat Nat).insert_edge 2 1 7).2.merge_replace_node 1 1).1
      = .ok () ∧
    after_self_merge.is_node 1 = false ∧
    after_self_merge.edges = some [⟨2, 1, 7⟩] ∧
    (after_self_merge.merge_replace_node 2 3).1
      = .error "Cannot call gdwg::graph<N, E>::insert_edge when either src or dst node does not exist" ∧
    (after_self_merge.merge_replace_node 2 3).2.edges_rep_ = [(2, [(1, 7)]), (3, [])] ∧
    (after_self_merge.merge_replace_node 2 3).2.I2 ∧
    (after_self_merge.merge_replace_node 2 3).2.I3 ∧
    ¬ (after_self_merge.merge_replace_node 2 3).2.no_empty_bucket ∧
    ((after_self_merge.merge_replace_node 2 3).2.begin.incr
        (after_self_merge.merge_replace_node 2 3).2.edges_rep_).map
      (fun it => (it.operator_eq (after_self_merge.merge_replace_node 2 3).2.end_,
        it.deref (after_self_merge.merge_replace_node 2 3).2.edges_rep_))
      = some (false, none) ∧
    (after_self_merge.merge_replace_node 2 3).2.edges = none :=
  ⟨reachable_by.merge_replace_node 2 3 trivial (reachable_by.merge_replace_node 1 1 trivial
      (reachable_by.insert_edge 2 1 7 (reachable_by.from_range [1, 2, 3]))),
    by decide, by decide, by decide, by decide, by decide, by decide, by decide, by decide,
    by decide, by decide⟩

/-- C7 (failing input): on the valid graph with nodes 1, 2 and the edge (2,1,7),
`merge_replace_node(1, 1)` returns normally, removes node 1 and keeps the edge (2,1,7):
the destination of an edge of the result is not a node of the result. -/
theorem self_merge_breaks_I1 :
    two_nodes_one_edge.valid ∧
    two_nodes_one_edge.is_node 1 = true ∧
    (two_nodes_one_edge.merge_replace_node 1 1).1 = .ok () ∧
    (two_nodes_one_edge.merge_replace_node 1 1).2.nodes = [2] ∧
    (two_nodes_one_edge.merge_replace_node 1 1).2.edges = some [⟨2, 1, 7⟩] ∧
    (two_nodes_one_edge.merge_replace_node 1 1).2.is_node 1 = false ∧
    ¬ (two_nodes_one_edge.merge_replace_node 1 1).2.I1 := by
  decide

/-- C8 (failing input): on scenario C, `merge_replace_node(3, 3)` returns normally and
erases the edge (3,1,99), although renaming 3 to 3 maps every edge to itself. -/
theorem self_merge_loses_outgoing_edges :
    scenario_c.valid ∧
    scenario_c.is_node 3 = true ∧
    scenario_c.edges = some [⟨1, 2, 3⟩, ⟨1, 2, 5⟩, ⟨1, 3, 10⟩, ⟨3, 1, 99⟩] ∧
    (scenario_c.merge_replace_node 3 3).1 = .ok () ∧
    (scenario_c.merge_replace_node 3 3).2.edges = some [⟨1, 2, 3⟩, ⟨1, 2, 5⟩, ⟨1, 3, 10⟩] ∧
    (scenario_c.merge_replace_node 3 3).2.nodes = [1, 2] ∧
    rename_record 3 3 (⟨3, 1, 99⟩ : value_type Nat Nat) = ⟨3, 1, 99⟩ ∧
    ¬ (∀ r : value_type Nat Nat,
        r ∈ [(⟨1, 2, 3⟩ : value_type Nat Nat), ⟨1, 2, 5⟩, ⟨1, 3, 10⟩] ↔
          ∃ r0 ∈ [(⟨1, 2, 3⟩ : value_type Nat Nat), ⟨1, 2, 5⟩, ⟨1, 3, 10⟩, ⟨3, 1, 99⟩],
            r = rename_record 3 3 r0) := by
  refine ⟨by decide, by decide, by decide, by decide, by decide, by decide, by decide, ?_⟩
  intro h
  have h1 := (h ⟨3, 1, 99⟩).2 ⟨⟨3, 1, 99⟩, by decide, by decide⟩
  revert h1
  decide

end self_merge

/-! ## Validity under the operations -/

section validity_insert
variable {N E : Type} [LinearOrder N] [LinearOrder E]

/-- I1 read on the edge records: every source and every destination of every stored edge
is a node; equivalent to I1 when no bucket is empty. -/
theorem I1_iff_records {g : graph N E} (hne : g.no_empty_bucket) :
    g.I1 ↔ ∀ r ∈ records g.edges_rep_, g.is_node r.from_ = true ∧ g.is_node r.to_ = true := by
  constructor
  · intro h1 r hr
    obtain ⟨p, hp, hmem, hfrom⟩ := (mem_records _ _).1 hr
    exact ⟨by rw [hfrom]; exact (h1 p hp).1, (h1 p hp).2 _ hmem⟩
  · intro h p hp
    obtain ⟨e, b, hb⟩ := List.exists_cons_of_ne_nil (hne p hp)
    refine ⟨?_, ?_⟩
    · exact (h ⟨p.1, e.1, e.2⟩ ((mem_records _ _).2 ⟨p, hp, by rw [hb]; simp, rfl⟩)).1
    · intro x hx
      exact (h ⟨p.1, x.1, x.2⟩ ((mem_records _ _).2 ⟨p, hp, hx, rfl⟩)).2

theorem valid_of_parts {g : graph N E} (hn : g.nodes_ascending)
    (ho : index_ordered g.edges_rep_)
    (h1 : ∀ r ∈ records g.edges_rep_, g.is_node r.from_ = true ∧ g.is_node r.to_ = true) :
    g.valid :=
  ⟨hn, (I1_iff_records ho.2.2).2 h1, ho.2.1, ho.1, ho.2.2⟩

theorem valid_records_nodes {g : graph N E} (hv : g.valid) (r : value_type N E)
    (hr : r ∈ records g.edges_rep_) : g.is_node r.from_ = true ∧ g.is_node r.to_ = true :=
  (I1_iff_records hv.2.2.2.2).1 hv.2.1 r hr

theorem insert_node_is_node_mono (g : graph N E) (v x : N) (hx : g.is_node x = true) :
    (g.insert_node v).2.is_node x = true := by
  rw [is_node_iff] at hx ⊢
  rw [insert_node_nodes]
  split_ifs
  · exact hx
  · exact (mem_set_emplace node_compare_strict _ _ _).2 (Or.inr hx)

theorem insert_node_valid {g : graph N E} (hv : g.valid) (v : N) : (g.insert_node v).2.valid := by
  refine valid_of_parts (insert_node_ascending v hv.1) ?_ ?_
  · rw [insert_node_edges]; exact valid_index_ordered hv
  · rw [insert_node_edges]
    intro r hr
    have := valid_records_nodes hv r hr
    exact ⟨insert_node_is_node_mono g v _ this.1, insert_node_is_node_mono g v _ this.2⟩

theorem foldl_insert_node_valid (xs : List N) {g : graph N E} (hv : g.valid) :
    (xs.foldl (fun g v => (g.insert_node v).2) g).valid := by
  induction xs generalizing g with
  | nil => exact hv
  | cons x xs ih => exact ih (insert_node_valid hv x)

theorem insert_edge_unchanged_of_raise (g : graph N E) (src dst : N) (w : E)
    (h : ¬ (g.is_node src = true ∧ g.is_node dst = true)) : (g.insert_edge src dst w).2 = g := by
  have : g.is_node src = false ∨ g.is_node dst = false := by
    by_cases hs : g.is_node src = true
    · right
      simpa using fun hd => h ⟨hs, hd⟩
    · left
      simpa using hs
  obtain ⟨msg, hmsg⟩ := (insert_edge_raises_iff g src dst w).2 this
  exact insert_edge_raises_state g src dst w msg hmsg

theorem insert_edge_valid {g : graph N E} (hv : g.valid) (src dst : N) (w : E) :
    (g.insert_edge src dst w).2.valid := by
  by_cases h : g.is_node src = true ∧ g.is_node dst = true
  · have hn : (g.insert_edge src dst w).2.nodes_rep_ = g.nodes_rep_ := insert_edge_nodes g src dst w
    refine valid_of_parts ?_ (insert_edge_index_ordered g src dst w (valid_index_ordered hv)) ?_
    · unfold graph.nodes_ascending
      rw [hn]; exact hv.1
    · intro r hr
      rw [is_node_congr hn, is_node_congr hn]
      rcases (insert_edge_mem_records g src dst w h.1 h.2 hv.2.2.2.1 r).1 hr with rfl | hr
      · exact h
      · exact valid_records_nodes hv r hr
  · rw [insert_edge_unchanged_of_raise g src dst w h]; exact hv

theorem copy_bucket_loop_valid (curr_src : N) (l : List (N × E)) {g : graph N E} (hv : g.valid) :
    (copy_bucket_loop curr_src l g).2.valid := by
  induction l generalizing g with
  | nil => exact hv
  | cons e rest ih =>
    unfold copy_bucket_loop
    have h1 := insert_edge_valid hv curr_src e.1 e.2
    split
    · rename_i msg g1 heq
      rw [heq] at h1; exact h1
    · rename_i r g1 heq
      rw [heq] at h1; exact ih h1

theorem copy_edges_loop_valid (m : List (N × List (N × E))) {g : graph N E} (hv : g.valid) :
    (copy_edges_loop m g).2.valid := by
  induction m generalizing g with
  | nil => exact hv
  | cons p rest ih =>
    unfold copy_edges_loop
    have h1 := copy_bucket_loop_valid p.1 p.2 hv
    split
    · rename_i msg g1 heq
      rw [heq] at h1; exact h1
    · rename_i r g1 heq
      rw [heq] at h1; exact ih h1

theorem copy_into_valid {self : graph N E} (other : graph N E) (hv : self.valid) :
    (copy_into self other).2.valid :=
  copy_edges_loop_valid _ (foldl_insert_node_valid _ hv)

theorem valid_of_no_edges {g : graph N E} (hn : g.nodes_ascending) (he : g.edges_rep_ = []) :
    g.valid := by
  refine ⟨hn, ?_, ?_, ?_, ?_⟩
  · intro p hp; rw [he] at hp; exact absurd hp (List.not_mem_nil _)
  · intro p hp; rw [he] at hp; exact absurd hp (List.not_mem_nil _)
  · unfold graph.I3; rw [he]; exact ascending_nil _
  · intro p hp; rw [he] at hp; exact absurd hp (List.not_mem_nil _)

theorem default_valid : (graph.default : graph N E).valid :=
  valid_of_no_edges (ascending_nil _) rfl

theorem from_range_valid (xs : List N) : (graph.from_range xs : graph N E).valid :=
  foldl_insert_node_valid xs default_valid

end validity_insert

section validity_replace_erase_node
variable {N E : Type} [LinearOrder N] [LinearOrder E]

theorem replace_node_unchanged (g : graph N E) (old_data new_data : N)
    (h : ¬ (g.is_node old_data = true ∧ g.is_node new_data = false)) :
    (g.replace_node old_data new_data).2 = g := by
  unfold graph.replace_node
  by_cases h1 : g.is_node old_data = true <;> by_cases h2 : g.is_node new_data = true <;>
    simp_all

theorem rename_node_mem {old_data new_data x : N} {nodes : List N} (hx : x ∈ nodes) :
    rename_node old_data new_data x
      ∈ set_erase node_compare old_data (set_emplace node_compare new_data nodes)
      ∨ old_data = new_data := by
  by_cases hne : old_data = new_data
  · exact Or.inr hne
  · left
    rw [mem_set_erase node_compare_strict, mem_set_emplace node_compare_strict]
    unfold rename_node
    split_ifs with h
    · exact ⟨Or.inl rfl, fun e => hne e.symm⟩
    · exact ⟨Or.inr hx, h⟩

theorem replace_node_valid {g : graph N E} (hv : g.valid) (old_data new_data : N) :
    (g.replace_node old_data new_data).2.valid := by
  by_cases h : g.is_node old_data = true ∧ g.is_node new_data = false
  · obtain ⟨hold, hnew⟩ := h
    have hne : old_data ≠ new_data := by
      intro e
      rw [e, hnew] at hold
      exact Bool.noConfusion hold
    have ho := valid_index_ordered hv
    rw [replace_node_eq g old_data new_data hold hnew]
    refine valid_of_parts ?_ ?_ ?_
    · exact ascending_set_erase _ (ascending_set_emplace node_compare_strict _ hv.1)
    · exact index_ordered_repoint_all _ _ (index_ordered_rekey_entry _ _ ho)
    · intro r hr
      obtain ⟨r1, hr1, rfl⟩ := (mem_records_repoint_all hne _ r).1 hr
      obtain ⟨r0, hr0, rfl⟩ :=
        (mem_records_rekey_entry ho.1 (keys_not_node hv.2.1 hnew) r1).1 hr1
      have hn := valid_records_nodes hv r0 hr0
      simp only [is_node_iff] at hn ⊢
      exact ⟨(rename_node_mem hn.1).resolve_right hne, (rename_node_mem hn.2).resolve_right hne⟩
  · rw [replace_node_unchanged g old_data new_data h]; exact hv

theorem mem_erase_incoming (value : N) (m : List (N × List (N × E))) (p : N × List (N × E)) :
    p ∈ erase_incoming value m ↔
      ∃ q ∈ m, p = (q.1, q.2.filter (fun e => !decide (e.1 = value))) ∧ p.2 ≠ [] := by
  unfold erase_incoming
  rw [List.mem_filterMap]
  constructor
  · rintro ⟨q, hq, h⟩
    dsimp only at h
    split_ifs at h with hemp
    have h2 := Option.some.inj h
    refine ⟨q, hq, h2.symm, ?_⟩
    rw [← h2]
    simpa using hemp
  · rintro ⟨q, hq, rfl, hne⟩
    refine ⟨q, hq, ?_⟩
    dsimp only at hne ⊢
    rw [if_neg (by simpa using hne)]

theorem keys_erase_incoming_sublist (value : N) (m : List (N × List (N × E))) :
    ((erase_incoming value m).map Prod.fst).Sublist (m.map Prod.fst) := by
  induction m with
  | nil => exact List.Sublist.slnil
  | cons q qs ih =>
    unfold erase_incoming at ih ⊢
    rw [List.filterMap_cons]
    dsimp only
    split_ifs
    · exact List.Sublist.cons _ ih
    · exact List.Sublist.cons₂ _ ih

theorem index_ordered_erase_incoming (value : N) {m : List (N × List (N × E))}
    (h : index_ordered m) : index_ordered (erase_incoming value m) := by
  refine ⟨?_, ?_, ?_⟩
  · exact List.Pairwise.sublist (keys_erase_incoming_sublist value m) h.1
  · intro p hp
    obtain ⟨q, hq, rfl, _⟩ := (mem_erase_incoming value m p).1 hp
    exact List.Pairwise.filter _ (h.2.1 q hq)
  · intro p hp
    obtain ⟨q, hq, _, hne⟩ := (mem_erase_incoming value m p).1 hp
    exact hne

theorem mem_records_erase_incoming (value : N) (m : List (N × List (N × E)))
    (r : value_type N E) :
    r ∈ records (erase_incoming value m) ↔ r ∈ records m ∧ r.to_ ≠ value := by
  simp only [mem_records]
  constructor
  · rintro ⟨p, hp, hmem, hfrom⟩
    obtain ⟨q, hq, rfl, _⟩ := (mem_erase_incoming value m p).1 hp
    rw [List.mem_filter] at hmem
    exact ⟨⟨q, hq, hmem.1, hfrom⟩, by simpa using hmem.2⟩
  · rintro ⟨⟨q, hq, hmem, hfrom⟩, hne⟩
    have hmem2 : (r.to_, r.weight) ∈ q.2.filter (fun e => !decide (e.1 = value)) := by
      rw [List.mem_filter]
      exact ⟨hmem, by simpa using hne⟩
    refine ⟨(q.1, q.2.filter (fun e => !decide (e.1 = value))), ?_, hmem2, hfrom⟩
    exact (mem_erase_incoming value m _).2 ⟨q, hq, rfl, List.ne_nil_of_mem hmem2⟩

theorem map_erase_of_not_mem {α β : Type} {lt : α → α → Bool} (hlt : strict_total lt) (k : α)
    (m : List (α × β)) (h : k ∉ m.map Prod.fst) : map_erase lt k m = m := by
  unfold map_erase
  rw [List.filter_eq_self]
  intro p hp
  have hk : ¬ equiv_under lt k p.1 = true := by
    intro e
    apply h
    rw [(equiv_under_iff hlt _ _).1 e]
    exact List.mem_map.2 ⟨p, hp, rfl⟩
  simpa using hk

/-- What `erase_node` does to a graph that has the node. -/
theorem erase_node_eq (g : graph N E) (value : N) (hv : g.is_node value = true) :
    g.erase_node value =
      (true, ⟨g.node_u_ptrs_.erase value,
        erase_incoming value (map_erase node_compare value g.edges_rep_),
        set_erase node_compare value g.nodes_rep_⟩) := by
  unfold graph.erase_node
  simp only [hv, Bool.not_true, Bool.false_eq_true, if_false]
  split_ifs with hc
  · rfl
  · have : value ∉ g.edges_rep_.map Prod.fst := by
      rw [← map_contains_iff node_compare_strict]; exact hc
    rw [map_erase_of_not_mem node_compare_strict _ _ this]

theorem erase_node_unchanged (g : graph N E) (value : N) (hv : g.is_node value = false) :
    g.erase_node value = (false, g) := by
  unfold graph.erase_node
  simp [hv]

theorem erase_node_valid {g : graph N E} (hv : g.valid) (value : N) :
    (g.erase_node value).2.valid := by
  by_cases h : g.is_node value = true
  · rw [erase_node_eq g value h]
    refine valid_of_parts ?_ ?_ ?_
    · exact ascending_set_erase _ hv.1
    · exact index_ordered_erase_incoming _ (index_ordered_erase (valid_index_ordered hv) _)
    · intro r hr
      obtain ⟨hr1, hto⟩ := (mem_records_erase_incoming _ _ r).1 hr
      obtain ⟨hr0, hfrom⟩ := (mem_records_erase _ _ r).1 hr1
      have hn := valid_records_nodes hv r hr0
      simp only [is_node_iff] at hn ⊢
      exact ⟨(mem_set_erase node_compare_strict _ _ _).2 ⟨hn.1, hfrom⟩,
        (mem_set_erase node_compare_strict _ _ _).2 ⟨hn.2, hto⟩⟩
  · rw [erase_node_unchanged g value (by simpa using h)]; exact hv

end validity_replace_erase_node

section validity_erase_edge
variable {N E : Type} [LinearOrder N] [LinearOrder E]

theorem map_second_modify {α β : Type} (lt : α → α → Bool) (k : α) (f : β → β)
    (m : List (α × β)) :
    map_second lt k (map_modify lt k f m) = (map_second lt k m).map f := by
  induction m with
  | nil => rfl
  | cons p ps ih =>
    unfold map_modify at ih ⊢
    rw [List.map_cons]
    by_cases hk : equiv_under lt k p.1 = true
    · simp [map_second, hk]
    · simp only [map_second, hk, if_false, Bool.false_eq_true]
      exact ih

/-- What a defined `erase_edge(iterator)` call does: the iterator designates an element of a
bucket, and the graph changes by the erasure step at that element. -/
theorem erase_edge_iter_eq {g g1 : graph N E} {i i1 : iterator N E}
    (h : g.erase_edge_iter i = some (i1, g1)) :
    ∃ k e b, i.curr_map_iter_ = some k ∧ i.curr_set_iter_ = some e ∧
      map_second node_compare k g.edges_rep_ = some b ∧ e ∈ b ∧
      i.incr g.edges_rep_ = some i1 ∧
      g1 = ⟨g.node_u_ptrs_, erase_at k e g.edges_rep_, g.nodes_rep_⟩ := by
  unfold graph.erase_edge_iter at h
  split at h
  · rename_i k e hk he
    split at h
    · rename_i iter hincr
      simp only [Option.some.injEq, Prod.mk.injEq] at h
      have hincr2 := hincr
      unfold iterator.incr at hincr2
      rw [hk, he] at hincr2
      dsimp only at hincr2
      cases hb : map_second node_compare k g.edges_rep_ with
      | none => rw [hb] at hincr2; exact absurd hincr2 (by simp)
      | some b =>
        rw [hb] at hincr2
        dsimp only at hincr2
        by_cases hmem : e ∈ b
        · exact ⟨k, e, b, hk, he, hb, hmem, by rw [hincr, h.1], h.2.symm⟩
        · rw [if_neg hmem] at hincr2; exact absurd hincr2 (by simp)
    · exact absurd h (by simp)
  · exact absurd h (by simp)

theorem index_ordered_erase_at {m : List (N × List (N × E))} (h : index_ordered m) (k : N)
    (e : N × E) : index_ordered (erase_at k e m) := by
  have hkeys : ascending node_compare
      ((map_modify node_compare k (set_erase edge_compare e) m).map Prod.fst) := by
    rw [keys_map_modify]; exact h.1
  have hbuckets : ∀ p ∈ map_modify node_compare k (set_erase edge_compare e) m,
      ascending edge_compare p.2 := by
    intro p hp
    rcases (mem_map_modify node_compare_strict k _ m p).1 hp with ⟨hp, _⟩ | ⟨b, hb, rfl⟩
    · exact h.2.1 p hp
    · exact ascending_set_erase _ (h.2.1 _ hb)
  have hother : ∀ p ∈ map_modify node_compare k (set_erase edge_compare e) m,
      p.1 ≠ k → p.2 ≠ [] := by
    intro p hp hne
    rcases (mem_map_modify node_compare_strict k _ m p).1 hp with ⟨hp, _⟩ | ⟨b, hb, rfl⟩
    · exact h.2.2 p hp
    · exact absurd rfl hne
  unfold erase_at
  dsimp only
  split_ifs with hemp
  · refine ⟨?_, ?_, ?_⟩
    · rw [keys_map_erase]; exact ascending_set_erase _ hkeys
    · intro p hp
      exact hbuckets p ((mem_map_erase node_compare_strict k _ p).1 hp).1
    · intro p hp
      have := (mem_map_erase node_compare_strict k _ p).1 hp
      exact hother p this.1 this.2
  · refine ⟨hkeys, hbuckets, ?_⟩
    intro p hp
    by_cases hpk : p.1 = k
    · have hp2 : (k, p.2) ∈ map_modify node_compare k (set_erase edge_compare e) m := by
        have hpp : (k, p.2) = p := Prod.ext hpk.symm rfl
        rw [hpp]; exact hp
      have hsec := map_second_of_mem node_compare_strict
        (ascending_nodup node_compare_strict hkeys) hp2
      rw [hsec] at hemp
      simpa using hemp
    · exact hother p hp hpk

theorem mem_records_erase_at {m : List (N × List (N × E))}
    (h3 : ascending node_compare (m.map Prod.fst)) (k : N) (e : N × E) (r : value_type N E) :
    r ∈ records (erase_at k e m) ↔ r ∈ records m ∧ r ≠ ⟨k, e.1, e.2⟩ := by
  have hr : r = ⟨k, e.1, e.2⟩ ↔ r.from_ = k ∧ (r.to_, r.weight) = e := by
    cases r; cases e; simp
  have hmod : r ∈ records (map_modify node_compare k (set_erase edge_compare e) m) ↔
      r ∈ records m ∧ r ≠ ⟨k, e.1, e.2⟩ := by
    rw [mem_records_modify]
    simp only [ne_eq, hr]
    constructor
    · rintro (⟨h1, h2⟩ | ⟨h1, b, hb, hmem⟩)
      · exact ⟨h1, fun h => h2 h.1⟩
      · have := (mem_set_erase edge_compare_strict _ _ _).1 hmem
        exact ⟨(mem_records _ _).2 ⟨(k, b), hb, this.1, h1⟩, fun h => this.2 h.2⟩
    · rintro ⟨h1, h2⟩
      by_cases hfrom : r.from_ = k
      · right
        obtain ⟨b, hb, hmem⟩ := (mem_records_iff_bucket h3 r).1 h1
        rw [hfrom] at hb
        exact ⟨hfrom, b, map_second_mem node_compare_strict hb,
          (mem_set_erase edge_compare_strict _ _ _).2 ⟨hmem, fun h => h2 ⟨hfrom, h⟩⟩⟩
      · exact Or.inl ⟨h1, hfrom⟩
  unfold erase_at
  dsimp only
  split_ifs with hemp
  · rw [mem_records_erase, hmod]
    constructor
    · rintro ⟨h1, _⟩; exact h1
    · rintro ⟨h1, h2⟩
      refine ⟨⟨h1, h2⟩, ?_⟩
      intro hfrom
      obtain ⟨b, hb, hmem⟩ := (mem_records_iff_bucket h3 r).1 h1
      rw [hfrom] at hb
      rw [map_second_modify, hb] at hemp
      have hnil : set_erase edge_compare e b = [] := by simpa using hemp
      have : (r.to_, r.weight) ∈ set_erase edge_compare e b :=
        (mem_set_erase edge_compare_strict _ _ _).2 ⟨hmem, fun h => h2 (hr.2 ⟨hfrom, h⟩)⟩
      rw [hnil] at this
      exact absurd this (List.not_mem_nil _)
  · exact hmod

theorem erase_edge_iter_valid {g g1 : graph N E} {i i1 : iterator N E} (hv : g.valid)
    (h : g.erase_edge_iter i = some (i1, g1)) : g1.valid := by
  obtain ⟨k, e, b, _, _, _, _, _, rfl⟩ := erase_edge_iter_eq h
  refine valid_of_parts hv.1 (index_ordered_erase_at (valid_index_ordered hv) k e) ?_
  intro r hr
  exact valid_records_nodes hv r ((mem_records_erase_at hv.2.2.2.1 k e r).1 hr).1

theorem erase_range_loop_valid (n : Nat) {g g1 : graph N E} {i s i1 : iterator N E}
    (hv : g.valid) (h : erase_range_loop n g i s = some (i1, g1)) : g1.valid := by
  induction n generalizing g i with
  | zero =>
    unfold erase_range_loop at h
    split_ifs at h
    simp only [Option.some.injEq, Prod.mk.injEq] at h
    rw [← h.2]; exact hv
  | succ n ih =>
    unfold erase_range_loop at h
    split_ifs at h
    · simp only [Option.some.injEq, Prod.mk.injEq] at h
      rw [← h.2]; exact hv
    · split at h
      · rename_i iter1 g2 heq
        exact ih (erase_edge_iter_valid hv heq) h
      · exact absurd h (by simp)

theorem erase_edge_valid {g g1 : graph N E} {src dst : N} {w : E} {r : Except String Bool}
    (hv : g.valid) (h : g.erase_edge src dst w = some (r, g1)) : g1.valid := by
  unfold graph.erase_edge at h
  dsimp only at h
  split_ifs at h
  · simp only [Option.some.injEq, Prod.mk.injEq] at h
    rw [← h.2]; exact hv
  · simp only [Option.some.injEq, Prod.mk.injEq] at h
    rw [← h.2]; exact hv
  · split at h
    · rename_i i1 g2 heq
      simp only [Option.some.injEq, Prod.mk.injEq] at h
      rw [← h.2]
      exact erase_edge_iter_valid hv heq
    · exact absurd h (by simp)

end validity_erase_edge

section validity_merge_loop
variable {N E : Type} [LinearOrder N] [LinearOrder E]

/-- The operation `insert_edge` keeps the adjacency index ascending by source and every bucket
ascending, also when the index holds an empty bucket. -/
theorem insert_edge_sorted (g : graph N E) (src dst : N) (w : E)
    (h3 : ascending node_compare (g.edges_rep_.map Prod.fst))
    (h2 : ∀ p ∈ g.edges_rep_, ascending edge_compare p.2) :
    ascending node_compare ((g.insert_edge src dst w).2.edges_rep_.map Prod.fst) ∧
    ∀ p ∈ (g.insert_edge src dst w).2.edges_rep_, ascending edge_compare p.2 := by
  by_cases h : g.is_node src = true ∧ g.is_node dst = true
  · rw [insert_edge_eq g src dst w h.1 h.2]
    cases hm : map_second node_compare src g.edges_rep_ with
    | none =>
      dsimp only
      refine ⟨?_, ?_⟩
      · rw [keys_map_emplace]; exact ascending_set_emplace node_compare_strict _ h3
      · intro p hp
        rcases (mem_map_emplace node_compare_strict src _ h3 p).1 hp with hp | ⟨rfl, _⟩
        · exact h2 p hp
        · simp [ascending]
    | some b =>
      dsimp only
      split_ifs
      · exact ⟨h3, h2⟩
      · dsimp only
        refine ⟨?_, ?_⟩
        · rw [keys_map_modify]; exact h3
        · intro p hp
          rcases (mem_map_modify node_compare_strict src _ _ p).1 hp with ⟨hp, _⟩ | ⟨b, hb, rfl⟩
          · exact h2 p hp
          · exact ascending_set_emplace edge_compare_strict _ (h2 _ hb)
  · rw [insert_edge_unchanged_of_raise g src dst w h]; exact ⟨h3, h2⟩

/-- The operation `insert_edge` leaves no bucket empty that was not empty before. -/
theorem insert_edge_nonempty_except (g : graph N E) (src dst : N) (w : E) (k : N)
    (h3 : ascending node_compare (g.edges_rep_.map Prod.fst))
    (hne : ∀ p ∈ g.edges_rep_, p.1 ≠ k → p.2 ≠ []) :
    ∀ p ∈ (g.insert_edge src dst w).2.edges_rep_, p.1 ≠ k → p.2 ≠ [] := by
  by_cases h : g.is_node src = true ∧ g.is_node dst = true
  · rw [insert_edge_eq g src dst w h.1 h.2]
    cases hm : map_second node_compare src g.edges_rep_ with
    | none =>
      dsimp only
      intro p hp hpk
      rcases (mem_map_emplace node_compare_strict src _ h3 p).1 hp with hp | ⟨rfl, _⟩
      · exact hne p hp hpk
      · simp
    | some b =>
      dsimp only
      split_ifs
      · exact hne
      · dsimp only
        intro p hp hpk
        rcases (mem_map_modify node_compare_strict src _ _ p).1 hp with ⟨hp, _⟩ | ⟨b, hb, rfl⟩
        · exact hne p hp hpk
        · exact set_emplace_ne_nil _ _ _
  · rw [insert_edge_unchanged_of_raise g src dst w h]; exact hne

theorem merge_loop_u_ptrs (new_data : N) (l : List (N × E)) (g : graph N E) :
    (merge_loop new_data l g).2.node_u_ptrs_ = g.node_u_ptrs_ := by
  induction l generalizing g with
  | nil => rfl
  | cons e rest ih =>
    unfold merge_loop
    split_ifs
    · exact ih g
    · have hn := insert_edge_u_ptrs g new_data e.1 e.2
      split
      · rename_i msg g1 heq
        rw [heq] at hn
        exact hn
      · rename_i r g1 heq
        rw [heq] at hn
        rw [ih g1]
        exact hn

/-- The last loop of `merge_replace_node` on a graph whose nodes include `new_data` and the
destinations to insert: it adds the edges `(new_data, e)` for `e` in the list, and keeps the
index sorted and the other buckets non-empty. -/
theorem merge_loop_spec (new_data : N) (l : List (N × E)) (g : graph N E)
    (hnew : g.is_node new_data = true) (hl : ∀ e ∈ l, g.is_node e.1 = true)
    (h3 : ascending node_compare (g.edges_rep_.map Prod.fst))
    (h2 : ∀ p ∈ g.edges_rep_, ascending edge_compare p.2)
    (hne : ∀ p ∈ g.edges_rep_, p.1 ≠ new_data → p.2 ≠ []) :
    ascending node_compare ((merge_loop new_data l g).2.edges_rep_.map Prod.fst) ∧
    (∀ p ∈ (merge_loop new_data l g).2.edges_rep_, ascending edge_compare p.2) ∧
    (∀ p ∈ (merge_loop new_data l g).2.edges_rep_, p.1 ≠ new_data → p.2 ≠ []) ∧
    ∀ r, r ∈ records (merge_loop new_data l g).2.edges_rep_ ↔
      r ∈ records g.edges_rep_ ∨ (r.from_ = new_data ∧ (r.to_, r.weight) ∈ l) := by
  induction l generalizing g with
  | nil =>
    refine ⟨h3, h2, hne, ?_⟩
    intro r
    simp [merge_loop]
  | cons e rest ih =>
    have hrest : ∀ x ∈ rest, g.is_node x.1 = true :=
      fun x hx => hl x (List.mem_cons_of_mem _ hx)
    unfold merge_loop
    split_ifs with hc
    · obtain ⟨a1, a2, a3, a4⟩ := ih g hnew hrest h3 h2 hne
      refine ⟨a1, a2, a3, ?_⟩
      intro r
      rw [a4, List.mem_cons]
      constructor
      · rintro (h | ⟨h, h5⟩)
        · exact Or.inl h
        · exact Or.inr ⟨h, Or.inr h5⟩
      · rintro (h | ⟨h, h5 | h5⟩)
        · exact Or.inl h
        · left
          rw [mem_records_iff_bucket h3]
          have hmem := (set_contains_iff edge_compare_strict _ _).1 hc
          cases hm : map_second node_compare new_data g.edges_rep_ with
          | none => rw [hm] at hmem; exact absurd hmem (by simp)
          | some b =>
            rw [hm] at hmem
            exact ⟨b, by rw [h]; exact hm, by rw [h5]; exact hmem⟩
        · exact Or.inr ⟨h, h5⟩
    · have he : g.is_node e.1 = true := hl e (List.mem_cons_self _ _)
      have hn := insert_edge_nodes g new_data e.1 e.2
      have hs := insert_edge_sorted g new_data e.1 e.2 h3 h2
      have hnn := insert_edge_nonempty_except g new_data e.1 e.2 new_data h3 hne
      have hrec := insert_edge_mem_records g new_data e.1 e.2 hnew he h3
      have hraise := insert_edge_raises_iff g new_data e.1 e.2
      rcases hie : g.insert_edge new_data e.1 e.2 with ⟨res, g1⟩
      rw [hie] at hn hs hnn hrec hraise
      cases res with
      | error msg =>
        have := hraise.1 ⟨msg, rfl⟩
        rw [hnew, he] at this
        simp at this
      | ok b =>
        dsimp only
        obtain ⟨a1, a2, a3, a4⟩ := ih g1 (by rw [is_node_congr hn]; exact hnew)
          (fun x hx => by rw [is_node_congr hn]; exact hrest x hx) hs.1 hs.2 hnn
        refine ⟨a1, a2, a3, ?_⟩
        intro r
        have hr : r = ⟨new_data, e.1, e.2⟩ ↔ r.from_ = new_data ∧ (r.to_, r.weight) = e := by
          cases r; cases e; simp
        rw [a4, hrec, hr, List.mem_cons]
        constructor
        · rintro ((⟨h, h5⟩ | h) | ⟨h, h5⟩)
          · exact Or.inr ⟨h, Or.inl h5⟩
          · exact Or.inl h
          · exact Or.inr ⟨h, Or.inr h5⟩
        · rintro (h | ⟨h, h5 | h5⟩)
          · exact Or.inl (Or.inr h)
          · exact Or.inl (Or.inl ⟨h, h5⟩)
          · exact Or.inr ⟨h, h5⟩

end validity_merge_loop

section validity_merge
variable {N E : Type} [LinearOrder N] [LinearOrder E]

theorem rename_node_mem_erase {old_data new_data x : N} {nodes : List N}
    (hne : old_data ≠ new_data) (hnew : new_data ∈ nodes) (hx : x ∈ nodes) :
    rename_node old_data new_data x ∈ set_erase node_compare old_data nodes := by
  rw [mem_set_erase node_compare_strict]
  unfold rename_node
  split_ifs with h
  · exact ⟨hnew, fun e => hne e.symm⟩
  · exact ⟨hx, h⟩

/-- The call `merge_replace_node(old, new)` for two distinct nodes of a valid graph: it returns
normally, the result is valid, `old` leaves the node set, and the stored edges are exactly
the images of the previous ones under renaming `old` to `new`. -/
theorem merge_replace_node_distinct (g : graph N E) (hv : g.valid) (old_data new_data : N)
    (hold : g.is_node old_data = true) (hnew : g.is_node new_data = true)
    (hne : old_data ≠ new_data) :
    (g.merge_replace_node old_data new_data).1 = .ok () ∧
    (g.merge_replace_node old_data new_data).2.valid ∧
    (g.merge_replace_node old_data new_data).2.nodes_rep_
      = set_erase node_compare old_data g.nodes_rep_ ∧
    ∀ r, r ∈ records (g.merge_replace_node old_data new_data).2.edges_rep_ ↔
      ∃ r0 ∈ records g.edges_rep_, r = rename_record old_data new_data r0 := by
  have ho := valid_index_ordered hv
  have ho1 : index_ordered (repoint_all old_data new_data g.edges_rep_) :=
    index_ordered_repoint_all _ _ ho
  have hrec1 := mem_records_repoint_all hne g.edges_rep_
  have hnodes' : ascending node_compare (set_erase node_compare old_data g.nodes_rep_) :=
    ascending_set_erase _ hv.1
  -- the source-renaming step, common to both branches
  have hsrc : ∀ r : value_type N E,
      ((r ∈ records (repoint_all old_data new_data g.edges_rep_) ∧ r.from_ ≠ old_data) ∨
        (r.from_ = new_data ∧ (⟨old_data, r.to_, r.weight⟩ : value_type N E)
          ∈ records (repoint_all old_data new_data g.edges_rep_))) ↔
      ∃ r0 ∈ records g.edges_rep_, r = rename_record old_data new_data r0 := by
    intro r
    constructor
    · rintro (⟨h1, h2⟩ | ⟨h1, h2⟩)
      · obtain ⟨r0, hr0, rfl⟩ := (hrec1 r).1 h1
        refine ⟨r0, hr0, ?_⟩
        dsimp only at h2
        simp [rename_record, rename_node, h2]
      · obtain ⟨r0, hr0, heq⟩ := (hrec1 _).1 h2
        refine ⟨r0, hr0, ?_⟩
        simp only [value_type.mk.injEq] at heq
        cases r
        simp only [rename_record, value_type.mk.injEq] at h1 ⊢
        exact ⟨by rw [h1]; simp [rename_node, heq.1.symm], heq.2.1, heq.2.2⟩
    · rintro ⟨r0, hr0, rfl⟩
      have hr1 : (⟨r0.from_, rename_node old_data new_data r0.to_, r0.weight⟩ : value_type N E)
          ∈ records (repoint_all old_data new_data g.edges_rep_) := (hrec1 _).2 ⟨r0, hr0, rfl⟩
      by_cases hf : r0.from_ = old_data
      · right
        refine ⟨by simp [rename_record, rename_node, hf], ?_⟩
        rw [hf] at hr1
        exact hr1
      · left
        have : rename_record old_data new_data r0
            = ⟨r0.from_, rename_node old_data new_data r0.to_, r0.weight⟩ := by
          simp [rename_record, rename_node, hf]
        rw [this]
        exact ⟨hr1, hf⟩
  -- the nodes of the renamed records
  have hren : ∀ r0 ∈ records g.edges_rep_,
      rename_node old_data new_data r0.from_ ∈ set_erase node_compare old_data g.nodes_rep_ ∧
      rename_node old_data new_data r0.to_ ∈ set_erase node_compare old_data g.nodes_rep_ := by
    intro r0 hr0
    have hn := valid_records_nodes hv r0 hr0
    rw [is_node_iff, is_node_iff] at hn
    exact ⟨rename_node_mem_erase hne ((is_node_iff g _).1 hnew) hn.1,
      rename_node_mem_erase hne ((is_node_iff g _).1 hnew) hn.2⟩
  have hpre : (!g.is_node old_data || !g.is_node new_data) = false := by simp [hold, hnew]
  unfold graph.merge_replace_node
  rw [hpre]
  simp only [Bool.false_eq_true, if_false]
  cases hm : map_second node_compare old_data (repoint_all old_data new_data g.edges_rep_) with
  | none =>
    dsimp only
    have hno : ∀ r ∈ records (repoint_all old_data new_data g.edges_rep_),
        r.from_ ≠ old_data := by
      intro r hr e
      obtain ⟨b, hb, _⟩ := (mem_records_iff_bucket ho1.1 r).1 hr
      rw [e, hm] at hb
      exact absurd hb (by simp)
    have hrec : ∀ r, r ∈ records (repoint_all old_data new_data g.edges_rep_) ↔
        ∃ r0 ∈ records g.edges_rep_, r = rename_record old_data new_data r0 := by
      intro r
      rw [← hsrc r]
      constructor
      · exact fun h => Or.inl ⟨h, hno r h⟩
      · rintro (⟨h, _⟩ | ⟨_, h⟩)
        · exact h
        · exact absurd rfl (hno _ h)
    refine ⟨rfl, valid_of_parts hnodes' ho1 ?_, rfl, hrec⟩
    intro r hr
    obtain ⟨r0, hr0, rfl⟩ := (hrec r).1 hr
    simp only [is_node_iff]
    exact hren r0 hr0
  | some ode =>
    dsimp only
    have hode : (old_data, ode) ∈ repoint_all old_data new_data g.edges_rep_ :=
      map_second_mem node_compare_strict hm
    have hode_ne : ode ≠ [] := ho1.2.2 _ hode
    have hode_mem : ∀ x : N × E, x ∈ ode ↔ (⟨old_data, x.1, x.2⟩ : value_type N E)
        ∈ records (repoint_all old_data new_data g.edges_rep_) := by
      intro x
      rw [mem_records_iff_bucket ho1.1]
      dsimp only
      rw [hm]
      simp
    generalize hG2 : (if map_contains node_compare new_data _ = true then _ else _ : graph N E)
      = G2
    have hn2 : G2.nodes_rep_ = g.nodes_rep_ := by
      rw [← hG2]; split_ifs <;> rfl
    have hu2 : G2.node_u_ptrs_ = g.node_u_ptrs_ := by
      rw [← hG2]; split_ifs <;> rfl
    have he2 : G2.edges_rep_ =
        if map_contains node_compare new_data (repoint_all old_data new_data g.edges_rep_) = true
        then repoint_all old_data new_data g.edges_rep_
        else map_emplace node_compare new_data [] (repoint_all old_data new_data g.edges_rep_) := by
      rw [← hG2]; split_ifs <;> rfl
    have h3G : ascending node_compare (G2.edges_rep_.map Prod.fst) := by
      rw [he2]; split_ifs
      · exact ho1.1
      · rw [keys_map_emplace]; exact ascending_set_emplace node_compare_strict _ ho1.1
    have h2G : ∀ p ∈ G2.edges_rep_, ascending edge_compare p.2 := by
      rw [he2]; split_ifs
      · exact ho1.2.1
      · intro p hp
        rcases (mem_map_emplace node_compare_strict new_data _ ho1.1 p).1 hp with hp | ⟨rfl, _⟩
        · exact ho1.2.1 p hp
        · exact ascending_nil _
    have hneG : ∀ p ∈ G2.edges_rep_, p.1 ≠ new_data → p.2 ≠ [] := by
      rw [he2]; split_ifs
      · exact fun p hp _ => ho1.2.2 p hp
      · intro p hp hpk
        rcases (mem_map_emplace node_compare_strict new_data _ ho1.1 p).1 hp with hp | ⟨rfl, _⟩
        · exact ho1.2.2 p hp
        · exact absurd rfl hpk
    have hrecG : ∀ r, r ∈ records G2.edges_rep_
        ↔ r ∈ records (repoint_all old_data new_data g.edges_rep_) := by
      intro r
      rw [he2]; split_ifs
      · exact Iff.rfl
      · rw [mem_records_emplace ho1.1]
        simp
    have hnewG : G2.is_node new_data = true := by rw [is_node_congr hn2]; exact hnew
    have hodeG : ∀ e ∈ ode, G2.is_node e.1 = true := by
      intro e he
      rw [is_node_congr hn2]
      obtain ⟨r0, hr0, heq⟩ := (hrec1 _).1 ((hode_mem e).1 he)
      simp only [value_type.mk.injEq] at heq
      rw [heq.2.1, is_node_iff]
      exact ((mem_set_erase node_compare_strict _ _ _).1 (hren r0 hr0).2).1
    have hok := merge_loop_ok new_data ode G2 hnewG hodeG
    have hn3 := merge_loop_nodes new_data ode G2
    obtain ⟨a1, a2, a3, a4⟩ := merge_loop_spec new_data ode G2 hnewG hodeG h3G h2G hneG
    rcases hl : merge_loop new_data ode G2 with ⟨res, g3⟩
    rw [hl] at hok hn3 a1 a2 a3 a4
    dsimp only at hok hn3 a1 a2 a3 a4
    subst hok
    dsimp only
    have hrec : ∀ r, r ∈ records (map_erase node_compare old_data g3.edges_rep_) ↔
        ∃ r0 ∈ records g.edges_rep_, r = rename_record old_data new_data r0 := by
      intro r
      rw [← hsrc r, mem_records_erase, a4, hrecG]
      constructor
      · rintro ⟨h1 | ⟨h1, h2⟩, h3⟩
        · exact Or.inl ⟨h1, h3⟩
        · exact Or.inr ⟨h1, (hode_mem _).1 h2⟩
      · rintro (⟨h1, h2⟩ | ⟨h1, h2⟩)
        · exact ⟨Or.inl h1, h2⟩
        · exact ⟨Or.inr ⟨h1, (hode_mem (r.to_, r.weight)).2 h2⟩,
            by rw [h1]; exact fun e => hne e.symm⟩
    have hord : index_ordered (map_erase node_compare old_data g3.edges_rep_) := by
      refine ⟨?_, ?_, ?_⟩
      · rw [keys_map_erase]; exact ascending_set_erase _ a1
      · intro p hp
        exact a2 p ((mem_map_erase node_compare_strict _ _ p).1 hp).1
      · intro p hp
        have hp3 := ((mem_map_erase node_compare_strict _ _ p).1 hp).1
        by_cases hpk : p.1 = new_data
        · obtain ⟨e, rest, hrest⟩ := List.exists_cons_of_ne_nil hode_ne
          have hre : (⟨new_data, e.1, e.2⟩ : value_type N E) ∈ records g3.edges_rep_ :=
            (a4 _).2 (Or.inr ⟨rfl, by rw [hrest]; simp⟩)
          obtain ⟨b, hb, hmem⟩ := (mem_records_iff_bucket a1 _).1 hre
          dsimp only at hb hmem
          have hpp : (new_data, p.2) ∈ g3.edges_rep_ := by
            have : (new_data, p.2) = p := Prod.ext hpk.symm rfl
            rw [this]; exact hp3
          have := map_second_of_mem node_compare_strict (ascending_nodup node_compare_strict a1) hpp
          rw [this] at hb
          rw [Option.some.inj hb]
          exact List.ne_nil_of_mem hmem
        · exact a3 p hp3 hpk
    have hn3' : g3.nodes_rep_ = g.nodes_rep_ := hn3.trans hn2
    refine ⟨rfl, ?_, by rw [hn3'], hrec⟩
    refine valid_of_parts ?_ hord ?_
    · show ascending node_compare (set_erase node_compare old_data g3.nodes_rep_)
      rw [hn3']; exact hnodes'
    · intro r hr
      obtain ⟨r0, hr0, rfl⟩ := (hrec r).1 hr
      simp only [is_node_iff]
      show _ ∈ set_erase node_compare old_data g3.nodes_rep_
        ∧ _ ∈ set_erase node_compare old_data g3.nodes_rep_
      rw [hn3']
      exact hren r0 hr0

end validity_merge

section validity_reachable
variable {N E : Type} [LinearOrder N] [LinearOrder E]

theorem merge_replace_node_unchanged (g : graph N E) (old_data new_data : N)
    (h : ¬ (g.is_node old_data = true ∧ g.is_node new_data = true)) :
    (g.merge_replace_node old_data new_data).2 = g := by
  unfold graph.merge_replace_node
  have : (!g.is_node old_data || !g.is_node new_data) = true := by
    by_cases h1 : g.is_node old_data = true
    · have h2 : ¬ g.is_node new_data = true := fun h2 => h ⟨h1, h2⟩
      simp [h2]
    · simp [h1]
  rw [if_pos this]

theorem merge_replace_node_valid {g : graph N E} (hv : g.valid) (old_data new_data : N)
    (hne : old_data ≠ new_data) : (g.merge_replace_node old_data new_data).2.valid := by
  by_cases h : g.is_node old_data = true ∧ g.is_node new_data = true
  · exact (merge_replace_node_distinct g hv old_data new_data h.1 h.2 hne).2.1
  · rw [merge_replace_node_unchanged g old_data new_data h]; exact hv

/-- Every public operation other than `merge_replace_node(x, x)` keeps a graph valid: a
graph reached without such a call is valid (in particular I1 holds and no bucket is
empty). -/
theorem reachable_without_self_merge_valid {g : graph N E}
    (h : reachable_without_self_merge g) : g.valid := by
  unfold reachable_without_self_merge at h
  induction h with
  | default => exact default_valid
  | from_range xs => exact from_range_valid xs
  | copy_construct _ _ _ => exact copy_into_valid _ default_valid
  | copy_assign _ _ ih _ => exact copy_into_valid _ ih
  | move_construct_target _ ih => exact ih
  | move_construct_source _ _ => exact valid_of_no_edges (ascending_nil _) rfl
  | move_assign_target _ _ _ ih => exact ih
  | move_assign_source _ _ _ _ => exact valid_of_no_edges (ascending_nil _) rfl
  | insert_node v _ ih => exact insert_node_valid ih v
  | insert_edge s d w _ ih => exact insert_edge_valid ih s d w
  | replace_node o n _ ih => exact replace_node_valid ih o n
  | merge_replace_node o n hne _ ih => exact merge_replace_node_valid ih o n hne
  | erase_node v _ ih => exact erase_node_valid ih v
  | erase_edge s d w _ h ih => exact erase_edge_valid ih h
  | erase_edge_iter i _ h ih => exact erase_edge_iter_valid ih h
  | erase_edge_range i s _ h ih => exact erase_range_loop_valid _ ih h
  | clear _ _ => exact valid_of_no_edges (ascending_nil _) rfl

/-- In a valid graph the traversal from `begin()` to `end()` is defined and yields a
strictly ascending sequence of edge records without repetition. -/
theorem valid_edges_ascending {g : graph N E} (hv : g.valid) :
    ∃ l, g.edges = some l ∧ ascending value_compare l ∧ l.Nodup := by
  have ho := valid_index_ordered hv
  have hasc := ascending_records ho.1 ho.2.1
  exact ⟨_, edges_of_index_ordered ho, hasc, ascending_nodup value_compare_strict hasc⟩

/-- The ordering claim for the graphs reached without `merge_replace_node(x, x)`: the edge
records obtained from `begin()` to `end()` are strictly ascending by (from, to, weight),
none occurs twice, and I2 and I3 hold. -/
theorem edges_strictly_ascending_without_self_merge {g : graph N E}
    (h : reachable_without_self_merge g) :
    (∃ l, g.edges = some l ∧ ascending value_compare l ∧ l.Nodup) ∧ g.I2 ∧ g.I3 :=
  have hv := reachable_without_self_merge_valid h
  ⟨valid_edges_ascending hv, hv.2.2.1, hv.2.2.2.1⟩

end validity_reachable

section merge_contract
variable {N E : Type} [LinearOrder N] [LinearOrder E]

/-- The contract of `merge_replace_node(old, new)` for two distinct nodes of a valid graph,
read through the public interface: the call returns normally, the graph stays valid,
`nodes()` loses exactly `old`, and the strictly ascending edge sequence holds exactly the
images of the previous edges under renaming `old` to `new` in source and destination
(edges that coincide after renaming are kept once). -/
theorem merge_replace_node_renames_distinct (g : graph N E) (hv : g.valid)
    (old_data new_data : N) (hold : g.is_node old_data = true)
    (hnew : g.is_node new_data = true) (hne : old_data ≠ new_data) :
    (g.merge_replace_node old_data new_data).1 = .ok () ∧
    (g.merge_replace_node old_data new_data).2.valid ∧
    (∀ v, v ∈ (g.merge_replace_node old_data new_data).2.nodes ↔ v ∈ g.nodes ∧ v ≠ old_data) ∧
    (g.merge_replace_node old_data new_data).2.is_node new_data = true ∧
    ∃ l l1, g.edges = some l ∧ (g.merge_replace_node old_data new_data).2.edges = some l1 ∧
      ascending value_compare l1 ∧
      ∀ r, r ∈ l1 ↔ ∃ r0 ∈ l, r = rename_record old_data new_data r0 := by
  obtain ⟨h1, h2, h3, h4⟩ := merge_replace_node_distinct g hv old_data new_data hold hnew hne
  have ho1 := valid_index_ordered h2
  have hnodes : ∀ v, v ∈ (g.merge_replace_node old_data new_data).2.nodes
      ↔ v ∈ g.nodes ∧ v ≠ old_data := by
    intro v
    show v ∈ (g.merge_replace_node old_data new_data).2.nodes_rep_ ↔ _
    rw [h3, mem_set_erase node_compare_strict]
    rfl
  refine ⟨h1, h2, hnodes, ?_, records g.edges_rep_, _,
    edges_of_index_ordered (valid_index_ordered hv), edges_of_index_ordered ho1,
    ascending_records ho1.1 ho1.2.1, h4⟩
  rw [is_node_iff]
  exact (hnodes _).2 ⟨(is_node_iff g _).1 hnew, fun e => hne e.symm⟩

/-- Scenario C of the specification: `merge_replace_node(1, 3)` on nodes 1, 2, 3 with edges
(1,2,5), (1,2,3), (1,3,10), (3,1,99). -/
theorem merge_replace_node_scenario_c :
    (scenario_c.merge_replace_node 1 3).1 = .ok () ∧
    (scenario_c.merge_replace_node 1 3).2.nodes = [2, 3] ∧
    (scenario_c.merge_replace_node 1 3).2.weights 3 2 = .ok [3, 5] ∧
    (scenario_c.merge_replace_node 1 3).2.weights 3 3 = .ok [10, 99] ∧
    (scenario_c.merge_replace_node 1 3).2.edges
      = some [⟨3, 2, 3⟩, ⟨3, 2, 5⟩, ⟨3, 3, 10⟩, ⟨3, 3, 99⟩] := by
  decide

end merge_contract

/-! ## I2 and I3 under every operation -/

section sorted_index
variable {N E : Type} [LinearOrder N] [LinearOrder E]

theorem index_sorted_erase {m : List (N × List (N × E))} (h : index_sorted m) (k : N) :
    index_sorted (map_erase node_compare k m) :=
  ⟨by rw [keys_map_erase]; exact ascending_set_erase k h.1,
    fun p hp => h.2 p ((mem_map_erase node_compare_strict k m p).1 hp).1⟩

theorem index_sorted_emplace {m : List (N × List (N × E))} (h : index_sorted m) (k : N)
    (v : List (N × E)) (hv : ascending edge_compare v) :
    index_sorted (map_emplace node_compare k v m) := by
  refine ⟨?_, ?_⟩
  · rw [keys_map_emplace]; exact ascending_set_emplace node_compare_strict k h.1
  · intro p hp
    rcases (mem_map_emplace node_compare_strict k v h.1 p).1 hp with hp | ⟨rfl, _⟩
    · exact h.2 p hp
    · exact hv

theorem index_sorted_modify {m : List (N × List (N × E))} (h : index_sorted m) (k : N)
    (f : List (N × E) → List (N × E))
    (hf : ∀ b, ascending edge_compare b → ascending edge_compare (f b)) :
    index_sorted (map_modify node_compare k f m) := by
  refine ⟨?_, ?_⟩
  · rw [keys_map_modify]; exact h.1
  · intro p hp
    rcases (mem_map_modify node_compare_strict k f m p).1 hp with ⟨hp, _⟩ | ⟨b, hb, rfl⟩
    · exact h.2 p hp
    · exact hf b (h.2 _ hb)

theorem index_sorted_repoint_all (old_h new_h : N) {m : List (N × List (N × E))}
    (h : index_sorted m) : index_sorted (repoint_all old_h new_h m) := by
  refine ⟨?_, ?_⟩
  · have : (repoint_all old_h new_h m).map Prod.fst = m.map Prod.fst := by
      simp [repoint_all, List.map_map, Function.comp]
    rw [this]; exact h.1
  · intro p hp
    obtain ⟨q, hq, rfl⟩ := mem_repoint_all hp
    exact repoint_loop_ascending _ _ _ (h.2 q hq)

theorem index_sorted_rekey_entry (old_data new_data : N) {m : List (N × List (N × E))}
    (h : index_sorted m) : index_sorted (rekey_entry old_data new_data m) := by
  unfold rekey_entry
  cases hm : map_second node_compare old_data m with
  | none => exact h
  | some b =>
    exact index_sorted_emplace (index_sorted_erase h old_data) new_data b
      (h.2 _ (map_second_mem node_compare_strict hm))

theorem index_sorted_erase_incoming (value : N) {m : List (N × List (N × E))}
    (h : index_sorted m) : index_sorted (erase_incoming value m) := by
  refine ⟨List.Pairwise.sublist (keys_erase_incoming_sublist value m) h.1, ?_⟩
  intro p hp
  obtain ⟨q, hq, rfl, _⟩ := (mem_erase_incoming value m p).1 hp
  exact List.Pairwise.filter _ (h.2 q hq)

theorem index_sorted_erase_at {m : List (N × List (N × E))} (h : index_sorted m) (k : N)
    (e : N × E) : index_sorted (erase_at k e m) := by
  have h1 := index_sorted_modify h k (set_erase edge_compare e)
    (fun b hb => ascending_set_erase _ hb)
  unfold erase_at
  dsimp only
  split_ifs
  · exact index_sorted_erase h1 k
  · exact h1

theorem insert_edge_index_sorted (g : graph N E) (src dst : N) (w : E)
    (h : index_sorted g.edges_rep_) : index_sorted (g.insert_edge src dst w).2.edges_rep_ :=
  insert_edge_sorted g src dst w h.1 h.2

theorem merge_loop_index_sorted (new_data : N) (l : List (N × E)) (g : graph N E)
    (h : index_sorted g.edges_rep_) : index_sorted (merge_loop new_data l g).2.edges_rep_ := by
  induction l generalizing g with
  | nil => exact h
  | cons e rest ih =>
    unfold merge_loop
    split_ifs
    · exact ih g h
    · have h1 := insert_edge_index_sorted g new_data e.1 e.2 h
      split
      · rename_i msg g1 heq
        rw [heq] at h1; exact h1
      · rename_i r g1 heq
        rw [heq] at h1; exact ih g1 h1

theorem merge_replace_node_index_sorted (g : graph N E) (old_data new_data : N)
    (h : index_sorted g.edges_rep_) :
    index_sorted (g.merge_replace_node old_data new_data).2.edges_rep_ := by
  unfold graph.merge_replace_node
  split_ifs with hpre
  · exact h
  · dsimp only
    have h1 := index_sorted_repoint_all old_data new_data h
    cases hm : map_second node_compare old_data (repoint_all old_data new_data g.edges_rep_) with
    | none => exact h1
    | some ode =>
      dsimp only
      generalize hG2 : (if map_contains node_compare new_data _ = true then _ else _ : graph N E)
        = G2
      have h2 : index_sorted G2.edges_rep_ := by
        rw [← hG2]; split_ifs
        · exact h1
        · exact index_sorted_emplace h1 new_data [] (ascending_nil _)
      have h3 := merge_loop_index_sorted new_data ode G2 h2
      rcases hl : merge_loop new_data ode G2 with ⟨res, g3⟩
      rw [hl] at h3
      cases res with
      | error msg => exact h3
      | ok u => exact index_sorted_erase h3 old_data

theorem copy_bucket_loop_index_sorted (curr_src : N) (l : List (N × E)) (g : graph N E)
    (h : index_sorted g.edges_rep_) :
    index_sorted (copy_bucket_loop curr_src l g).2.edges_rep_ := by
  induction l generalizing g with
  | nil => exact h
  | cons e rest ih =>
    unfold copy_bucket_loop
    have h1 := insert_edge_index_sorted g curr_src e.1 e.2 h
    split
    · rename_i msg g1 heq
      rw [heq] at h1; exact h1
    · rename_i r g1 heq
      rw [heq] at h1; exact ih g1 h1

theorem copy_edges_loop_index_sorted (m : List (N × List (N × E))) (g : graph N E)
    (h : index_sorted g.edges_rep_) : index_sorted (copy_edges_loop m g).2.edges_rep_ := by
  induction m generalizing g with
  | nil => exact h
  | cons p rest ih =>
    unfold copy_edges_loop
    have h1 := copy_bucket_loop_index_sorted p.1 p.2 g h
    split
    · rename_i msg g1 heq
      rw [heq] at h1; exact h1
    · rename_i r g1 heq
      rw [heq] at h1; exact ih g1 h1

theorem copy_into_index_sorted (self other : graph N E) (h : index_sorted self.edges_rep_) :
    index_sorted (copy_into self other).2.edges_rep_ := by
  unfold copy_into
  apply copy_edges_loop_index_sorted
  rw [foldl_insert_node_edges]
  exact h

theorem index_sorted_nil : index_sorted ([] : List (N × List (N × E))) :=
  ⟨ascending_nil _, fun _ hp => absurd hp (List.not_mem_nil _)⟩

theorem erase_range_loop_index_sorted (n : Nat) {g g1 : graph N E} {i s i1 : iterator N E}
    (hs : index_sorted g.edges_rep_) (h : erase_range_loop n g i s = some (i1, g1)) :
    index_sorted g1.edges_rep_ := by
  induction n generalizing g i with
  | zero =>
    unfold erase_range_loop at h
    split_ifs at h
    simp only [Option.some.injEq, Prod.mk.injEq] at h
    rw [← h.2]; exact hs
  | succ n ih =>
    unfold erase_range_loop at h
    split_ifs at h
    · simp only [Option.some.injEq, Prod.mk.injEq] at h
      rw [← h.2]; exact hs
    · split at h
      · rename_i iter1 g2 heq
        obtain ⟨k, e, b, _, _, _, _, _, rfl⟩ := erase_edge_iter_eq heq
        exact ih (index_sorted_erase_at hs k e) h
      · exact absurd h (by simp)

/-- Every public operation preserves I2 and I3, whatever its arguments: in every graph
obtained from a constructor by public operations the adjacency index is strictly ascending
by source and every bucket strictly ascending by destination, then weight. -/
theorem reachable_index_sorted {allowed : N → N → Prop} {g : graph N E}
    (h : reachable_by allowed g) : g.I2 ∧ g.I3 := by
  have key : index_sorted g.edges_rep_ := by
    induction h with
    | default => exact index_sorted_nil
    | from_range xs =>
      unfold graph.from_range
      rw [foldl_insert_node_edges]
      exact index_sorted_nil
    | copy_construct _ _ _ => exact copy_into_index_sorted _ _ index_sorted_nil
    | copy_assign _ _ ih _ => exact copy_into_index_sorted _ _ ih
    | move_construct_target _ ih => exact ih
    | move_construct_source _ _ => exact index_sorted_nil
    | move_assign_target _ _ _ ih => exact ih
    | move_assign_source _ _ _ _ => exact index_sorted_nil
    | insert_node v _ ih => rw [insert_node_edges]; exact ih
    | insert_edge s d w _ ih => exact insert_edge_index_sorted _ s d w ih
    | @replace_node g0 o n _ ih =>
      by_cases hc : g0.is_node o = true ∧ g0.is_node n = false
      · rw [replace_node_eq g0 o n hc.1 hc.2]
        exact index_sorted_repoint_all _ _ (index_sorted_rekey_entry _ _ ih)
      · rw [replace_node_unchanged g0 o n hc]; exact ih
    | merge_replace_node o n _ _ ih => exact merge_replace_node_index_sorted _ o n ih
    | @erase_node g0 v _ ih =>
      by_cases hc : g0.is_node v = true
      · rw [erase_node_eq g0 v hc]
        exact index_sorted_erase_incoming _ (index_sorted_erase ih _)
      · rw [erase_node_unchanged g0 v (by simpa using hc)]; exact ih
    | @erase_edge g0 s d w r g1 _ h ih =>
      unfold graph.erase_edge at h
      dsimp only at h
      split_ifs at h
      · simp only [Option.some.injEq, Prod.mk.injEq] at h
        rw [← h.2]; exact ih
      · simp only [Option.some.injEq, Prod.mk.injEq] at h
        rw [← h.2]; exact ih
      · split at h
        · rename_i i1 g2 heq
          simp only [Option.some.injEq, Prod.mk.injEq] at h
          rw [← h.2]
          obtain ⟨k, e, b, _, _, _, _, _, rfl⟩ := erase_edge_iter_eq heq
          exact index_sorted_erase_at ih k e
        · exact absurd h (by simp)
    | erase_edge_iter i _ h ih =>
      obtain ⟨k, e, b, _, _, _, _, _, rfl⟩ := erase_edge_iter_eq h
      exact index_sorted_erase_at ih k e
    | erase_edge_range i s _ h ih => exact erase_range_loop_index_sorted _ ih h
    | clear _ _ => exact index_sorted_nil
  exact ⟨key.2, key.1⟩

end sorted_index

/-! ## insert_node -/

section insert_node_contract
variable {N E : Type} [LinearOrder N] [LinearOrder E]

theorem set_emplace_eq_takeWhile {α : Type} {lt : α → α → Bool} (hlt : strict_total lt) (x : α)
    (l : List α) (hx : x ∉ l) :
    set_emplace lt x l = l.takeWhile (fun y => lt y x) ++ x :: l.dropWhile (fun y => lt y x) := by
  induction l with
  | nil => rfl
  | cons y ys ih =>
    rw [List.mem_cons, not_or] at hx
    by_cases h1 : lt x y = true
    · have h2 : lt y x = false := by
        cases h : lt y x with
        | false => rfl
        | true => have := hlt.trans _ _ _ h1 h; rw [hlt.irrefl] at this; cases this
      simp [set_emplace, h1, h2, List.takeWhile, List.dropWhile]
    · have h2 : lt y x = true := by
        cases h : lt y x with
        | true => rfl
        | false => exact absurd (hlt.total _ _ (by simpa using h1) h) hx.1
      simp only [set_emplace, h1, h2, List.takeWhile, List.dropWhile, if_true, if_false,
        Bool.false_eq_true, List.cons_append, ih hx.2]

theorem edges_congr (g g1 : graph N E) (h : g1.edges_rep_ = g.edges_rep_) : g1.edges = g.edges := by
  unfold graph.edges graph.edge_count graph.begin
  rw [h]
  have : ∀ n it, iterate_from n g1 it = iterate_from n g it := by
    intro n
    induction n with
    | zero => intro it; simp [iterate_from, graph.end_, h]
    | succ n ih => intro it; simp [iterate_from, graph.end_, h, ih]
  exact this _ _

/-- C15: `insert_node(v)` returns true exactly when `v` was not a node; afterwards `v` is a
node, `nodes()` is the previous sequence with `v` put in front of the first larger value
(the previous sequence itself when `v` was present), the adjacency index and the edge
sequence are as before, and a second `insert_node(v)` returns false and leaves the graph,
and so `nodes()` and its length, as it is. -/
theorem insert_node_inserts_once (g : graph N E) (v : N) :
    (g.insert_node v).1 = !g.is_node v
    ∧ (g.insert_node v).2.is_node v = true
    ∧ (g.is_node v = false → (g.insert_node v).2.nodes
        = g.nodes.takeWhile (fun y => decide (y < v)) ++ v :: g.nodes.dropWhile (fun y => decide (y < v)))
    ∧ (g.is_node v = true → (g.insert_node v).2.nodes = g.nodes)
    ∧ (g.nodes_ascending → (g.insert_node v).2.nodes_ascending)
    ∧ (g.insert_node v).2.edges_rep_ = g.edges_rep_
    ∧ (g.insert_node v).2.edges = g.edges
    ∧ (g.insert_node v).2.insert_node v = (false, (g.insert_node v).2)
    ∧ ((g.insert_node v).2.insert_node v).2.nodes.length = (g.insert_node v).2.nodes.length := by
  have hnode : (g.insert_node v).2.is_node v = true := by
    unfold graph.insert_node
    split_ifs with h
    · exact h
    · rw [is_node_iff]
      exact (mem_set_emplace node_compare_strict v v g.nodes_rep_).2 (Or.inl rfl)
  have hsecond : (g.insert_node v).2.insert_node v = (false, (g.insert_node v).2) := by
    generalize (g.insert_node v).2 = g1 at hnode
    unfold graph.insert_node
    rw [if_pos hnode]
  refine ⟨?_, hnode, ?_, ?_, insert_node_ascending v, insert_node_edges g v,
    edges_congr _ _ (insert_node_edges g v), hsecond, by rw [hsecond]⟩
  · unfold graph.insert_node
    split_ifs with h <;> simp [h]
  · intro h
    have hx : v ∉ g.nodes_rep_ := by
      intro hm
      rw [(is_node_iff g v).2 hm] at h
      cases h
    unfold graph.insert_node graph.nodes
    rw [if_neg (by simp [h])]
    exact set_emplace_eq_takeWhile node_compare_strict v _ hx
  · intro h
    unfold graph.insert_node
    rw [if_pos h]
end insert_node_contract

/-! ## The accessors on a valid graph -/

section accessor_contracts
variable {N E : Type} [LinearOrder N] [LinearOrder E]

theorem valid_edges {g : graph N E} (hv : g.valid) : g.edges = some (records g.edges_rep_) :=
  edges_of_index_ordered (valid_index_ordered hv)

/-- The weights kept by the filter of `weights` are strictly ascending and are the weights of
the bucket elements with the wanted destination. -/
theorem weights_of_bucket (b : List (N × E)) (hb : ascending edge_compare b) (dst : N) :
    ((b.filter (fun e => decide (e.1 = dst))).map Prod.snd).Pairwise (fun x y => x < y)
      ∧ ∀ w, w ∈ (b.filter (fun e => decide (e.1 = dst))).map Prod.snd ↔ (dst, w) ∈ b := by
  constructor
  · rw [List.pairwise_map]
    have h1 : (b.filter (fun e => decide (e.1 = dst))).Pairwise
        (fun p q => edge_compare p q = true) := List.Pairwise.sublist (List.filter_sublist _) hb
    refine List.Pairwise.imp_of_mem ?_ h1
    intro p q hp hq hpq
    have hp1 : p.1 = dst := by simpa using (List.mem_filter.1 hp).2
    have hq1 : q.1 = dst := by simpa using (List.mem_filter.1 hq).2
    rcases (edge_compare_iff p q).1 hpq with h | h
    · rw [hp1, hq1] at h; exact absurd h (lt_irrefl _)
    · exact h.2
  · intro w
    simp only [List.mem_map, List.mem_filter, decide_eq_true_eq]
    constructor
    · rintro ⟨p, ⟨hp, hp1⟩, rfl⟩
      have : p = (dst, p.2) := Prod.ext hp1 rfl
      rw [← this]; exact hp
    · intro h
      exact ⟨(dst, w), ⟨h, rfl⟩, rfl⟩

/-- The loop of `connections` on the rest of a bucket ordered by destination: the values
collected so far stay, every destination still to come is added once, in ascending order. -/
theorem connections_loop_spec (rest : List (N × E)) :
    ∀ (prev : Option N) (acc : List N),
      (rest.map Prod.fst).Pairwise (fun x y => x ≤ y) →
      acc.Pairwise (fun x y => x < y) →
      (acc ≠ [] → ∃ p, prev = some p ∧ p ∈ acc ∧ (∀ a ∈ acc, a ≤ p) ∧ ∀ e ∈ rest, p ≤ e.1) →
      (connections_loop rest prev acc).Pairwise (fun x y => x < y)
        ∧ ∀ d, d ∈ connections_loop rest prev acc ↔ d ∈ acc ∨ d ∈ rest.map Prod.fst := by
  induction rest with
  | nil => intro prev acc _ hacc _; simp [connections_loop, hacc]
  | cons e rest ih =>
    intro prev acc hrest hacc hinv
    rw [List.map_cons, List.pairwise_cons] at hrest
    have hnext : ∀ e1 ∈ rest, e.1 ≤ e1.1 := fun e1 he1 =>
      hrest.1 e1.1 (List.mem_map_of_mem _ he1)
    have hadd : acc.isEmpty = true ∨ (acc ≠ [] ∧ some e.1 ≠ prev) →
        (connections_loop rest (some e.1) (acc ++ [e.1])).Pairwise (fun x y => x < y)
          ∧ ∀ d, d ∈ connections_loop rest (some e.1) (acc ++ [e.1])
              ↔ d ∈ acc ∨ d ∈ (e :: rest).map Prod.fst := by
      intro hcase
      have hlt : ∀ a ∈ acc, a < e.1 := by
        rcases hcase with h | ⟨hne, hprev⟩
        · intro a ha
          rw [List.isEmpty_iff] at h
          rw [h] at ha; cases ha
        · obtain ⟨p, hp, _, hmax, hmin⟩ := hinv hne
          have hpe : p ≠ e.1 := fun heq => hprev (by rw [hp, heq])
          have hple : p ≤ e.1 := hmin e (List.mem_cons_self _ _)
          intro a ha
          exact lt_of_le_of_lt (hmax a ha) (lt_of_le_of_ne hple hpe)
      have hacc1 : (acc ++ [e.1]).Pairwise (fun x y => x < y) := by
        rw [List.pairwise_append]
        refine ⟨hacc, List.pairwise_singleton _ _, ?_⟩
        intro a ha b hb
        rw [List.mem_singleton] at hb
        rw [hb]; exact hlt a ha
      have := ih (some e.1) (acc ++ [e.1]) hrest.2 hacc1 (fun _ =>
        ⟨e.1, rfl, by simp, (by
          intro a ha
          rw [List.mem_append, List.mem_singleton] at ha
          rcases ha with ha | ha
          · exact le_of_lt (hlt a ha)
          · rw [ha]), hnext⟩)
      refine ⟨this.1, fun d => ?_⟩
      rw [this.2 d]
      simp only [List.mem_append, List.mem_singleton, List.map_cons, List.mem_cons]
      tauto
    rw [connections_loop]
    split_ifs with h1 h2
    · exact hadd (Or.inl h1)
    · have hne : acc ≠ [] := by
        intro h; rw [h] at h1; exact h1 rfl
      exact hadd (Or.inr ⟨hne, h2⟩)
    · have hne : acc ≠ [] := by
        intro h; rw [h] at h1; exact h1 rfl
      have hprev : prev = some e.1 := by
        by_contra hcon
        exact h2 (fun heq => hcon heq.symm)
      obtain ⟨p, hp, hpacc, hmax, _⟩ := hinv hne
      have hpe : p = e.1 := by
        rw [hp] at hprev; exact Option.some.inj hprev
      have := ih (some e.1) acc hrest.2 hacc (fun _ =>
        ⟨e.1, rfl, hpe ▸ hpacc, hpe ▸ hmax, hnext⟩)
      refine ⟨this.1, fun d => ?_⟩
      rw [this.2 d]
      simp only [List.map_cons, List.mem_cons]
      constructor
      · rintro (h | h)
        · exact Or.inl h
        · exact Or.inr (Or.inr h)
      · rintro (h | h | h)
        · exact Or.inl h
        · exact Or.inl (h ▸ hpe ▸ hpacc)
        · exact Or.inr h

theorem destinations_weakly_ascending (b : List (N × E)) (hb : ascending edge_compare b) :
    (b.map Prod.fst).Pairwise (fun x y => x ≤ y) := by
  rw [List.pairwise_map]
  refine List.Pairwise.imp ?_ hb
  intro p q hpq
  rcases (edge_compare_iff p q).1 hpq with h | h
  · exact le_of_lt h
  · exact le_of_eq h.1

end accessor_contracts

section accessor_claims
variable {N E : Type} [LinearOrder N] [LinearOrder E]

/-- C16: on a valid graph and for nodes `src` and `dst`, `weights(src, dst)` returns a strictly
ascending sequence whose members are exactly the weights `w` for which the record
`(src, dst, w)` is in the edge sequence of the graph; so it is empty when there is none. -/
theorem weights_are_the_edge_weights (g : graph N E) (hv : g.valid) (src dst : N)
    (hs : g.is_node src = true) (hd : g.is_node dst = true) :
    ∃ l ws, g.edges = some l ∧ g.weights src dst = .ok ws
      ∧ ws.Pairwise (fun x y => x < y)
      ∧ (∀ w, w ∈ ws ↔ (⟨src, dst, w⟩ : value_type N E) ∈ l)
      ∧ ((∀ w, (⟨src, dst, w⟩ : value_type N E) ∉ l) → ws = []) := by
  have hmem := fun w => mem_records_iff_bucket hv.2.2.2.1 (⟨src, dst, w⟩ : value_type N E)
  have key : ∃ ws, g.weights src dst = .ok ws ∧ ws.Pairwise (fun x y => x < y)
      ∧ (∀ w, w ∈ ws ↔ (⟨src, dst, w⟩ : value_type N E) ∈ records g.edges_rep_) := by
    unfold graph.weights
    rw [if_neg (by simp [hs, hd])]
    cases hb : map_second node_compare src g.edges_rep_ with
    | none =>
      refine ⟨[], rfl, List.Pairwise.nil, fun w => ?_⟩
      rw [hmem w]; simp [hb]
    | some b =>
      have hasc : ascending edge_compare b := hv.2.2.1 _ (map_second_mem node_compare_strict hb)
      refine ⟨_, rfl, (weights_of_bucket b hasc dst).1, fun w => ?_⟩
      rw [hmem w, (weights_of_bucket b hasc dst).2 w]
      simp [hb]
  obtain ⟨ws, h1, h2, h3⟩ := key
  refine ⟨_, ws, valid_edges hv, h1, h2, h3, fun hnone => ?_⟩
  apply List.eq_nil_iff_forall_not_mem.2
  intro w hw
  exact hnone w ((h3 w).1 hw)

/-- Scenario A: nodes 1, 2, 3 and edges (1,2,5), (1,2,3), (1,3,10) give
`weights(1, 2) = [3, 5]`. -/
theorem weights_are_the_edge_weights_witness :
    scenario_a.weights 1 2 = .ok [3, 5]
      ∧ ∃ l ws, scenario_a.edges = some l ∧ scenario_a.weights 1 2 = .ok ws
        ∧ ws.Pairwise (fun x y => x < y)
        ∧ (∀ w, w ∈ ws ↔ (⟨1, 2, w⟩ : value_type Nat Nat) ∈ l)
        ∧ ((∀ w, (⟨1, 2, w⟩ : value_type Nat Nat) ∉ l) → ws = []) :=
  ⟨by decide, weights_are_the_edge_weights scenario_a (by decide) 1 2 (by decide) (by decide)⟩

/-- C17: on a valid graph and for a node `src`, `connections(src)` returns a strictly ascending
sequence (so no value is listed twice) whose members are exactly the values `d` for which
some record `(src, d, w)` is in the edge sequence of the graph; so it is empty when `src`
has no outgoing edge. -/
theorem connections_are_the_destinations (g : graph N E) (hv : g.valid) (src : N)
    (hs : g.is_node src = true) :
    ∃ l ds, g.edges = some l ∧ g.connections src = .ok ds
      ∧ ds.Pairwise (fun x y => x < y)
      ∧ (∀ d, d ∈ ds ↔ ∃ w, (⟨src, d, w⟩ : value_type N E) ∈ l)
      ∧ ((∀ d w, (⟨src, d, w⟩ : value_type N E) ∉ l) → ds = []) := by
  have hmem := fun d w => mem_records_iff_bucket hv.2.2.2.1 (⟨src, d, w⟩ : value_type N E)
  have key : ∃ ds, g.connections src = .ok ds ∧ ds.Pairwise (fun x y => x < y)
      ∧ (∀ d, d ∈ ds ↔ ∃ w, (⟨src, d, w⟩ : value_type N E) ∈ records g.edges_rep_) := by
    unfold graph.connections
    rw [if_neg (by simp [hs])]
    cases hb : map_second node_compare src g.edges_rep_ with
    | none =>
      refine ⟨[], rfl, List.Pairwise.nil, fun d => ?_⟩
      simp [hmem, hb]
    | some b =>
      have hasc : ascending edge_compare b := hv.2.2.1 _ (map_second_mem node_compare_strict hb)
      have hloop := connections_loop_spec b (b.head?.map Prod.fst) []
        (destinations_weakly_ascending b hasc) List.Pairwise.nil (fun h => absurd rfl h)
      refine ⟨_, rfl, hloop.1, fun d => ?_⟩
      rw [hloop.2 d]
      simp only [List.not_mem_nil, false_or, List.mem_map, hmem, hb, Option.some.injEq,
        exists_eq_left']
      constructor
      · rintro ⟨p, hp, rfl⟩
        exact ⟨p.2, hp⟩
      · rintro ⟨w, hw⟩
        exact ⟨(d, w), hw, rfl⟩
  obtain ⟨ds, h1, h2, h3⟩ := key
  refine ⟨_, ds, valid_edges hv, h1, h2, h3, fun hnone => ?_⟩
  apply List.eq_nil_iff_forall_not_mem.2
  intro d hd
  obtain ⟨w, hw⟩ := (h3 d).1 hd
  exact hnone d w hw

/-- Scenario A: nodes 1, 2, 3 and edges (1,2,5), (1,2,3), (1,3,10) give
`connections(1) = [2, 3]`: node 2 is listed once although two edges lead to it. -/
theorem connections_are_the_destinations_witness :
    scenario_a.connections 1 = .ok [2, 3]
      ∧ ∃ l ds, scenario_a.edges = some l ∧ scenario_a.connections 1 = .ok ds
        ∧ ds.Pairwise (fun x y => x < y)
        ∧ (∀ d, d ∈ ds ↔ ∃ w, (⟨1, d, w⟩ : value_type Nat Nat) ∈ l)
        ∧ ((∀ d w, (⟨1, d, w⟩ : value_type Nat Nat) ∉ l) → ds = []) :=
  ⟨by decide, connections_are_the_destinations scenario_a (by decide) 1 (by decide)⟩

theorem is_connected_iff_bucket (g : graph N E) (hv : g.valid) (src dst : N)
    (hs : g.is_node src = true) (hd : g.is_node dst = true) :
    ∃ b, g.is_connected src dst = .ok b
      ∧ (b = true ↔ ∃ w, (⟨src, dst, w⟩ : value_type N E) ∈ records g.edges_rep_) := by
  have hmem := fun w => mem_records_iff_bucket hv.2.2.2.1 (⟨src, dst, w⟩ : value_type N E)
  unfold graph.is_connected
  rw [if_neg (by simp [hs, hd])]
  cases hb : map_second node_compare src g.edges_rep_ with
  | none =>
    refine ⟨false, rfl, ?_⟩
    simp [hmem, hb]
  | some b =>
    refine ⟨_, rfl, ?_⟩
    simp only [List.any_eq_true, decide_eq_true_eq, hmem, hb, Option.some.injEq,
      exists_eq_left']
    constructor
    · rintro ⟨p, hp, rfl⟩
      exact ⟨p.2, hp⟩
    · rintro ⟨w, hw⟩
      exact ⟨(dst, w), hw, rfl⟩

/-- C18: on a valid graph and for nodes `src` and `dst`, `is_connected(src, dst)` returns
normally, and returns true if and only if some record `(src, dst, w)` is in the edge
sequence of the graph. -/
theorem is_connected_iff_some_edge (g : graph N E) (hv : g.valid) (src dst : N)
    (hs : g.is_node src = true) (hd : g.is_node dst = true) :
    ∃ l b, g.edges = some l ∧ g.is_connected src dst = .ok b
      ∧ (b = true ↔ ∃ w, (⟨src, dst, w⟩ : value_type N E) ∈ l) := by
  obtain ⟨b, h1, h2⟩ := is_connected_iff_bucket g hv src dst hs hd
  exact ⟨_, b, valid_edges hv, h1, h2⟩

/-- Scenario A: node 1 is connected to node 3 and node 3 is not connected to node 1. -/
theorem is_connected_iff_some_edge_witness :
    scenario_a.is_connected 1 3 = .ok true ∧ scenario_a.is_connected 3 1 = .ok false
      ∧ ∃ l b, scenario_a.edges = some l ∧ scenario_a.is_connected 1 3 = .ok b
        ∧ (b = true ↔ ∃ w, (⟨1, 3, w⟩ : value_type Nat Nat) ∈ l) :=
  ⟨by decide, by decide,
    is_connected_iff_some_edge scenario_a (by decide) 1 3 (by decide) (by decide)⟩

/-- C19: on a valid graph the traversal from `begin()` to `end()` is defined, and for every
record `e` it yields `is_connected(e.from, e.to)` returns true, without raising. -/
theorem traversed_edges_are_connected (g : graph N E) (hv : g.valid) :
    ∃ l, g.edges = some l ∧ ∀ e ∈ l, g.is_connected e.from_ e.to_ = .ok true := by
  refine ⟨_, valid_edges hv, fun e he => ?_⟩
  have hn := valid_records_nodes hv e he
  obtain ⟨b, h1, h2⟩ := is_connected_iff_bucket g hv e.from_ e.to_ hn.1 hn.2
  have hb : b = true := h2.2 ⟨e.weight, he⟩
  rw [h1, hb]

/-- Scenario A: each of its three edge records joins connected nodes. -/
theorem traversed_edges_are_connected_witness :
    scenario_a.edges = some [⟨1, 2, 3⟩, ⟨1, 2, 5⟩, ⟨1, 3, 10⟩]
      ∧ ∃ l, scenario_a.edges = some l ∧ ∀ e ∈ l, scenario_a.is_connected e.from_ e.to_ = .ok true :=
  ⟨by decide, traversed_edges_are_connected scenario_a (by decide)⟩

end accessor_claims

/-! ## find -/

section find_contract
variable {N E : Type} [LinearOrder N] [LinearOrder E]

theorem operator_eq_iff (it other : iterator N E) :
    it.operator_eq other = true ↔ it.position = other.position := by
  simp [iterator.operator_eq, iterator.position, Prod.ext_iff]

theorem operator_eq_false_iff (it other : iterator N E) :
    it.operator_eq other = false ↔ it.position ≠ other.position := by
  rw [Ne, ← operator_eq_iff]; simp

theorem end_position (g : graph N E) : g.end_.position = position_of none := rfl

theorem position_of_some_ne_none (r : value_type N E) :
    position_of (some r) ≠ position_of none := by
  simp [position_of]

theorem position_of_some_inj (r r1 : value_type N E)
    (h : position_of (some r) = position_of (some r1)) : r = r1 := by
  cases r; cases r1
  simp only [position_of, Prod.mk.injEq, Option.some.injEq] at h
  obtain ⟨h1, h2, h3⟩ := h
  subst h1; subst h2; subst h3; rfl

/-- On a valid graph `find` returns the iterator at the wanted record when the record is stored,
and `end()` otherwise. -/
theorem find_valid (g : graph N E) (hv : g.valid) (src dst : N) (w : E) :
    g.find src dst w =
      if (⟨src, dst, w⟩ : value_type N E) ∈ records g.edges_rep_
      then iterator.at_pos g.edges_rep_ (some src) (some (dst, w))
      else iterator.at_end g.edges_rep_ := by
  rw [find_eq]
  have hmem := mem_records_iff_bucket hv.2.2.2.1 (⟨src, dst, w⟩ : value_type N E)
  by_cases h : (⟨src, dst, w⟩ : value_type N E) ∈ records g.edges_rep_
  · rw [if_pos h, if_pos ⟨hmem.1 h, (valid_records_nodes hv _ h).2⟩]
  · rw [if_neg h, if_neg (fun hc => h (hmem.2 hc.1))]

theorem find_position (g : graph N E) (hv : g.valid) (src dst : N) (w : E) :
    (g.find src dst w).edges_map_end_ = none
      ∧ (g.find src dst w).position =
        position_of (if (⟨src, dst, w⟩ : value_type N E) ∈ records g.edges_rep_
          then some ⟨src, dst, w⟩ else none) := by
  rw [find_valid g hv]
  split_ifs <;> exact ⟨rfl, rfl⟩

/-- C20: on a valid graph and for all values `src`, `dst` and `w`, nodes or not, `find(src,
dst, w)` is an iterator (it raises nothing): one that differs from `end()` and dereferences to
the record `(src, dst, w)` when that record is in the edge sequence, and one equal to `end()`
otherwise. -/
theorem find_locates_the_edge (g : graph N E) (hv : g.valid) (src dst : N) (w : E) :
    ∃ l, g.edges = some l
      ∧ ((⟨src, dst, w⟩ : value_type N E) ∈ l →
          (g.find src dst w).operator_eq g.end_ = false
            ∧ (g.find src dst w).deref g.edges_rep_ = some ⟨src, dst, w⟩)
      ∧ ((⟨src, dst, w⟩ : value_type N E) ∉ l →
          (g.find src dst w).operator_eq g.end_ = true) := by
  refine ⟨_, valid_edges hv, fun h => ?_, fun h => ?_⟩
  · obtain ⟨b, hb, hmem⟩ := (mem_records_iff_bucket hv.2.2.2.1 _).1 h
    rw [find_valid g hv, if_pos h]
    constructor
    · simp [iterator.operator_eq, iterator.at_pos, graph.end_, iterator.at_end]
    · simp only [iterator.deref, iterator.at_pos] at hb hmem ⊢
      simp [hb, hmem]
  · rw [find_valid g hv, if_neg h]
    simp [iterator.operator_eq, graph.end_]

/-- Scenario A holds the edge (1,2,5) and not the edge (2,1,5); the value 7 is not a node. -/
theorem find_locates_the_edge_witness :
    (scenario_a.find 1 2 5).deref scenario_a.edges_rep_ = some ⟨1, 2, 5⟩
      ∧ scenario_a.find 2 1 5 = scenario_a.end_
      ∧ scenario_a.find 7 7 0 = scenario_a.end_
      ∧ ∃ l, scenario_a.edges = some l
        ∧ ((⟨1, 2, 5⟩ : value_type Nat Nat) ∈ l →
            (scenario_a.find 1 2 5).operator_eq scenario_a.end_ = false
              ∧ (scenario_a.find 1 2 5).deref scenario_a.edges_rep_ = some ⟨1, 2, 5⟩)
        ∧ ((⟨1, 2, 5⟩ : value_type Nat Nat) ∉ l →
            (scenario_a.find 1 2 5).operator_eq scenario_a.end_ = true) :=
  ⟨by decide, by decide, by decide, find_locates_the_edge scenario_a (by decide) 1 2 5⟩

end find_contract

/-! ## erase_node -/

section erase_node_contract
variable {N E : Type} [LinearOrder N] [LinearOrder E]

/-- An ordered adjacency index whose records are those of another one that satisfy a test
stores them in the order of the other one. -/
theorem records_eq_filter {m m1 : List (N × List (N × E))} (h : index_ordered m)
    (h1 : index_ordered m1) (P : value_type N E → Bool)
    (hmem : ∀ r, r ∈ records m1 ↔ r ∈ records m ∧ P r = true) :
    records m1 = (records m).filter P := by
  apply ascending_ext value_compare_strict (ascending_records h1.1 h1.2.1)
  · exact List.Pairwise.sublist (List.filter_sublist _) (ascending_records h.1 h.2.1)
  · intro r
    rw [hmem r, List.mem_filter]

/-- C11: on a valid graph, `erase_node(v)` for a value that is not a node returns false and
leaves the graph as it is; for a node it returns true, and afterwards `nodes()` is the
previous sequence without `v` and the edge sequence is the previous one without the records
whose source or destination is `v`, the others in their previous order. -/
theorem erase_node_removes_node_and_its_edges (g : graph N E) (hv : g.valid) (v : N) :
    ∃ l, g.edges = some l
      ∧ (g.is_node v = false → g.erase_node v = (false, g))
      ∧ (g.is_node v = true →
          (g.erase_node v).1 = true
            ∧ (g.erase_node v).2.nodes = g.nodes.filter (fun x => decide (x ≠ v))
            ∧ (g.erase_node v).2.edges
                = some (l.filter (fun r => decide (r.from_ ≠ v) && decide (r.to_ ≠ v)))) := by
  refine ⟨_, valid_edges hv, erase_node_unchanged g v, fun hnode => ?_⟩
  have hval := erase_node_valid hv v
  have hedges := valid_edges hval
  rw [erase_node_eq g v hnode] at hval hedges ⊢
  refine ⟨rfl, ?_, ?_⟩
  · show set_erase node_compare v g.nodes_rep_ = g.nodes.filter (fun x => decide (x ≠ v))
    unfold set_erase graph.nodes
    apply List.filter_congr
    intro x _
    rw [equiv_under_eq_decide node_compare_strict]
    by_cases hx : x = v
    · simp [hx]
    · have hx2 : ¬ v = x := fun e => hx e.symm
      simp [hx, hx2]
  · rw [hedges]
    congr 1
    apply records_eq_filter (valid_index_ordered hv) (valid_index_ordered hval)
    intro r
    show r ∈ records (erase_incoming v (map_erase node_compare v g.edges_rep_)) ↔ _
    rw [mem_records_erase_incoming, mem_records_erase]
    simp only [Bool.and_eq_true, decide_eq_true_eq, and_assoc]

/-- Scenario C (edges (1,2,3), (1,2,5), (1,3,10), (3,1,99)): erasing node 3 leaves nodes
1, 2 and the edges (1,2,3), (1,2,5); erasing the value 7 changes nothing. -/
theorem erase_node_removes_node_and_its_edges_witness :
    (scenario_c.erase_node 3).2.nodes = [1, 2]
      ∧ (scenario_c.erase_node 3).2.edges = some [⟨1, 2, 3⟩, ⟨1, 2, 5⟩]
      ∧ scenario_c.erase_node 7 = (false, scenario_c)
      ∧ ∃ l, scenario_c.edges = some l
        ∧ (scenario_c.is_node 3 = false → scenario_c.erase_node 3 = (false, scenario_c))
        ∧ (scenario_c.is_node 3 = true →
            (scenario_c.erase_node 3).1 = true
              ∧ (scenario_c.erase_node 3).2.nodes = scenario_c.nodes.filter (fun x => decide (x ≠ 3))
              ∧ (scenario_c.erase_node 3).2.edges
                  = some (l.filter (fun r => decide (r.from_ ≠ 3) && decide (r.to_ ≠ 3)))) :=
  ⟨by decide, by decide, by decide,
    erase_node_removes_node_and_its_edges scenario_c (by decide) 3⟩

end erase_node_contract

/-! ## Positions in the edge sequence -/

section positions
variable {N E : Type} [LinearOrder N] [LinearOrder E]

theorem append_cons_unique {α : Type} (x : α) :
    ∀ (a b c d : List α), (a ++ x :: b).Nodup → a ++ x :: b = c ++ x :: d → a = c ∧ b = d := by
  intro a
  induction a with
  | nil =>
    intro b c d hnd h
    cases c with
    | nil => simpa using h
    | cons y c1 =>
      exfalso
      simp only [List.nil_append, List.cons_append, List.cons.injEq] at h
      rw [List.nil_append, List.nodup_cons] at hnd
      exact hnd.1 (by rw [h.2]; simp)
  | cons z a1 ih =>
    intro b c d hnd h
    rw [List.cons_append, List.nodup_cons] at hnd
    cases c with
    | nil =>
      exfalso
      simp only [List.nil_append, List.cons_append, List.cons.injEq] at h
      exact hnd.1 (by rw [h.1]; simp)
    | cons y c1 =>
      simp only [List.cons_append, List.cons.injEq] at h
      obtain ⟨h1, h2⟩ := ih b c1 d hnd.2 h.2
      exact ⟨by rw [h.1, h1], h2⟩

/-- A record of an ordered adjacency index sits in one bucket; what precedes it in the edge
sequence are the buckets before and the bucket elements before, what follows it the bucket
elements after and the buckets after. -/
theorem records_split {m : List (N × List (N × E))} (ho : index_ordered m)
    {L1 L2 : List (value_type N E)} {r : value_type N E} (hl : records m = L1 ++ r :: L2) :
    ∃ pre bpre bpost post,
      m = pre ++ (r.from_, bpre ++ (r.to_, r.weight) :: bpost) :: post
        ∧ L1 = records pre ++ bpre.map (fun e => (⟨r.from_, e.1, e.2⟩ : value_type N E))
        ∧ L2 = bpost.map (fun e => (⟨r.from_, e.1, e.2⟩ : value_type N E)) ++ records post := by
  have hr : r ∈ records m := by rw [hl]; simp
  obtain ⟨p, hp, he, hk⟩ := (mem_records m r).1 hr
  obtain ⟨pre, post, hsplit⟩ := List.append_of_mem hp
  obtain ⟨bpre, bpost, hb⟩ := List.append_of_mem he
  have hp2 : p = (r.from_, bpre ++ (r.to_, r.weight) :: bpost) := Prod.ext hk.symm hb
  rw [hp2] at hsplit
  refine ⟨pre, bpre, bpost, post, hsplit, ?_⟩
  have hnd : (records m).Nodup :=
    ascending_nodup value_compare_strict (ascending_records ho.1 ho.2.1)
  have hrec : records m
      = (records pre ++ bpre.map (fun e => (⟨r.from_, e.1, e.2⟩ : value_type N E)))
        ++ r :: (bpost.map (fun e => (⟨r.from_, e.1, e.2⟩ : value_type N E)) ++ records post) := by
    rw [hsplit, records_append]
    simp [records]
  rw [hl] at hnd
  rw [hl] at hrec
  exact append_cons_unique r _ _ _ _ hnd hrec

/-- The increment of an iterator that designates a record of an ordered adjacency index
designates the next record of the edge sequence, and is the end position after the last. -/
theorem incr_spec {m : List (N × List (N × E))} (ho : index_ordered m)
    {L1 L2 : List (value_type N E)} {r : value_type N E} (hl : records m = L1 ++ r :: L2)
    (it : iterator N E) (hend : it.edges_map_end_ = none)
    (hpos : it.position = position_of (some r)) :
    ∃ it1, it.incr m = some it1 ∧ it1.edges_map_end_ = none
      ∧ it1.position = position_of L2.head?
      ∧ it1.edges_map_begin_ = it.edges_map_begin_ := by
  obtain ⟨pre, bpre, bpost, post, hsplit, _, hL2⟩ := records_split ho hl
  have hk : it.curr_map_iter_ = some r.from_ := congrArg Prod.fst hpos
  have he : it.curr_set_iter_ = some (r.to_, r.weight) := congrArg Prod.snd hpos
  have hkeys := ascending_nodup node_compare_strict ho.1
  have hkeys2 := hkeys
  rw [hsplit, List.map_append, List.map_cons, List.nodup_append] at hkeys2
  have hkpre : r.from_ ∉ pre.map Prod.fst := fun hmem =>
    hkeys2.2.2 hmem (List.mem_cons_self _ _)
  have hb : (bpre ++ (r.to_, r.weight) :: bpost).Nodup :=
    ascending_nodup edge_compare_strict
      (ho.2.1 (r.from_, bpre ++ (r.to_, r.weight) :: bpost) (by rw [hsplit]; simp))
  have hb2 := hb
  rw [List.nodup_append] at hb2
  have hepre : (r.to_, r.weight) ∉ bpre := fun hmem => hb2.2.2 hmem (List.mem_cons_self _ _)
  have hms : map_second node_compare r.from_ m = some (bpre ++ (r.to_, r.weight) :: bpost) := by
    rw [hsplit]; exact map_second_append node_compare_strict _ _ _ _ hkpre
  have hnext_e : iter_next (r.to_, r.weight) (bpre ++ (r.to_, r.weight) :: bpost) = bpost.head? :=
    iter_next_append _ bpre bpost hepre
  have hnext_k : iter_next r.from_ (m.map Prod.fst) = (post.map Prod.fst).head? := by
    rw [hsplit, List.map_append, List.map_cons]
    exact iter_next_append r.from_ _ _ hkpre
  cases bpost with
  | cons e1 bpost1 =>
    refine ⟨{ it with curr_set_iter_ := some e1 }, ?_, hend, ?_, rfl⟩
    · simp [iterator.incr, hk, he, hms, hnext_e]
    · rw [hL2]
      simp [iterator.position, position_of, hk]
  | nil =>
    cases post with
    | nil =>
      refine ⟨{ it with curr_map_iter_ := none, curr_set_iter_ := none }, ?_, hend, ?_, rfl⟩
      · simp [iterator.incr, hk, he, hms, hnext_e, hnext_k, hend]
      · rw [hL2]
        simp [iterator.position, position_of, records]
    | cons q post1 =>
      obtain ⟨k1, b1⟩ := q
      have hb1 : b1 ≠ [] := ho.2.2 (k1, b1) (by rw [hsplit]; simp)
      obtain ⟨e1, b2, rfl⟩ := List.exists_cons_of_ne_nil hb1
      have hk1 : k1 ∉ (pre ++ [(r.from_, bpre ++ [(r.to_, r.weight)])]).map Prod.fst := by
        intro hmem
        rw [List.map_append, List.mem_append] at hmem
        rcases hmem with hmem | hmem
        · exact hkeys2.2.2 hmem (by simp)
        · have hkk : k1 = r.from_ := by simpa using hmem
          have hnd := hkeys2.2.1
          rw [List.map_cons, List.nodup_cons] at hnd
          exact hnd.1 (by simp [hkk])
      have hms1 : map_second node_compare k1 m = some (e1 :: b2) := by
        have : m = (pre ++ [(r.from_, bpre ++ [(r.to_, r.weight)])]) ++ (k1, e1 :: b2) :: post1 := by
          rw [hsplit]; simp
        rw [this]
        exact map_second_append node_compare_strict _ _ _ _ hk1
      refine ⟨{ it with curr_map_iter_ := some k1, curr_set_iter_ := some e1 }, ?_, hend, ?_, rfl⟩
      · simp [iterator.incr, hk, he, hms, hnext_e, hnext_k, hend, hms1]
      · rw [hL2]
        simp [iterator.position, position_of, records]

/-- Erasing the element of a record from an ordered adjacency index takes the record out of
the edge sequence and keeps the others in their order. -/
theorem records_erase_at {m : List (N × List (N × E))} (ho : index_ordered m)
    {L1 L2 : List (value_type N E)} {r : value_type N E} (hl : records m = L1 ++ r :: L2) :
    records (erase_at r.from_ (r.to_, r.weight) m) = L1 ++ L2 := by
  have hasc := ascending_records ho.1 ho.2.1
  have hnd : (records m).Nodup := ascending_nodup value_compare_strict hasc
  have ho1 := index_ordered_erase_at ho r.from_ (r.to_, r.weight)
  rw [hl] at hasc hnd
  apply ascending_ext value_compare_strict (ascending_records ho1.1 ho1.2.1)
  · exact List.Pairwise.sublist
      (List.Sublist.append_left (List.sublist_cons_self r L2) L1) hasc
  · intro x
    rw [mem_records_erase_at ho.1, hl]
    show (x ∈ L1 ++ r :: L2 ∧ x ≠ r) ↔ _
    have hr1 : r ∉ L1 := fun hm =>
      (List.nodup_append.1 hnd).2.2 hm (List.mem_cons_self _ _)
    have hr2 : r ∉ L2 := (List.nodup_cons.1 (List.nodup_append.1 hnd).2.1).1
    simp only [List.mem_append, List.mem_cons]
    constructor
    · rintro ⟨h | h | h, hne⟩
      · exact Or.inl h
      · exact absurd h hne
      · exact Or.inr h
    · rintro (h | h)
      · exact ⟨Or.inl h, fun e => hr1 (e ▸ h)⟩
      · exact ⟨Or.inr (Or.inr h), fun e => hr2 (e ▸ h)⟩

end positions

/-! ## erase_edge -/

section erase_edge_contracts
variable {N E : Type} [LinearOrder N] [LinearOrder E]

theorem deref_eq_some {m : List (N × List (N × E))} {it : iterator N E} {e : value_type N E}
    (h : it.deref m = some e) : it.position = position_of (some e) ∧ e ∈ records m := by
  unfold iterator.deref at h
  cases hk : it.curr_map_iter_ with
  | none => simp [hk] at h
  | some k =>
    cases he : it.curr_set_iter_ with
    | none => simp [hk, he] at h
    | some x =>
      cases hb : map_second node_compare k m with
      | none => simp [hk, he, hb] at h
      | some b =>
        simp only [hk, he, hb] at h
        split_ifs at h with hx
        have hev : e = ⟨k, x.1, x.2⟩ := (Option.some.inj h).symm
        subst hev
        refine ⟨by simp [iterator.position, position_of, hk, he], ?_⟩
        rw [mem_records]
        exact ⟨(k, b), map_second_mem node_compare_strict hb, hx, rfl⟩

theorem deref_of_position {m : List (N × List (N × E))}
    (h3 : ascending node_compare (m.map Prod.fst)) {it : iterator N E} {e : value_type N E}
    (hpos : it.position = position_of (some e)) (he : e ∈ records m) :
    it.deref m = some e := by
  have hk : it.curr_map_iter_ = some e.from_ := congrArg Prod.fst hpos
  have hs : it.curr_set_iter_ = some (e.to_, e.weight) := congrArg Prod.snd hpos
  obtain ⟨b, hb, hmem⟩ := (mem_records_iff_bucket h3 e).1 he
  simp [iterator.deref, hk, hs, hb, hmem]

/-- The call `erase_edge(it)` for an iterator that designates a record of a valid graph: the
record leaves the edge sequence, and the returned iterator is at the head of what followed
it. -/
theorem erase_edge_iter_spec {g : graph N E} (hv : g.valid) {L1 L2 : List (value_type N E)}
    {r : value_type N E} (hl : records g.edges_rep_ = L1 ++ r :: L2) (it : iterator N E)
    (hend : it.edges_map_end_ = none) (hpos : it.position = position_of (some r)) :
    ∃ it1 g1, g.erase_edge_iter it = some (it1, g1)
      ∧ g1 = ⟨g.node_u_ptrs_, erase_at r.from_ (r.to_, r.weight) g.edges_rep_, g.nodes_rep_⟩
      ∧ g1.valid ∧ records g1.edges_rep_ = L1 ++ L2
      ∧ it1.edges_map_end_ = none ∧ it1.position = position_of L2.head? := by
  have ho := valid_index_ordered hv
  obtain ⟨it1, hincr, hend1, hpos1, _⟩ := incr_spec ho hl it hend hpos
  have hk : it.curr_map_iter_ = some r.from_ := congrArg Prod.fst hpos
  have he : it.curr_set_iter_ = some (r.to_, r.weight) := congrArg Prod.snd hpos
  have herase : g.erase_edge_iter it = some (it1,
      ⟨g.node_u_ptrs_, erase_at r.from_ (r.to_, r.weight) g.edges_rep_, g.nodes_rep_⟩) := by
    simp [graph.erase_edge_iter, hk, he, hincr]
  exact ⟨it1, _, herase, rfl, erase_edge_iter_valid hv herase, records_erase_at ho hl, hend1,
    hpos1⟩

/-- C13: on a valid graph, `erase_edge(it)` for an iterator of the graph that designates the
record `e` is defined and takes `e` out of the edge sequence; the iterator it returns
compares equal to the iterator of the resulting graph at the record that followed `e`
(and dereferences to that record there), and to `end()` of the resulting graph when `e` was
the last record.  Nothing is assumed about the bucket of `e`, so this covers the case that
`e` was its only edge. -/
theorem erase_edge_iter_returns_next (g : graph N E) (hv : g.valid) (it : iterator N E)
    (e : value_type N E) (hend : it.edges_map_end_ = g.end_.edges_map_end_)
    (hit : it.deref g.edges_rep_ = some e) :
    ∃ l1 l2 it1 g1, g.edges = some (l1 ++ e :: l2)
      ∧ g.erase_edge_iter it = some (it1, g1)
      ∧ g1.edges = some (l1 ++ l2)
      ∧ (∀ e1 rest, l2 = e1 :: rest →
          it1.operator_eq (g1.find e1.from_ e1.to_ e1.weight) = true
            ∧ it1.deref g1.edges_rep_ = some e1)
      ∧ (l2 = [] → it1.operator_eq g1.end_ = true) := by
  obtain ⟨hpos, hmem⟩ := deref_eq_some hit
  obtain ⟨l1, l2, hl⟩ := List.append_of_mem hmem
  obtain ⟨it1, g1, herase, _, hv1, hl1, _, hpos1⟩ := erase_edge_iter_spec hv hl it hend hpos
  refine ⟨l1, l2, it1, g1, by rw [valid_edges hv, hl], herase, by rw [valid_edges hv1, hl1],
    ?_, ?_⟩
  · intro e1 rest h2
    have hin : e1 ∈ records g1.edges_rep_ := by rw [hl1, h2]; simp
    rw [h2] at hpos1
    constructor
    · rw [operator_eq_iff, hpos1, (find_position g1 hv1 e1.from_ e1.to_ e1.weight).2]
      have heta : (⟨e1.from_, e1.to_, e1.weight⟩ : value_type N E) = e1 := rfl
      rw [heta, if_pos hin]
      rfl
    · exact deref_of_position hv1.2.2.2.1 hpos1 hin
  · intro h2
    rw [h2] at hpos1
    rw [operator_eq_iff, hpos1]
    rfl

/-- The graph `three_cycle` has edges (1,2,4), (2,3,8), (3,1,6), one in each bucket.  Erasing
at the edge (1,2,4), the only edge of its bucket, returns the iterator at (2,3,8); erasing at
the last edge (3,1,6) returns `end()`. -/
theorem erase_edge_iter_returns_next_witness :
    (three_cycle.erase_edge_iter (three_cycle.find 3 1 6)).map
        (fun x => x.1.operator_eq x.2.end_) = some true
      ∧ (three_cycle.erase_edge_iter (three_cycle.find 1 2 4)).map
          (fun x => (x.1.operator_eq (x.2.find 2 3 8), x.2.edges))
          = some (true, some [⟨2, 3, 8⟩, ⟨3, 1, 6⟩])
      ∧ ∃ l1 l2 it1 g1, three_cycle.edges = some (l1 ++ ⟨1, 2, 4⟩ :: l2)
        ∧ three_cycle.erase_edge_iter (three_cycle.find 1 2 4) = some (it1, g1)
        ∧ g1.edges = some (l1 ++ l2)
        ∧ (∀ e1 rest, l2 = e1 :: rest →
            it1.operator_eq (g1.find e1.from_ e1.to_ e1.weight) = true
              ∧ it1.deref g1.edges_rep_ = some e1)
        ∧ (l2 = [] → it1.operator_eq g1.end_ = true) :=
  ⟨by decide, by decide, erase_edge_iter_returns_next three_cycle (by decide) (three_cycle.find 1 2 4)
    ⟨1, 2, 4⟩ (by decide) (by decide)⟩

end erase_edge_contracts

section erase_edge_by_value
variable {N E : Type} [LinearOrder N] [LinearOrder E]

/-- C12: on a valid graph and for nodes `src` and `dst`, `erase_edge(src, dst, w)` is defined
and returns normally, with true exactly when the record `(src, dst, w)` was in the edge
sequence; afterwards `find(src, dst, w)` equals `end()`, the edge sequence is the previous
one without that record (the others in their order), and `nodes()` is as before; when false
is returned the graph is as before.  When the record was in the edge sequence,
`erase_edge(find(src, dst, w))` is defined and leaves the same graph. -/
theorem erase_edge_removes_the_edge (g : graph N E) (hv : g.valid) (src dst : N) (w : E)
    (hs : g.is_node src = true) (hd : g.is_node dst = true) :
    ∃ l b g1, g.edges = some l
      ∧ g.erase_edge src dst w = some (.ok b, g1)
      ∧ (b = true ↔ (⟨src, dst, w⟩ : value_type N E) ∈ l)
      ∧ (g1.find src dst w).operator_eq g1.end_ = true
      ∧ g1.edges = some (l.filter (fun r => decide (r ≠ ⟨src, dst, w⟩)))
      ∧ g1.nodes = g.nodes
      ∧ (b = false → g1 = g)
      ∧ ((⟨src, dst, w⟩ : value_type N E) ∈ l →
          ∃ it1, g.erase_edge_iter (g.find src dst w) = some (it1, g1)) := by
  have hfind := find_position g hv src dst w
  by_cases hmem : (⟨src, dst, w⟩ : value_type N E) ∈ records g.edges_rep_
  · rw [if_pos hmem] at hfind
    obtain ⟨l1, l2, hl⟩ := List.append_of_mem hmem
    obtain ⟨it1, g1, herase, hg1, hv1, hl1, _, _⟩ :=
      erase_edge_iter_spec hv hl (g.find src dst w) hfind.1 hfind.2
    have hno : (⟨src, dst, w⟩ : value_type N E) ∉ records g1.edges_rep_ := by
      rw [hg1]
      intro hc
      exact ((mem_records_erase_at hv.2.2.2.1 src (dst, w) _).1 hc).2 rfl
    refine ⟨_, true, g1, valid_edges hv, ?_, by simp [hmem], ?_, ?_, ?_, by simp,
      fun _ => ⟨it1, herase⟩⟩
    · unfold graph.erase_edge
      have hne : (g.find src dst w).operator_eq g.end_ = false := by
        rw [operator_eq_false_iff, hfind.2, end_position]
        exact position_of_some_ne_none _
      simp [hs, hd, hne, herase]
    · rw [operator_eq_iff, (find_position g1 hv1 src dst w).2, if_neg hno]
      rfl
    · rw [valid_edges hv1]
      congr 1
      apply records_eq_filter (valid_index_ordered hv) (valid_index_ordered hv1)
      intro r
      rw [hg1]
      show r ∈ records (erase_at src (dst, w) g.edges_rep_) ↔ _
      rw [mem_records_erase_at hv.2.2.2.1]
      simp
    · rw [hg1]; rfl
  · rw [if_neg hmem] at hfind
    have heq : (g.find src dst w).operator_eq g.end_ = true := by
      rw [operator_eq_iff, hfind.2]; rfl
    refine ⟨_, false, g, valid_edges hv, ?_, by simp [hmem], heq, ?_, rfl, fun _ => rfl,
      fun h => absurd h hmem⟩
    · unfold graph.erase_edge
      simp [hs, hd, heq]
    · rw [valid_edges hv]
      congr 1
      symm
      rw [List.filter_eq_self]
      intro r hr
      have : r ≠ ⟨src, dst, w⟩ := fun e => hmem (e ▸ hr)
      simpa using this

/-- Scenario A: erasing the edge (1,2,5) returns true and leaves (1,2,3), (1,3,10); erasing
the absent edge (2,1,5) returns false and changes nothing. -/
theorem erase_edge_removes_the_edge_witness :
    (scenario_a.erase_edge 1 2 5).map (fun x => (x.1, x.2.edges))
        = some (.ok true, some [⟨1, 2, 3⟩, ⟨1, 3, 10⟩])
      ∧ scenario_a.erase_edge 2 1 5 = some (.ok false, scenario_a)
      ∧ ∃ l b g1, scenario_a.edges = some l
        ∧ scenario_a.erase_edge 1 2 5 = some (.ok b, g1)
        ∧ (b = true ↔ (⟨1, 2, 5⟩ : value_type Nat Nat) ∈ l)
        ∧ (g1.find 1 2 5).operator_eq g1.end_ = true
        ∧ g1.edges = some (l.filter (fun r => decide (r ≠ ⟨1, 2, 5⟩)))
        ∧ g1.nodes = scenario_a.nodes
        ∧ (b = false → g1 = scenario_a)
        ∧ ((⟨1, 2, 5⟩ : value_type Nat Nat) ∈ l →
            ∃ it1, scenario_a.erase_edge_iter (scenario_a.find 1 2 5) = some (it1, g1)) :=
  ⟨by decide, by decide,
    erase_edge_removes_the_edge scenario_a (by decide) 1 2 5 (by decide) (by decide)⟩

end erase_edge_by_value

/-! ## erase_edge on a range -/

section erase_edge_range_contract
variable {N E : Type} [LinearOrder N] [LinearOrder E]

/-- The loop of `erase_edge(iterator, iterator)` from the head of a stretch `mid` of the edge
sequence up to the position that follows the stretch: the stretch is erased, nothing else
is, and the loop stops at the position of `last`. -/
theorem erase_range_loop_spec (L1 L2 : List (value_type N E)) (last : iterator N E)
    (hlast : last.position = position_of L2.head?) (mid : List (value_type N E)) :
    ∀ (g : graph N E) (n : Nat) (iter : iterator N E), g.valid →
      records g.edges_rep_ = L1 ++ (mid ++ L2) → iter.edges_map_end_ = none →
      iter.position = position_of (mid ++ L2).head? → mid.length ≤ n →
      ∃ it1 g1, erase_range_loop n g iter last = some (it1, g1) ∧ g1.valid
        ∧ records g1.edges_rep_ = L1 ++ L2 ∧ g1.nodes_rep_ = g.nodes_rep_
        ∧ it1.position = last.position := by
  induction mid with
  | nil =>
    intro g n iter hv hl _ hpos _
    rw [List.nil_append] at hl hpos
    have heq : iter.operator_eq last = true := by
      rw [operator_eq_iff, hpos, hlast]
    refine ⟨iter, g, ?_, hv, hl, rfl, by rw [hpos, hlast]⟩
    cases n <;> simp [erase_range_loop, heq]
  | cons r mid1 ih =>
    intro g n iter hv hl hend hpos hn
    rw [List.cons_append] at hl hpos
    rw [List.head?_cons] at hpos
    cases n with
    | zero => simp at hn
    | succ k =>
      have hnd : (records g.edges_rep_).Nodup :=
        ascending_nodup value_compare_strict
          (ascending_records hv.2.2.2.1 hv.2.2.1)
      rw [hl] at hnd
      have hr2 : r ∉ L2 := by
        have := (List.nodup_cons.1 (List.nodup_append.1 hnd).2.1).1
        exact fun hm => this (List.mem_append_right _ hm)
      have hne : iter.operator_eq last = false := by
        rw [operator_eq_false_iff, hpos, hlast]
        cases L2 with
        | nil => exact position_of_some_ne_none r
        | cons r2 L3 =>
          intro hc
          rw [List.head?_cons] at hc
          exact hr2 (by rw [position_of_some_inj r r2 hc]; simp)
      obtain ⟨it1, g1, herase, hg1, hv1, hl1, hend1, hpos1⟩ :=
        erase_edge_iter_spec hv hl iter hend hpos
      obtain ⟨it2, g2, hloop, hv2, hl2, hn2, hpos2⟩ :=
        ih g1 k it1 hv1 hl1 hend1 hpos1 (by simpa using hn)
      refine ⟨it2, g2, ?_, hv2, hl2, ?_, hpos2⟩
      · rw [erase_range_loop]
        simp [hne, herase, hloop]
      · rw [hn2, hg1]

/-- An iterator at index `i` of the edge sequence that can be incremented `n` times is then
at index `i + n`. -/
theorem advance_spec {m : List (N × List (N × E))} (ho : index_ordered m) (n : Nat) :
    ∀ (i : Nat) (it it1 : iterator N E), it.edges_map_end_ = none →
      it.position = position_of (records m)[i]? → it.advance m n = some it1 →
      it1.position = position_of (records m)[i + n]? := by
  induction n with
  | zero =>
    intro i it it1 _ hpos hadv
    simp only [iterator.advance, Option.some.injEq] at hadv
    rw [← hadv]; exact hpos
  | succ n ih =>
    intro i it it1 hend hpos hadv
    rw [iterator.advance] at hadv
    cases hincr : it.incr m with
    | none => rw [hincr] at hadv; cases hadv
    | some it2 =>
      rw [hincr] at hadv
      simp only at hadv
      by_cases hi : i < (records m).length
      · have hl : records m = (records m).take i ++ (records m)[i] :: (records m).drop (i + 1) := by
          rw [← List.drop_eq_getElem_cons hi, List.take_append_drop]
        rw [List.getElem?_eq_getElem hi] at hpos
        obtain ⟨it3, hincr3, hend3, hpos3, _⟩ := incr_spec ho hl it hend hpos
        rw [hincr] at hincr3
        have h23 : it2 = it3 := Option.some.inj hincr3
        rw [List.head?_drop] at hpos3
        have := ih (i + 1) it2 it1 (h23 ▸ hend3) (h23 ▸ hpos3) hadv
        rw [this]
        congr 2
        omega
      · exfalso
        rw [List.getElem?_eq_none (by omega)] at hpos
        have hk : it.curr_map_iter_ = none := congrArg Prod.fst hpos
        simp [iterator.incr, hk] at hincr

/-- C14: on a valid graph with edge sequence `l`, let `first` be an iterator of the graph at
index `i` of `l` (at `end()` when `i` is not an index) and let `last` compare equal to the
iterator reached from `first` by `n` increments.  Then `erase_edge(first, last)` is defined,
the edge sequence afterwards is `l` without the records at the indices `i, ..., i + n - 1`,
`nodes()` is as before, and the returned iterator compares equal to `last`, hence to `end()`
of the resulting graph when `last` is `end()`. -/
theorem erase_edge_range_removes_the_range (g : graph N E) (hv : g.valid)
    (l : List (value_type N E)) (hl : g.edges = some l) (first last : iterator N E) (i n : Nat)
    (hend : first.edges_map_end_ = g.end_.edges_map_end_)
    (hfirst : first.position = position_of l[i]?)
    (hlast : ∃ it, first.advance g.edges_rep_ n = some it ∧ it.operator_eq last = true) :
    ∃ it1 g1, g.erase_edge_range first last = some (it1, g1)
      ∧ g1.edges = some (l.take i ++ l.drop (i + n))
      ∧ g1.nodes = g.nodes
      ∧ it1.operator_eq last = true
      ∧ (last.operator_eq g.end_ = true → it1.operator_eq g1.end_ = true) := by
  have hrec : l = records g.edges_rep_ := by
    rw [valid_edges hv] at hl
    exact (Option.some.inj hl).symm
  subst hrec
  obtain ⟨it, hadv, hitlast⟩ := hlast
  have ho := valid_index_ordered hv
  have hposlast : last.position = position_of ((records g.edges_rep_).drop (i + n)).head? := by
    rw [List.head?_drop, ← advance_spec ho n i first it hend hfirst hadv]
    exact ((operator_eq_iff it last).1 hitlast).symm
  have hmid : ((records g.edges_rep_).drop i).take n ++ (records g.edges_rep_).drop (i + n)
      = (records g.edges_rep_).drop i := by
    rw [← List.drop_drop n i, List.take_append_drop]
  have hsplit : records g.edges_rep_ = (records g.edges_rep_).take i
      ++ (((records g.edges_rep_).drop i).take n ++ (records g.edges_rep_).drop (i + n)) := by
    rw [hmid, List.take_append_drop]
  have hlen : (((records g.edges_rep_).drop i).take n).length ≤ g.edge_count := by
    rw [edge_count_eq, List.length_take, List.length_drop]
    omega
  obtain ⟨it1, g1, hloop, hv1, hl1, hn1, hpos1⟩ :=
    erase_range_loop_spec _ _ last hposlast _ g g.edge_count first hv hsplit hend
      (by rw [hmid, List.head?_drop]; exact hfirst) hlen
  refine ⟨it1, g1, hloop, by rw [valid_edges hv1, hl1], hn1,
    (operator_eq_iff _ _).2 hpos1, fun h => ?_⟩
  rw [operator_eq_iff] at h ⊢
  rw [hpos1, h]
  rfl

/-- Scenario D: the bucket from 3 to 2 holds the weights 5, 6, 16, 122, 1220;
`erase_edge(find(3,2,6), find(3,2,122))` leaves the weights 5, 122, 1220, and erasing up to
`end()` leaves the weight 5. -/
theorem erase_edge_range_removes_the_range_witness :
    (scenario_d.erase_edge_range (scenario_d.find 3 2 6) (scenario_d.find 3 2 122)).map
        (fun x => x.2.edges) = some (some [⟨3, 2, 5⟩, ⟨3, 2, 122⟩, ⟨3, 2, 1220⟩])
      ∧ (scenario_d.erase_edge_range (scenario_d.find 3 2 6) scenario_d.end_).map
        (fun x => (x.1.operator_eq x.2.end_, x.2.edges)) = some (true, some [⟨3, 2, 5⟩])
      ∧ ∃ it1 g1,
        scenario_d.erase_edge_range (scenario_d.find 3 2 6) (scenario_d.find 3 2 122)
            = some (it1, g1)
          ∧ g1.edges = some
              (([⟨3, 2, 5⟩, ⟨3, 2, 6⟩, ⟨3, 2, 16⟩, ⟨3, 2, 122⟩, ⟨3, 2, 1220⟩] :
                  List (value_type Nat Nat)).take 1
                ++ ([⟨3, 2, 5⟩, ⟨3, 2, 6⟩, ⟨3, 2, 16⟩, ⟨3, 2, 122⟩, ⟨3, 2, 1220⟩] :
                  List (value_type Nat Nat)).drop (1 + 2))
          ∧ g1.nodes = scenario_d.nodes
          ∧ it1.operator_eq (scenario_d.find 3 2 122) = true
          ∧ ((scenario_d.find 3 2 122).operator_eq scenario_d.end_ = true →
              it1.operator_eq g1.end_ = true) :=
  ⟨by decide, by decide,
    erase_edge_range_removes_the_range scenario_d (by decide)
      [⟨3, 2, 5⟩, ⟨3, 2, 6⟩, ⟨3, 2, 16⟩, ⟨3, 2, 122⟩, ⟨3, 2, 1220⟩] (by decide)
      (scenario_d.find 3 2 6) (scenario_d.find 3 2 122) 1 2 (by decide) (by decide)
      ⟨scenario_d.find 3 2 122, by decide⟩⟩

end erase_edge_range_contract

/-! ## clear, move and the node-sequence constructors -/

section clear_move_construct
variable {N E : Type} [LinearOrder N] [LinearOrder E]

theorem edges_of_no_buckets (g : graph N E) (h : g.edges_rep_ = []) :
    g.begin.operator_eq g.end_ = true ∧ g.edges = some [] := by
  unfold graph.edges graph.edge_count graph.begin graph.end_
  rw [h]
  exact ⟨rfl, rfl⟩

/-- C28: after `clear()` a graph has no nodes and no edges: `empty()` is true, `nodes()` is the
empty sequence, `is_node(v)` is false for every `v`, `begin() == end()`, and the traversal
yields no record. -/
theorem clear_leaves_nothing (g : graph N E) :
    g.clear.empty = true ∧ g.clear.nodes = [] ∧ (∀ v, g.clear.is_node v = false)
      ∧ g.clear.begin.operator_eq g.clear.end_ = true ∧ g.clear.edges = some [] :=
  ⟨rfl, rfl, fun _ => rfl, rfl, rfl⟩

/-- C25: move construction from `g`, and move assignment of `g` into a distinct graph `t`,
give a target with the node sequence, the adjacency index and so the edge sequence `g` had,
and leave `g` empty: `empty()` is true, `nodes()` is empty and `begin() == end()`. -/
theorem move_transfers_and_empties (g t : graph N E) :
    ((graph.move_construct g).1.nodes = g.nodes
        ∧ (graph.move_construct g).1.edges_rep_ = g.edges_rep_
        ∧ (graph.move_construct g).1.edges = g.edges
        ∧ (graph.move_construct g).2.empty = true
        ∧ (graph.move_construct g).2.nodes = []
        ∧ (graph.move_construct g).2.begin.operator_eq (graph.move_construct g).2.end_ = true)
      ∧ ((t.move_assign g).1.nodes = g.nodes
        ∧ (t.move_assign g).1.edges_rep_ = g.edges_rep_
        ∧ (t.move_assign g).1.edges = g.edges
        ∧ (t.move_assign g).2.empty = true
        ∧ (t.move_assign g).2.nodes = []
        ∧ (t.move_assign g).2.begin.operator_eq (t.move_assign g).2.end_ = true) :=
  ⟨⟨rfl, rfl, edges_congr _ _ rfl, rfl, rfl, rfl⟩, ⟨rfl, rfl, edges_congr _ _ rfl, rfl, rfl, rfl⟩⟩

theorem foldl_insert_node_mem (xs : List N) (g : graph N E) (v : N) :
    v ∈ (xs.foldl (fun g v => (g.insert_node v).2) g).nodes_rep_ ↔ v ∈ g.nodes_rep_ ∨ v ∈ xs := by
  induction xs generalizing g with
  | nil => simp
  | cons x xs ih =>
    rw [List.foldl_cons, ih, insert_node_nodes]
    split_ifs with h
    · have hx : x ∈ g.nodes_rep_ := (is_node_iff g x).1 h
      simp only [List.mem_cons]
      constructor
      · rintro (h1 | h1)
        · exact Or.inl h1
        · exact Or.inr (Or.inr h1)
      · rintro (h1 | h1 | h1)
        · exact Or.inl h1
        · exact Or.inl (h1 ▸ hx)
        · exact Or.inr h1
    · rw [mem_set_emplace node_compare_strict]
      simp only [List.mem_cons]
      tauto

/-- C26: the graph constructed from a sequence `xs` of node values (an initializer list or an
iterator range) has as `nodes()` the strictly ascending sequence of the values of `xs`, that
is `xs` without duplicates sorted ascending, and has no edges (`begin() == end()`, the
traversal yields no record); for the empty sequence `empty()` is true. -/
theorem from_range_nodes_sorted_dedup (xs : List N) :
    (graph.from_range xs : graph N E).nodes.Pairwise (fun a b => a < b)
      ∧ (∀ v, v ∈ (graph.from_range xs : graph N E).nodes ↔ v ∈ xs)
      ∧ (graph.from_range xs : graph N E).nodes = List.insertionSort (fun a b => a ≤ b) xs.dedup
      ∧ (graph.from_range xs : graph N E).begin.operator_eq
          (graph.from_range xs : graph N E).end_ = true
      ∧ (graph.from_range xs : graph N E).edges = some []
      ∧ (graph.from_range ([] : List N) : graph N E).empty = true := by
  have hasc : (graph.from_range xs : graph N E).nodes.Pairwise (fun a b => a < b) := by
    have := (from_range_valid xs : (graph.from_range xs : graph N E).valid).1
    unfold graph.nodes_ascending ascending at this
    refine List.Pairwise.imp ?_ this
    intro a b hab
    simpa [node_compare] using hab
  have hmem : ∀ v, v ∈ (graph.from_range xs : graph N E).nodes ↔ v ∈ xs := by
    intro v
    unfold graph.from_range graph.nodes
    rw [foldl_insert_node_mem]
    simp [graph.default]
  have hedges : (graph.from_range xs : graph N E).edges_rep_ = [] := by
    unfold graph.from_range
    rw [foldl_insert_node_edges]; rfl
  refine ⟨hasc, hmem, ?_, (edges_of_no_buckets _ hedges).1, (edges_of_no_buckets _ hedges).2, rfl⟩
  have hnd : (graph.from_range xs : graph N E).nodes.Nodup :=
    List.Pairwise.imp (fun h => ne_of_lt h) hasc
  have hperm : List.Perm (graph.from_range xs : graph N E).nodes
      (List.insertionSort (fun a b => a ≤ b) xs.dedup) :=
    ((List.perm_ext_iff_of_nodup hnd (List.nodup_dedup xs)).2
      (fun a => by rw [hmem, List.mem_dedup])).trans (List.perm_insertionSort _ _).symm
  exact List.eq_of_perm_of_sorted hperm (List.Pairwise.imp (fun h => le_of_lt h) hasc)
    (List.sorted_insertionSort _ _)

/-- The list 3, 1, 2, 1 gives the nodes 1, 2, 3. -/
theorem from_range_example : (graph.from_range [3, 1, 2, 1] : graph Nat Nat).nodes = [1, 2, 3] := by
  decide

end clear_move_construct

/-! ## Equality of graphs -/

section graph_equality
variable {N E : Type} [LinearOrder N] [LinearOrder E]

theorem zip_forall_eq {α : Type} : ∀ (l1 l2 : List α), l1.length = l2.length →
    ((∀ p ∈ l1.zip l2, p.1 = p.2) ↔ l1 = l2)
  | [], [], _ => by simp
  | [], _ :: _, h => by simp at h
  | _ :: _, [], h => by simp at h
  | a :: l1, b :: l2, h => by
    have ih := zip_forall_eq l1 l2 (by simpa using h)
    simp only [List.zip_cons_cons, List.mem_cons, forall_eq_or_imp, List.cons.injEq, ih]

/-- The comparison `operator==` makes is equality of the two node sequences and of the two
adjacency indices. -/
theorem graph_operator_eq_iff (g other : graph N E) :
    g.operator_eq other = true
      ↔ g.nodes_rep_ = other.nodes_rep_ ∧ g.edges_rep_ = other.edges_rep_ := by
  unfold graph.operator_eq
  by_cases hlen : g.edges_rep_.length = other.edges_rep_.length
      ∧ g.nodes_rep_.length = other.nodes_rep_.length
  · have hn := zip_forall_eq g.nodes_rep_ other.nodes_rep_ hlen.2
    have he := zip_forall_eq g.edges_rep_ other.edges_rep_ hlen.1
    rw [if_neg (by simp [hlen.1, hlen.2])]
    by_cases hnodes : g.nodes_rep_ = other.nodes_rep_
    · have hany : ¬ ((g.nodes_rep_.zip other.nodes_rep_).any (fun p => decide (p.1 ≠ p.2)) = true) := by
        simp only [List.any_eq_true, decide_eq_true_eq, not_exists, not_and, not_not]
        exact fun p hp => hn.2 hnodes p hp
      rw [if_neg hany, ← he]
      simp only [hnodes, true_and, List.all_eq_true, Bool.and_eq_true, Bool.not_eq_true',
        decide_eq_false_iff_not, not_not, Bool.or_eq_false_iff, ne_eq]
      constructor
      · intro h p hp
        obtain ⟨⟨h1, h2⟩, h3⟩ := h p hp
        have hb := (zip_forall_eq p.1.2 p.2.2 h2).1 (fun q hq => Prod.ext (h3 q hq).1 (h3 q hq).2)
        exact Prod.ext h1 hb
      · intro h p hp
        have := h p hp
        rw [this]
        exact ⟨⟨rfl, rfl⟩, fun q hq =>
          have hq2 := (zip_forall_eq p.2.2 p.2.2 rfl).2 rfl q hq
          ⟨congrArg Prod.fst hq2, congrArg Prod.snd hq2⟩⟩
    · have hany : (g.nodes_rep_.zip other.nodes_rep_).any (fun p => decide (p.1 ≠ p.2)) = true := by
        by_contra hc
        apply hnodes
        apply hn.1
        intro p hp
        by_contra hpne
        exact hc (List.any_eq_true.2 ⟨p, hp, by simpa using hpne⟩)
      rw [if_pos hany]
      simp [hnodes]
  · have : (g.edges_rep_.length ≠ other.edges_rep_.length
        || g.nodes_rep_.length ≠ other.nodes_rep_.length) = true := by
      by_contra hc
      apply hlen
      simpa using hc
    rw [if_pos this]
    simp only [Bool.false_eq_true, false_iff, not_and]
    intro h1 h2
    exact hlen ⟨by rw [h2], by rw [h1]⟩

theorem mem_outgoing (l : List (value_type N E)) (v : N) (e : N × E) :
    e ∈ outgoing l v ↔ (⟨v, e.1, e.2⟩ : value_type N E) ∈ l := by
  unfold outgoing
  simp only [List.mem_map, List.mem_filter, decide_eq_true_eq]
  constructor
  · rintro ⟨r, ⟨hr, hv⟩, rfl⟩
    have : (⟨v, r.to_, r.weight⟩ : value_type N E) = r := by cases r; simp_all
    rw [this]; exact hr
  · intro h
    exact ⟨_, ⟨h, rfl⟩, rfl⟩

/-- The bucket of a source in an adjacency index with distinct keys is the sequence of its
outgoing pairs in the stored records. -/
theorem bucket_eq_outgoing (m : List (N × List (N × E))) (hk : (m.map Prod.fst).Nodup) (k : N) :
    (map_second node_compare k m).getD [] = outgoing (records m) k := by
  induction m with
  | nil => rfl
  | cons p ps ih =>
    rw [List.map_cons, List.nodup_cons] at hk
    have hrest : ∀ r ∈ records ps, r.from_ ≠ p.1 := by
      intro r hr heq
      obtain ⟨q, hq, _, hf⟩ := (mem_records ps r).1 hr
      exact hk.1 (List.mem_map.2 ⟨q, hq, by rw [← hf, heq]⟩)
    unfold outgoing at ih ⊢
    rw [map_second, equiv_under_eq_decide node_compare_strict, records, List.filter_append,
      List.map_append, List.filter_map]
    by_cases hkp : k = p.1
    · have h1 : (records ps).filter (fun r => decide (r.from_ = k)) = [] := by
        rw [List.filter_eq_nil_iff]
        intro r hr
        simpa [hkp] using hrest r hr
      have h2 : p.2.filter ((fun r : value_type N E => decide (r.from_ = k))
          ∘ fun e => (⟨p.1, e.1, e.2⟩ : value_type N E)) = p.2 := by
        rw [List.filter_eq_self]
        intro e _
        simp [hkp]
      rw [h1, h2]
      simp [hkp]
      exact (List.map_id p.2).symm.trans (List.map_congr_left (fun e _ => rfl))
    · have h2 : p.2.filter ((fun r : value_type N E => decide (r.from_ = k))
          ∘ fun e => (⟨p.1, e.1, e.2⟩ : value_type N E)) = [] := by
        rw [List.filter_eq_nil_iff]
        intro e _
        simpa using fun h => hkp h.symm
      rw [h2]
      simp only [hkp, decide_False, Bool.false_eq_true, if_false, List.map_nil, List.nil_append]
      exact ih hk.2

theorem mem_keys_iff {m : List (N × List (N × E))} (hne : ∀ p ∈ m, p.2 ≠ []) (k : N) :
    k ∈ m.map Prod.fst ↔ ∃ r ∈ records m, r.from_ = k := by
  constructor
  · intro hkm
    obtain ⟨p, hp, rfl⟩ := List.mem_map.1 hkm
    obtain ⟨e, b, hb⟩ := List.exists_cons_of_ne_nil (hne p hp)
    refine ⟨⟨p.1, e.1, e.2⟩, ?_, rfl⟩
    rw [mem_records]
    exact ⟨p, hp, by rw [hb]; simp, rfl⟩
  · rintro ⟨r, hr, rfl⟩
    obtain ⟨q, hq, _, hf⟩ := (mem_records m r).1 hr
    exact List.mem_map.2 ⟨q, hq, hf.symm⟩

theorem index_from_buckets (m : List (N × List (N × E))) (hk : (m.map Prod.fst).Nodup) :
    m = (m.map Prod.fst).map (fun k => (k, (map_second node_compare k m).getD [])) := by
  induction m with
  | nil => rfl
  | cons p ps ih =>
    rw [List.map_cons, List.nodup_cons] at hk
    rw [List.map_cons, List.map_cons]
    congr 1
    · simp [map_second, equiv_under_eq_decide node_compare_strict]
    · conv_lhs => rw [ih hk.2]
      apply List.map_congr_left
      intro k hkm
      have hne : ¬ k = p.1 := fun h => hk.1 (h ▸ hkm)
      simp [map_second, equiv_under_eq_decide node_compare_strict, hne]

/-- Two ordered adjacency indices that store the same records are the same. -/
theorem records_injective {m1 m2 : List (N × List (N × E))} (h1 : index_ordered m1)
    (h2 : index_ordered m2) (h : records m1 = records m2) : m1 = m2 := by
  have hkeys : m1.map Prod.fst = m2.map Prod.fst := by
    apply ascending_ext node_compare_strict h1.1 h2.1
    intro k
    rw [mem_keys_iff h1.2.2, mem_keys_iff h2.2.2, h]
  have hn1 := ascending_nodup node_compare_strict h1.1
  have hn2 := ascending_nodup node_compare_strict h2.1
  rw [index_from_buckets m1 hn1, index_from_buckets m2 hn2, hkeys]
  apply List.map_congr_left
  intro k _
  rw [bucket_eq_outgoing m1 hn1, bucket_eq_outgoing m2 hn2, h]

end graph_equality

section graph_equality_claim
variable {N E : Type} [LinearOrder N] [LinearOrder E]

/-- C21: for valid graphs `g1` and `g2` with edge sequences `l1` and `l2`, `g1 == g2` returns
true if and only if `nodes()` is the same sequence in both and every node has the same
sequence of outgoing (destination, weight) pairs in both; and if and only if the node
sequences are the same and the edge sequences are the same. -/
theorem graph_equality_is_same_nodes_and_edges (g1 g2 : graph N E) (hv1 : g1.valid)
    (hv2 : g2.valid) :
    ∃ l1 l2, g1.edges = some l1 ∧ g2.edges = some l2
      ∧ (g1.operator_eq g2 = true
          ↔ g1.nodes = g2.nodes ∧ ∀ v, g1.is_node v = true → outgoing l1 v = outgoing l2 v)
      ∧ (g1.operator_eq g2 = true ↔ g1.nodes = g2.nodes ∧ l1 = l2) := by
  have ho1 := valid_index_ordered hv1
  have ho2 := valid_index_ordered hv2
  have hsecond : g1.operator_eq g2 = true
      ↔ g1.nodes = g2.nodes ∧ records g1.edges_rep_ = records g2.edges_rep_ := by
    rw [graph_operator_eq_iff]
    constructor
    · rintro ⟨h1, h2⟩
      exact ⟨h1, by rw [h2]⟩
    · rintro ⟨h1, h2⟩
      exact ⟨h1, records_injective ho1 ho2 h2⟩
  refine ⟨_, _, valid_edges hv1, valid_edges hv2, ?_, hsecond⟩
  rw [hsecond]
  constructor
  · rintro ⟨h1, h2⟩
    exact ⟨h1, fun v _ => by rw [h2]⟩
  · rintro ⟨h1, h2⟩
    refine ⟨h1, ?_⟩
    apply ascending_ext value_compare_strict (ascending_records ho1.1 ho1.2.1)
      (ascending_records ho2.1 ho2.2.1)
    intro r
    have hr : (⟨r.from_, r.to_, r.weight⟩ : value_type N E) = r := rfl
    have key : ∀ l : List (value_type N E), r ∈ l ↔ (r.to_, r.weight) ∈ outgoing l r.from_ := by
      intro l; rw [mem_outgoing, hr]
    constructor
    · intro hm
      have hnode := (valid_records_nodes hv1 r hm).1
      rw [key] at hm ⊢
      rw [← h2 _ hnode]; exact hm
    · intro hm
      have hnode : g1.is_node r.from_ = true := by
        rw [is_node_congr (show g1.nodes_rep_ = g2.nodes_rep_ from h1)]
        exact (valid_records_nodes hv2 r hm).1
      rw [key] at hm ⊢
      rw [h2 _ hnode]; exact hm

/-- Scenario A compares equal to itself and differs from scenario C, which has one edge
more. -/
theorem graph_equality_is_same_nodes_and_edges_witness :
    scenario_a.operator_eq scenario_a = true ∧ scenario_a.operator_eq scenario_c = false
      ∧ ∃ l1 l2, scenario_a.edges = some l1 ∧ scenario_c.edges = some l2
        ∧ (scenario_a.operator_eq scenario_c = true
            ↔ scenario_a.nodes = scenario_c.nodes
              ∧ ∀ v, scenario_a.is_node v = true → outgoing l1 v = outgoing l2 v)
        ∧ (scenario_a.operator_eq scenario_c = true
            ↔ scenario_a.nodes = scenario_c.nodes ∧ l1 = l2) :=
  ⟨by decide, by decide,
    graph_equality_is_same_nodes_and_edges scenario_a scenario_c (by decide) (by decide)⟩

end graph_equality_claim

/-! ## Graphs built by insertions -/

section insertion_order
variable {N E : Type} [LinearOrder N] [LinearOrder E]

/-- A sequence of insertions whose edges come after their endpoints keeps the graph valid
and adds exactly the inserted nodes and the inserted edges. -/
theorem build_spec (calls : List (insertion N E)) :
    ∀ (g : graph N E) (seen : List N), g.valid → (∀ v ∈ seen, g.is_node v = true) →
      endpoints_first seen calls = true →
      (build calls g).valid
        ∧ (∀ v, v ∈ (build calls g).nodes_rep_ ↔ v ∈ g.nodes_rep_ ∨ v ∈ inserted_nodes calls)
        ∧ (∀ r, r ∈ records (build calls g).edges_rep_
            ↔ r ∈ records g.edges_rep_ ∨ r ∈ inserted_edges calls) := by
  induction calls with
  | nil => intro g seen hv _ _; simp [build, inserted_nodes, inserted_edges, hv]
  | cons c calls ih =>
    intro g seen hv hseen hfirst
    cases c with
    | node value =>
      have hnode : (g.insert_node value).2.is_node value = true := by
        rw [is_node_iff, insert_node_nodes]
        split_ifs with h
        · exact (is_node_iff g value).1 h
        · exact (mem_set_emplace node_compare_strict value value _).2 (Or.inl rfl)
      have hseen1 : ∀ v ∈ value :: seen, (g.insert_node value).2.is_node v = true := by
        intro v hvm
        rcases List.mem_cons.1 hvm with h | h
        · rw [h]; exact hnode
        · exact insert_node_is_node_mono g value v (hseen v h)
      obtain ⟨h1, h2, h3⟩ := ih (g.insert_node value).2 (value :: seen)
        (insert_node_valid hv value) hseen1 hfirst
      refine ⟨h1, fun v => ?_, fun r => ?_⟩
      · show v ∈ (build calls (g.insert_node value).2).nodes_rep_ ↔ _
        rw [h2 v, insert_node_nodes]
        simp only [inserted_nodes, List.mem_cons]
        split_ifs with h
        · have hx := (is_node_iff g value).1 h
          constructor
          · rintro (h4 | h4)
            · exact Or.inl h4
            · exact Or.inr (Or.inr h4)
          · rintro (h4 | h4 | h4)
            · exact Or.inl h4
            · exact Or.inl (h4 ▸ hx)
            · exact Or.inr h4
        · rw [mem_set_emplace node_compare_strict]
          tauto
      · show r ∈ records (build calls (g.insert_node value).2).edges_rep_ ↔ _
        rw [h3 r, insert_node_edges]
        rfl
    | edge src dst weight =>
      simp only [endpoints_first, Bool.and_eq_true, decide_eq_true_eq] at hfirst
      have hs := hseen src hfirst.1.1
      have hd := hseen dst hfirst.1.2
      have hn : (g.insert_edge src dst weight).2.nodes_rep_ = g.nodes_rep_ :=
        insert_edge_nodes g src dst weight
      obtain ⟨h1, h2, h3⟩ := ih (g.insert_edge src dst weight).2 seen
        (insert_edge_valid hv src dst weight)
        (fun v hvm => by rw [is_node_congr hn]; exact hseen v hvm) hfirst.2
      refine ⟨h1, fun v => ?_, fun r => ?_⟩
      · show v ∈ (build calls (g.insert_edge src dst weight).2).nodes_rep_ ↔ _
        rw [h2 v, hn]
        rfl
      · show r ∈ records (build calls (g.insert_edge src dst weight).2).edges_rep_ ↔ _
        rw [h3 r, insert_edge_mem_records g src dst weight hs hd hv.2.2.2.1]
        simp only [inserted_edges, List.mem_cons]
        tauto

/-- Two valid graphs with the same node values and the same edge records compare equal. -/
theorem operator_eq_of_same_members {g1 g2 : graph N E} (hv1 : g1.valid) (hv2 : g2.valid)
    (hn : ∀ v, v ∈ g1.nodes_rep_ ↔ v ∈ g2.nodes_rep_)
    (he : ∀ r, r ∈ records g1.edges_rep_ ↔ r ∈ records g2.edges_rep_) :
    g1.operator_eq g2 = true := by
  have ho1 := valid_index_ordered hv1
  have ho2 := valid_index_ordered hv2
  rw [graph_operator_eq_iff]
  refine ⟨ascending_ext node_compare_strict hv1.1 hv2.1 hn, records_injective ho1 ho2 ?_⟩
  exact ascending_ext value_compare_strict (ascending_records ho1.1 ho1.2.1)
    (ascending_records ho2.1 ho2.2.1) he

/-- C22: two sequences of `insert_node` and `insert_edge` calls, each with every `insert_edge`
after the `insert_node` calls of its endpoints, that insert the same set of node values and
the same set of edges, in any order and with any repetitions, build from empty graphs two
graphs that compare equal under `operator==`. -/
theorem same_insertions_build_equal_graphs (calls1 calls2 : List (insertion N E))
    (h1 : endpoints_first [] calls1 = true) (h2 : endpoints_first [] calls2 = true)
    (hn : ∀ v, v ∈ inserted_nodes calls1 ↔ v ∈ inserted_nodes calls2)
    (he : ∀ r, r ∈ inserted_edges calls1 ↔ r ∈ inserted_edges calls2) :
    (build calls1 graph.default).operator_eq (build calls2 graph.default) = true := by
  obtain ⟨hv1, hn1, he1⟩ := build_spec calls1 graph.default [] default_valid
    (fun v hvm => absurd hvm (List.not_mem_nil _)) h1
  obtain ⟨hv2, hn2, he2⟩ := build_spec calls2 graph.default [] default_valid
    (fun v hvm => absurd hvm (List.not_mem_nil _)) h2
  apply operator_eq_of_same_members hv1 hv2
  · intro v
    rw [hn1, hn2, hn]
  · intro r
    rw [he1, he2, he]

/-- Nodes 1, 2 and edges (1,2,5), (2,1,3), once inserted in one order and once in another
order with a node and an edge repeated. -/
theorem same_insertions_build_equal_graphs_witness :
    (build [.node 1, .node 2, .edge 1 2 5, .edge 2 1 3]
        (graph.default : graph Nat Nat)).operator_eq
        (build [.node 2, .node 1, .node 2, .edge 2 1 3, .edge 1 2 5, .edge 2 1 3]
          (graph.default : graph Nat Nat)) = true :=
  same_insertions_build_equal_graphs
    [.node 1, .node 2, .edge 1 2 5, .edge 2 1 3]
    [.node 2, .node 1, .node 2, .edge 2 1 3, .edge 1 2 5, .edge 2 1 3]
    (by decide) (by decide)
    (by intro v; simp only [inserted_nodes, List.mem_cons, List.mem_nil_iff, or_false]; tauto)
    (by intro r; simp only [inserted_edges, List.mem_cons, List.mem_nil_iff, or_false]; tauto)

end insertion_order

/-! ## Copy construction and copy assignment -/

section copy_contracts
variable {N E : Type} [LinearOrder N] [LinearOrder E]

/-- The inner loop of the copy operations into a valid graph that has the source and every
destination as a node: nothing is raised and the edges of the bucket are added. -/
theorem copy_bucket_loop_spec (curr_src : N) (l : List (N × E)) :
    ∀ (g : graph N E), g.valid → g.is_node curr_src = true →
      (∀ e ∈ l, g.is_node e.1 = true) →
      (copy_bucket_loop curr_src l g).1 = .ok ()
        ∧ ∀ r, r ∈ records (copy_bucket_loop curr_src l g).2.edges_rep_
            ↔ r ∈ records g.edges_rep_ ∨ ∃ e ∈ l, r = ⟨curr_src, e.1, e.2⟩ := by
  induction l with
  | nil => intro g _ _ _; simp [copy_bucket_loop]
  | cons e rest ih =>
    intro g hv hs hd
    have hde := hd e (List.mem_cons_self _ _)
    have hres := insert_edge_result g curr_src e.1 e.2 hs hde hv.2.2.2.1
    have hmem := insert_edge_mem_records g curr_src e.1 e.2 hs hde hv.2.2.2.1
    have hval := insert_edge_valid hv curr_src e.1 e.2
    have hn : (g.insert_edge curr_src e.1 e.2).2.nodes_rep_ = g.nodes_rep_ :=
      insert_edge_nodes g curr_src e.1 e.2
    rcases hcall : g.insert_edge curr_src e.1 e.2 with ⟨res, g1⟩
    rw [hcall] at hres hmem hval hn
    simp only at hres hmem hval hn
    obtain ⟨h1, h2⟩ := ih g1 hval (by rw [is_node_congr hn]; exact hs)
      (fun x hx => by rw [is_node_congr hn]; exact hd x (List.mem_cons_of_mem _ hx))
    rw [copy_bucket_loop, hcall, hres]
    refine ⟨h1, fun r => ?_⟩
    rw [h2 r, hmem r]
    simp only [List.mem_cons, exists_eq_or_imp]
    tauto

/-- The outer loop of the copy operations into a valid graph that has every source and
destination of the copied adjacency index as a node: nothing is raised and the records of
the copied index are added. -/
theorem copy_edges_loop_spec (m : List (N × List (N × E))) :
    ∀ (g : graph N E), g.valid →
      (∀ p ∈ m, g.is_node p.1 = true ∧ ∀ e ∈ p.2, g.is_node e.1 = true) →
      (copy_edges_loop m g).1 = .ok ()
        ∧ ∀ r, r ∈ records (copy_edges_loop m g).2.edges_rep_
            ↔ r ∈ records g.edges_rep_ ∨ r ∈ records m := by
  induction m with
  | nil => intro g _ _; simp [copy_edges_loop, records]
  | cons p rest ih =>
    intro g hv hnodes
    have hp := hnodes p (List.mem_cons_self _ _)
    obtain ⟨hb1, hb2⟩ := copy_bucket_loop_spec p.1 p.2 g hv hp.1 hp.2
    have hval := copy_bucket_loop_valid p.1 p.2 hv
    have hn := copy_bucket_loop_nodes p.1 p.2 g
    rcases hcall : copy_bucket_loop p.1 p.2 g with ⟨res, g1⟩
    rw [hcall] at hb1 hb2 hval hn
    simp only at hb1 hb2 hval hn
    obtain ⟨h1, h2⟩ := ih g1 hval (fun q hq => by
      have := hnodes q (List.mem_cons_of_mem _ hq)
      rw [is_node_congr hn]
      exact ⟨this.1, fun e he => by rw [is_node_congr hn]; exact this.2 e he⟩)
    rw [copy_edges_loop, hcall, hb1]
    refine ⟨h1, fun r => ?_⟩
    rw [h2 r, hb2 r]
    simp only [records, List.mem_append, List.mem_map]
    constructor
    · rintro ((h | ⟨e, he, rfl⟩) | h)
      · exact Or.inl h
      · exact Or.inr (Or.inl ⟨e, he, rfl⟩)
      · exact Or.inr (Or.inr h)
    · rintro (h | ⟨e, he, rfl⟩ | h)
      · exact Or.inl (Or.inl h)
      · exact Or.inl (Or.inr ⟨e, he, rfl⟩)
      · exact Or.inr h

/-- The body of the copy operations for valid graphs: nothing is raised, the result is valid
and holds the nodes and the edges of both graphs. -/
theorem copy_into_spec {self other : graph N E} (hs : self.valid) (ho : other.valid) :
    (copy_into self other).1 = .ok () ∧ (copy_into self other).2.valid
      ∧ (∀ v, v ∈ (copy_into self other).2.nodes_rep_
          ↔ v ∈ self.nodes_rep_ ∨ v ∈ other.nodes_rep_)
      ∧ (∀ r, r ∈ records (copy_into self other).2.edges_rep_
          ↔ r ∈ records self.edges_rep_ ∨ r ∈ records other.edges_rep_) := by
  have hnodes : ∀ v, v ∈ (other.nodes_rep_.foldl (fun g v => (g.insert_node v).2) self).nodes_rep_
      ↔ v ∈ self.nodes_rep_ ∨ v ∈ other.nodes_rep_ := foldl_insert_node_mem _ _
  have hspec := copy_edges_loop_spec other.edges_rep_
    (other.nodes_rep_.foldl (fun g v => (g.insert_node v).2) self)
    (foldl_insert_node_valid _ hs) (fun p hp => by
      have := ho.2.1 p hp
      refine ⟨?_, fun e he => ?_⟩
      · rw [is_node_iff, hnodes]
        exact Or.inr ((is_node_iff other _).1 this.1)
      · rw [is_node_iff, hnodes]
        exact Or.inr ((is_node_iff other _).1 (this.2 e he)))
  refine ⟨hspec.1, copy_into_valid other hs, fun v => ?_, fun r => ?_⟩
  · unfold copy_into
    rw [copy_edges_loop_nodes, hnodes]
  · unfold copy_into
    rw [hspec.2 r, foldl_insert_node_edges]

theorem weights_congr {g g1 : graph N E} (hn : g1.nodes_rep_ = g.nodes_rep_)
    (he : g1.edges_rep_ = g.edges_rep_) (src dst : N) : g1.weights src dst = g.weights src dst := by
  unfold graph.weights
  rw [is_node_congr hn, is_node_congr hn, he]

/-- C24: the copy constructor applied to a valid graph `g` raises nothing and produces a
graph that compares equal to `g`: it has the same `nodes()`, the same edge sequence and
the same `weights(src, dst)` for all `src` and `dst`.  The graph `g` is only read. -/
theorem copy_construct_equals_source (g : graph N E) (hv : g.valid) :
    (graph.copy_construct g).1 = .ok ()
      ∧ (graph.copy_construct g).2.operator_eq g = true
      ∧ (graph.copy_construct g).2.nodes = g.nodes
      ∧ (graph.copy_construct g).2.edges = g.edges
      ∧ ∀ src dst, (graph.copy_construct g).2.weights src dst = g.weights src dst := by
  obtain ⟨h1, h2, h3, h4⟩ := copy_into_spec (default_valid : (graph.default : graph N E).valid) hv
  have heq : (graph.copy_construct g).2.operator_eq g = true :=
    operator_eq_of_same_members h2 hv
      (fun v => by
        show v ∈ (copy_into graph.default g).2.nodes_rep_ ↔ _
        rw [h3]; simp [graph.default])
      (fun r => by
        show r ∈ records (copy_into graph.default g).2.edges_rep_ ↔ _
        rw [h4]; simp [graph.default, records])
  have hrep := (graph_operator_eq_iff _ _).1 heq
  exact ⟨h1, heq, hrep.1, edges_congr _ _ hrep.2, weights_congr hrep.1 hrep.2⟩

/-- Scenario A: its copy has the nodes 1, 2, 3 and compares equal to it. -/
theorem copy_construct_equals_source_witness :
    (graph.copy_construct scenario_a).2.nodes = [1, 2, 3]
      ∧ (graph.copy_construct scenario_a).1 = .ok ()
      ∧ (graph.copy_construct scenario_a).2.operator_eq scenario_a = true
      ∧ (graph.copy_construct scenario_a).2.nodes = scenario_a.nodes
      ∧ (graph.copy_construct scenario_a).2.edges = scenario_a.edges
      ∧ ∀ src dst, (graph.copy_construct scenario_a).2.weights src dst
          = scenario_a.weights src dst :=
  ⟨by decide, copy_construct_equals_source scenario_a (by decide)⟩

end copy_contracts

section copy_assignment
variable {N E : Type} [LinearOrder N] [LinearOrder E]

/-- Copy assignment `a = b` between valid graphs raises nothing and leaves in `a` the nodes
and the edges of both graphs; the result compares equal to `b` exactly when `b` already had
every node and every edge of `a`. -/
theorem copy_assign_is_union {a b : graph N E} (ha : a.valid) (hb : b.valid) :
    (a.copy_assign b).1 = .ok ()
      ∧ (∀ v, v ∈ (a.copy_assign b).2.nodes ↔ v ∈ a.nodes ∨ v ∈ b.nodes)
      ∧ (∀ r, r ∈ records (a.copy_assign b).2.edges_rep_
          ↔ r ∈ records a.edges_rep_ ∨ r ∈ records b.edges_rep_)
      ∧ ((a.copy_assign b).2.operator_eq b = true
          ↔ (∀ v ∈ a.nodes, v ∈ b.nodes)
            ∧ ∀ r ∈ records a.edges_rep_, r ∈ records b.edges_rep_) := by
  obtain ⟨h1, h2, h3, h4⟩ := copy_into_spec ha hb
  refine ⟨h1, h3, h4, ?_⟩
  constructor
  · intro heq
    have hrep := (graph_operator_eq_iff _ _).1 heq
    constructor
    · intro v hv
      have hin : v ∈ (a.copy_assign b).2.nodes_rep_ := (h3 v).2 (Or.inl hv)
      rw [hrep.1] at hin
      exact hin
    · intro r hr
      have hin : r ∈ records (a.copy_assign b).2.edges_rep_ := (h4 r).2 (Or.inl hr)
      rw [hrep.2] at hin
      exact hin
  · rintro ⟨hn, he⟩
    apply operator_eq_of_same_members h2 hb
    · intro v
      rw [h3]
      exact ⟨fun h => h.elim (hn v) id, Or.inr⟩
    · intro r
      rw [h4]
      exact ⟨fun h => h.elim (he r) id, Or.inr⟩

/-- C23 fails on the code: copy assignment never clears the target.  With `a` holding the
single node 1 and `b` empty, after `a = b` the graph `a` still has the node 1 and does not
compare equal to `b`; with `a` holding the nodes 1, 2 and the edge (2,1,7) and `b` being
scenario A, after `a = b` the graph `a` has the edge (2,1,7) besides the edges of `b`. -/
theorem copy_assign_keeps_old_contents :
    ((graph.from_range [1] : graph Nat Nat).copy_assign graph.default).2.nodes = [1]
      ∧ ((graph.from_range [1] : graph Nat Nat).copy_assign graph.default).2.operator_eq
          graph.default = false
      ∧ (two_nodes_one_edge.copy_assign scenario_a).2.edges
          = some [⟨1, 2, 3⟩, ⟨1, 2, 5⟩, ⟨1, 3, 10⟩, ⟨2, 1, 7⟩]
      ∧ scenario_a.edges = some [⟨1, 2, 3⟩, ⟨1, 2, 5⟩, ⟨1, 3, 10⟩]
      ∧ (two_nodes_one_edge.copy_assign scenario_a).2.operator_eq scenario_a = false := by
  decide

end copy_assignment

/-! ## The text dump -/

section dump_format
variable {N E : Type} [LinearOrder N] [LinearOrder E]

/-- C27: for renderings `show_n` of node values and `show_e` of weights, the text dump of a
valid graph with edge sequence `l` is the concatenation, over the nodes `v` in the order of
`nodes()`, of `show_n v`, then " (" and a line break, then for every outgoing edge of `v` in
the order of `l` the line of two spaces, `show_n dst`, " | ", `show_e weight` and a line
break, then ")" and a line break.  The dump of the empty graph is the empty string, and the
dump of the graph with the single node `v` is `show_n v` followed by " (", a line break, ")"
and a line break. -/
theorem dump_lists_nodes_with_their_edges (show_n : N → String) (show_e : E → String)
    (g : graph N E) (hv : g.valid) :
    ∃ l, g.edges = some l
      ∧ g.dump show_n show_e
        = String.join (g.nodes.map (fun v =>
            show_n v ++ " (\n"
              ++ String.join ((outgoing l v).map
                  (fun e => "  " ++ show_n e.1 ++ " | " ++ show_e e.2 ++ "\n"))
              ++ ")\n"))
      ∧ (graph.default : graph N E).dump show_n show_e = ""
      ∧ ∀ v, (graph.from_range [v] : graph N E).dump show_n show_e = show_n v ++ " (\n)\n" := by
  refine ⟨_, valid_edges hv, ?_, rfl, fun v => ?_⟩
  · have hb := fun k => bucket_eq_outgoing g.edges_rep_
      (ascending_nodup node_compare_strict hv.2.2.2.1) k
    unfold graph.dump graph.nodes
    simp only [hb]
  · simp only [graph.dump, graph.from_range, graph.insert_node, graph.default, graph.is_node,
      set_contains, set_emplace, map_second, String.join, List.foldl_cons, List.foldl_nil,
      List.any_nil, Bool.false_eq_true, if_false, List.map_cons, List.map_nil, Option.getD_none,
      String.append_empty, String.empty_append, Bool.not_false, if_true]
    rw [String.append_assoc]
    rfl

/-- Scenario A (nodes 1, 2, 3 and edges (1,2,5), (1,2,3), (1,3,10)) with decimal renderings:
node 1 with its three edges in (destination, weight) order, then the empty blocks of the
nodes 2 and 3. -/
theorem dump_lists_nodes_with_their_edges_witness :
    scenario_a.dump Nat.repr Nat.repr = "1 (\n  2 | 3\n  2 | 5\n  3 | 10\n)\n2 (\n)\n3 (\n)\n"
      ∧ ∃ l, scenario_a.edges = some l
        ∧ scenario_a.dump Nat.repr Nat.repr
          = String.join (scenario_a.nodes.map (fun v =>
              Nat.repr v ++ " (\n"
                ++ String.join ((outgoing l v).map
                    (fun e => "  " ++ Nat.repr e.1 ++ " | " ++ Nat.repr e.2 ++ "\n"))
                ++ ")\n"))
        ∧ (graph.default : graph Nat Nat).dump Nat.repr Nat.repr = ""
        ∧ ∀ v, (graph.from_range [v] : graph Nat Nat).dump Nat.repr Nat.repr
            = Nat.repr v ++ " (\n)\n" :=
  ⟨by decide, dump_lists_nodes_with_their_edges Nat.repr Nat.repr scenario_a (by decide)⟩

end dump_format

/-! ## Traversal by increments -/

section traversal_steps
variable {N E : Type} [LinearOrder N] [LinearOrder E]

theorem begin_position {g : graph N E} (ho : index_ordered g.edges_rep_) :
    g.begin.position = position_of (records g.edges_rep_).head? := by
  unfold graph.begin iterator.at_begin iterator.position
  cases hm : g.edges_rep_ with
  | nil => rfl
  | cons p ps =>
    obtain ⟨e, b, hb⟩ := List.exists_cons_of_ne_nil (ho.2.2 p (by rw [hm]; simp))
    simp [records, hb, position_of]

/-- An iterator at index `i` of the edge sequence can be incremented as long as an index of
the sequence, or its length, is reached, and is then at that index. -/
theorem advance_defined {m : List (N × List (N × E))} (ho : index_ordered m) (k : Nat) :
    ∀ (i : Nat) (it : iterator N E), it.edges_map_end_ = none →
      it.position = position_of (records m)[i]? → i + k ≤ (records m).length →
      ∃ it1, it.advance m k = some it1 ∧ it1.edges_map_end_ = none
        ∧ it1.position = position_of (records m)[i + k]?
        ∧ it1.edges_map_begin_ = it.edges_map_begin_ := by
  induction k with
  | zero => intro i it hend hpos _; exact ⟨it, rfl, hend, hpos, rfl⟩
  | succ k ih =>
    intro i it hend hpos hik
    have hi : i < (records m).length := by omega
    have hl : records m = (records m).take i ++ (records m)[i] :: (records m).drop (i + 1) := by
      rw [← List.drop_eq_getElem_cons hi, List.take_append_drop]
    rw [List.getElem?_eq_getElem hi] at hpos
    obtain ⟨it1, hincr, hend1, hpos1, hbeg1⟩ := incr_spec ho hl it hend hpos
    rw [List.head?_drop] at hpos1
    obtain ⟨it2, hadv, hend2, hpos2, hbeg2⟩ := ih (i + 1) it1 hend1 hpos1 (by omega)
    refine ⟨it2, ?_, hend2, ?_, by rw [hbeg2, hbeg1]⟩
    · rw [iterator.advance, hincr]
      exact hadv
    · rw [hpos2]
      congr 2
      omega

/-- C29: on a valid graph whose adjacency index stores `n` edges, the traversal yields a
sequence `l` of `n` records without repetition, and a record is in `l` exactly when `find`
locates it.  For every `k < n`, `k` increments from `begin()` are defined and give an
iterator that differs from `end()` and dereferences to `l[k]`; `n` increments give an
iterator equal to `end()`; when `n = 0`, `begin() == end()`. -/
theorem increments_reach_end_after_all_edges (g : graph N E) (hv : g.valid) :
    ∃ l, g.edges = some l ∧ l.length = g.edge_count ∧ l.Nodup
      ∧ (∀ r, r ∈ l ↔ (g.find r.from_ r.to_ r.weight).operator_eq g.end_ = false)
      ∧ (∀ k, k < l.length → ∃ it, g.begin.advance g.edges_rep_ k = some it
          ∧ it.operator_eq g.end_ = false ∧ it.deref g.edges_rep_ = l[k]?)
      ∧ (∃ it, g.begin.advance g.edges_rep_ l.length = some it
          ∧ it.operator_eq g.end_ = true)
      ∧ (l.length = 0 → g.begin.operator_eq g.end_ = true) := by
  have ho := valid_index_ordered hv
  have hbegin : g.begin.position = position_of (records g.edges_rep_)[0]? := by
    rw [begin_position ho, List.head?_eq_getElem?]
  have hbend : g.begin.edges_map_end_ = none := rfl
  refine ⟨_, valid_edges hv, (edge_count_eq g).symm,
    ascending_nodup value_compare_strict (ascending_records ho.1 ho.2.1), fun r => ?_,
    fun k hk => ?_, ?_, fun h0 => ?_⟩
  · have hr : (⟨r.from_, r.to_, r.weight⟩ : value_type N E) = r := rfl
    rw [operator_eq_false_iff, (find_position g hv r.from_ r.to_ r.weight).2, hr, end_position]
    by_cases hm : r ∈ records g.edges_rep_
    · simp only [hm, if_true, true_iff]
      exact position_of_some_ne_none r
    · simp [hm]
  · obtain ⟨it, hadv, _, hpos, _⟩ := advance_defined ho k 0 g.begin hbend hbegin (by omega)
    rw [Nat.zero_add] at hpos
    refine ⟨it, hadv, ?_, ?_⟩
    · rw [operator_eq_false_iff, hpos, end_position, List.getElem?_eq_getElem hk]
      exact position_of_some_ne_none _
    · rw [List.getElem?_eq_getElem hk] at hpos ⊢
      exact deref_of_position ho.1 hpos (List.getElem_mem _)
  · obtain ⟨it, hadv, _, hpos, _⟩ := advance_defined ho (records g.edges_rep_).length 0 g.begin
      hbend hbegin (by omega)
    refine ⟨it, hadv, ?_⟩
    rw [operator_eq_iff, hpos, end_position, List.getElem?_eq_none (by omega)]
  · rw [operator_eq_iff, hbegin, end_position, List.getElem?_eq_none (by omega)]

/-- Scenario A has three edges: the third increment from `begin()` reaches `end()`, the
second does not and is at the edge (1,3,10). -/
theorem increments_reach_end_after_all_edges_witness :
    (scenario_a.begin.advance scenario_a.edges_rep_ 2).map
        (fun it => (it.operator_eq scenario_a.end_, it.deref scenario_a.edges_rep_))
        = some (false, some ⟨1, 3, 10⟩)
      ∧ (scenario_a.begin.advance scenario_a.edges_rep_ 3).map
        (fun it => it.operator_eq scenario_a.end_) = some true
      ∧ ∃ l, scenario_a.edges = some l ∧ l.length = scenario_a.edge_count ∧ l.Nodup
        ∧ (∀ r, r ∈ l
            ↔ (scenario_a.find r.from_ r.to_ r.weight).operator_eq scenario_a.end_ = false)
        ∧ (∀ k, k < l.length → ∃ it, scenario_a.begin.advance scenario_a.edges_rep_ k = some it
            ∧ it.operator_eq scenario_a.end_ = false ∧ it.deref scenario_a.edges_rep_ = l[k]?)
        ∧ (∃ it, scenario_a.begin.advance scenario_a.edges_rep_ l.length = some it
            ∧ it.operator_eq scenario_a.end_ = true)
        ∧ (l.length = 0 → scenario_a.begin.operator_eq scenario_a.end_ = true) :=
  ⟨by decide, by decide, increments_reach_end_after_all_edges scenario_a (by decide)⟩

end traversal_steps

/-! ## Decrement -/

section decrement
variable {N E : Type} [LinearOrder N] [LinearOrder E]

theorem iter_prev_append {α : Type} [DecidableEq α] (x y : α) (l2 : List α) :
    ∀ l1 : List α, (l1 ++ y :: x :: l2).Nodup → iter_prev x (l1 ++ y :: x :: l2) = some y
  | [], _ => by simp [iter_prev]
  | [a], h => by
    have hne : ¬ y = x := by
      intro heq
      simp [heq] at h
    simp [iter_prev, hne]
  | a :: b :: l1, h => by
    have hne : ¬ b = x := by
      intro heq
      have h2 := (List.nodup_cons.1 (List.nodup_cons.1 h).2).1
      exact h2 (by simp [heq])
    have := iter_prev_append x y l2 (b :: l1) (List.nodup_cons.1 h).2
    simpa [iter_prev, hne] using this

theorem head_ne_of_nodup {α : Type} (x y : α) (l1 l2 : List α)
    (h : (l1 ++ y :: x :: l2).Nodup) : (l1 ++ y :: x :: l2).head? ≠ some x := by
  cases l1 with
  | nil =>
    intro hc
    simp only [List.nil_append, List.head?_cons, Option.some.injEq] at hc
    simp [hc] at h
  | cons a l1 =>
    intro hc
    simp only [List.cons_append, List.head?_cons, Option.some.injEq] at hc
    have := (List.nodup_cons.1 h).1
    exact this (by simp [hc])

/-- The decrement of an iterator of an ordered adjacency index that is at the position after
the record `r` of the edge sequence (the next record, or the end) designates `r`.  The begin
member of the iterator is the first entry of the index, or designates no entry of it. -/
theorem decr_spec {m : List (N × List (N × E))} (ho : index_ordered m)
    {L1 L2 : List (value_type N E)} {r : value_type N E} (hl : records m = L1 ++ r :: L2)
    (it : iterator N E) (hend : it.edges_map_end_ = none)
    (hbeg : it.edges_map_begin_ = (m.map Prod.fst).head?
      ∨ ∀ k ∈ m.map Prod.fst, it.edges_map_begin_ ≠ some k)
    (hpos : it.position = position_of L2.head?) :
    ∃ it1, it.decr m = some it1 ∧ it1.edges_map_end_ = none
      ∧ it1.position = position_of (some r)
      ∧ it1.edges_map_begin_ = it.edges_map_begin_ := by
  obtain ⟨pre, bpre, bpost, post, hsplit, _, hL2⟩ := records_split ho hl
  have hkeys := ascending_nodup node_compare_strict ho.1
  have hkeys2 := hkeys
  rw [hsplit, List.map_append, List.map_cons, List.nodup_append] at hkeys2
  have hkpre : r.from_ ∉ pre.map Prod.fst := fun hmem =>
    hkeys2.2.2 hmem (List.mem_cons_self _ _)
  have hb : (bpre ++ (r.to_, r.weight) :: bpost).Nodup :=
    ascending_nodup edge_compare_strict
      (ho.2.1 (r.from_, bpre ++ (r.to_, r.weight) :: bpost) (by rw [hsplit]; simp))
  have hms : map_second node_compare r.from_ m = some (bpre ++ (r.to_, r.weight) :: bpost) := by
    rw [hsplit]; exact map_second_append node_compare_strict _ _ _ _ hkpre
  rw [hL2] at hpos
  cases bpost with
  | cons e1 bpost1 =>
    have hk : it.curr_map_iter_ = some r.from_ := congrArg Prod.fst hpos
    have he : it.curr_set_iter_ = some e1 := congrArg Prod.snd hpos
    have hhead : ¬ some e1 = (bpre ++ (r.to_, r.weight) :: e1 :: bpost1).head? :=
      fun hc => head_ne_of_nodup e1 _ bpre bpost1 hb hc.symm
    have hprev := iter_prev_append e1 (r.to_, r.weight) bpost1 bpre hb
    refine ⟨{ it with curr_set_iter_ := some (r.to_, r.weight) }, ?_, hend, ?_, rfl⟩
    · simp only [iterator.decr, hk, he, hend, hms, hhead, hprev, reduceCtorEq, if_false]
    · simp [iterator.position, position_of, hk]
  | nil =>
    have hlast : ((map_second node_compare r.from_ m).getD []).getLast?
        = some (r.to_, r.weight) := by
      rw [hms]; simp
    cases post with
    | nil =>
      have hk : it.curr_map_iter_ = none := congrArg Prod.fst hpos
      have hpred : iter_pred (none : Option N) (m.map Prod.fst) = some r.from_ := by
        rw [hsplit]; simp [iter_pred]
      refine ⟨{ it with curr_map_iter_ := some r.from_,
                        curr_set_iter_ := some (r.to_, r.weight) }, ?_, hend, rfl, rfl⟩
      simp [iterator.decr, hk, hend, hpred, hlast]
    | cons q post1 =>
      obtain ⟨k1, b1⟩ := q
      have hb1 : b1 ≠ [] := ho.2.2 (k1, b1) (by rw [hsplit]; simp)
      obtain ⟨e1, b2, rfl⟩ := List.exists_cons_of_ne_nil hb1
      have hk : it.curr_map_iter_ = some k1 := by
        have := congrArg Prod.fst hpos
        simpa [iterator.position, position_of, records] using this
      have he : it.curr_set_iter_ = some e1 := by
        have := congrArg Prod.snd hpos
        simpa [iterator.position, position_of, records] using this
      have hkeyseq : m.map Prod.fst
          = pre.map Prod.fst ++ r.from_ :: k1 :: post1.map Prod.fst := by
        rw [hsplit]; simp
      have hnd : (pre.map Prod.fst ++ r.from_ :: k1 :: post1.map Prod.fst).Nodup := by
        rw [← hkeyseq]; exact hkeys
      have hk1 : k1 ∉ (pre ++ [(r.from_, bpre ++ [(r.to_, r.weight)])]).map Prod.fst := by
        intro hmem
        rw [List.map_append, List.mem_append] at hmem
        rcases hmem with hmem | hmem
        · exact hkeys2.2.2 hmem (by simp)
        · have hkk : k1 = r.from_ := by simpa using hmem
          have hnd2 := hkeys2.2.1
          rw [List.map_cons, List.nodup_cons] at hnd2
          exact hnd2.1 (by simp [hkk])
      have hms1 : map_second node_compare k1 m = some (e1 :: b2) := by
        have : m = (pre ++ [(r.from_, bpre ++ [(r.to_, r.weight)])]) ++ (k1, e1 :: b2) :: post1 := by
          rw [hsplit]; simp
        rw [this]
        exact map_second_append node_compare_strict _ _ _ _ hk1
      have hnotbegin : ¬ some k1 = it.edges_map_begin_ := by
        rcases hbeg with hbeg | hbeg
        · rw [hbeg, hkeyseq]
          exact fun hc => head_ne_of_nodup k1 r.from_ _ _ hnd hc.symm
        · exact fun hc => hbeg k1 (by rw [hkeyseq]; simp) hc.symm
      have hprev : iter_prev k1 (m.map Prod.fst) = some r.from_ := by
        rw [hkeyseq]; exact iter_prev_append k1 r.from_ _ _ hnd
      refine ⟨{ it with curr_map_iter_ := some r.from_,
                        curr_set_iter_ := some (r.to_, r.weight) }, ?_, hend, rfl, rfl⟩
      simp [iterator.decr, hk, he, hend, hms1, hnotbegin, hprev, hlast]

/-- C30: on a valid graph with a non-empty edge sequence `l`: decrementing `end()` gives the
iterator at the last record of `l`; for every iterator of the graph at a record, the
decrement of its increment compares equal to it; and for every iterator of the graph, at a
record or at the end, that differs from `begin()`, the increment of its decrement compares
equal to it.  The records may lie in different buckets.  An iterator of the graph has the
end member of `end()` and the begin member of `begin()`; the begin member may also designate
no entry of the adjacency index, as in an iterator returned by `erase_edge` after the first
bucket was erased. -/
theorem decrement_inverts_increment (g : graph N E) (hv : g.valid)
    (l : List (value_type N E)) (hl : g.edges = some l) (hne : l ≠ []) :
    (∃ it, g.end_.decr g.edges_rep_ = some it ∧ it.deref g.edges_rep_ = l.getLast?)
      ∧ (∀ (it : iterator N E) (r : value_type N E),
          (it.edges_map_begin_ = g.begin.edges_map_begin_
            ∨ ∀ k ∈ g.edges_rep_.map Prod.fst, it.edges_map_begin_ ≠ some k) →
          it.edges_map_end_ = g.end_.edges_map_end_ →
          it.deref g.edges_rep_ = some r →
          ∃ it1 it2, it.incr g.edges_rep_ = some it1 ∧ it1.decr g.edges_rep_ = some it2
            ∧ it2.operator_eq it = true)
      ∧ (∀ it : iterator N E,
          (it.edges_map_begin_ = g.begin.edges_map_begin_
            ∨ ∀ k ∈ g.edges_rep_.map Prod.fst, it.edges_map_begin_ ≠ some k) →
          it.edges_map_end_ = g.end_.edges_map_end_ →
          (it.operator_eq g.end_ = true ∨ ∃ r, it.deref g.edges_rep_ = some r) →
          it.operator_eq g.begin = false →
          ∃ it1 it2, it.decr g.edges_rep_ = some it1 ∧ it1.incr g.edges_rep_ = some it2
            ∧ it2.operator_eq it = true) := by
  have hrec : l = records g.edges_rep_ := by
    rw [valid_edges hv] at hl
    exact (Option.some.inj hl).symm
  subst hrec
  have ho := valid_index_ordered hv
  refine ⟨?_, fun it r hbeg hend hderef => ?_, fun it hbeg hend hat hnb => ?_⟩
  · have hsplit : records g.edges_rep_
        = (records g.edges_rep_).dropLast ++ (records g.edges_rep_).getLast hne :: [] :=
      (List.dropLast_append_getLast hne).symm
    obtain ⟨it1, hdecr, _, hpos1, _⟩ := decr_spec ho hsplit g.end_ rfl (Or.inl rfl) rfl
    refine ⟨it1, hdecr, ?_⟩
    rw [List.getLast?_eq_getLast _ hne]
    exact deref_of_position ho.1 hpos1 (List.getLast_mem hne)
  · obtain ⟨hpos, hmem⟩ := deref_eq_some hderef
    obtain ⟨L1, L2, hsplit⟩ := List.append_of_mem hmem
    obtain ⟨it1, hincr, hend1, hpos1, hbeg1⟩ := incr_spec ho hsplit it hend hpos
    obtain ⟨it2, hdecr, _, hpos2, _⟩ :=
      decr_spec ho hsplit it1 hend1 (by rw [hbeg1]; exact hbeg) hpos1
    exact ⟨it1, it2, hincr, hdecr, by rw [operator_eq_iff, hpos2, hpos]⟩
  · rw [operator_eq_false_iff, begin_position ho] at hnb
    have key : ∃ L1 r L2, records g.edges_rep_ = L1 ++ r :: L2
        ∧ it.position = position_of L2.head? := by
      rcases hat with hatend | ⟨r1, hderef⟩
      · refine ⟨(records g.edges_rep_).dropLast, (records g.edges_rep_).getLast hne, [],
          (List.dropLast_append_getLast hne).symm, ?_⟩
        rw [(operator_eq_iff _ _).1 hatend]
        rfl
      · obtain ⟨hpos, hmem⟩ := deref_eq_some hderef
        obtain ⟨L0, L2, hsplit⟩ := List.append_of_mem hmem
        have hL0 : L0 ≠ [] := by
          intro h0
          rw [h0, List.nil_append] at hsplit
          rw [hsplit, List.head?_cons] at hnb
          exact hnb hpos
        refine ⟨L0.dropLast, L0.getLast hL0, r1 :: L2, ?_, ?_⟩
        · rw [hsplit]
          conv_lhs => rw [← List.dropLast_append_getLast hL0]
          simp
        · rw [List.head?_cons]; exact hpos
    obtain ⟨L1, r, L2, hsplit, hpos⟩ := key
    obtain ⟨it1, hdecr, hend1, hpos1, _⟩ := decr_spec ho hsplit it hend hbeg hpos
    obtain ⟨it2, hincr, _, hpos2, _⟩ := incr_spec ho hsplit it1 hend1 hpos1
    exact ⟨it1, it2, hdecr, hincr, by rw [operator_eq_iff, hpos2, hpos]⟩

/-- The graph `three_cycle` has the edges (1,2,4), (2,3,8), (3,1,6), each in a bucket of its
own: decrementing `end()` gives the iterator at (3,1,6), and from the iterator at (2,3,8)
both round trips cross a bucket boundary. -/
theorem decrement_inverts_increment_witness :
    (three_cycle.end_.decr three_cycle.edges_rep_).map
        (fun it => it.deref three_cycle.edges_rep_) = some (some ⟨3, 1, 6⟩)
      ∧ ((three_cycle.find 2 3 8).decr three_cycle.edges_rep_).map
        (fun it => it.deref three_cycle.edges_rep_) = some (some ⟨1, 2, 4⟩)
      ∧ ((∃ it, three_cycle.end_.decr three_cycle.edges_rep_ = some it
            ∧ it.deref three_cycle.edges_rep_
              = ([⟨1, 2, 4⟩, ⟨2, 3, 8⟩, ⟨3, 1, 6⟩] : List (value_type Nat Nat)).getLast?)
        ∧ (∀ (it : iterator Nat Nat) (r : value_type Nat Nat),
            (it.edges_map_begin_ = three_cycle.begin.edges_map_begin_
              ∨ ∀ k ∈ three_cycle.edges_rep_.map Prod.fst, it.edges_map_begin_ ≠ some k) →
            it.edges_map_end_ = three_cycle.end_.edges_map_end_ →
            it.deref three_cycle.edges_rep_ = some r →
            ∃ it1 it2, it.incr three_cycle.edges_rep_ = some it1
              ∧ it1.decr three_cycle.edges_rep_ = some it2 ∧ it2.operator_eq it = true)
        ∧ (∀ it : iterator Nat Nat,
            (it.edges_map_begin_ = three_cycle.begin.edges_map_begin_
              ∨ ∀ k ∈ three_cycle.edges_rep_.map Prod.fst, it.edges_map_begin_ ≠ some k) →
            it.edges_map_end_ = three_cycle.end_.edges_map_end_ →
            (it.operator_eq three_cycle.end_ = true
              ∨ ∃ r, it.deref three_cycle.edges_rep_ = some r) →
            it.operator_eq three_cycle.begin = false →
            ∃ it1 it2, it.decr three_cycle.edges_rep_ = some it1
              ∧ it1.incr three_cycle.edges_rep_ = some it2 ∧ it2.operator_eq it = true)) :=
  ⟨by decide, by decide,
    decrement_inverts_increment three_cycle (by decide)
      [⟨1, 2, 4⟩, ⟨2, 3, 8⟩, ⟨3, 1, 6⟩] (by decide) (by decide)⟩

end decrement

/-! ## Relations between the accessors -/

section accessor_relations
variable {N E : Type} [LinearOrder N] [LinearOrder E]

theorem weights_spec (g : graph N E) (hv : g.valid) (src dst : N)
    (hs : g.is_node src = true) (hd : g.is_node dst = true) :
    ∃ ws, g.weights src dst = .ok ws ∧ ws.Pairwise (fun x y => x < y)
      ∧ (∀ w, w ∈ ws ↔ (⟨src, dst, w⟩ : value_type N E) ∈ records g.edges_rep_) := by
  have hmem := fun w => mem_records_iff_bucket hv.2.2.2.1 (⟨src, dst, w⟩ : value_type N E)
  unfold graph.weights
  rw [if_neg (by simp [hs, hd])]
  cases hb : map_second node_compare src g.edges_rep_ with
  | none =>
    refine ⟨[], rfl, List.Pairwise.nil, fun w => ?_⟩
    rw [hmem w]; simp [hb]
  | some b =>
    have hasc : ascending edge_compare b := hv.2.2.1 _ (map_second_mem node_compare_strict hb)
    refine ⟨_, rfl, (weights_of_bucket b hasc dst).1, fun w => ?_⟩
    rw [hmem w, (weights_of_bucket b hasc dst).2 w]
    simp [hb]

theorem connections_spec (g : graph N E) (hv : g.valid) (src : N)
    (hs : g.is_node src = true) :
    ∃ ds, g.connections src = .ok ds ∧ ds.Pairwise (fun x y => x < y)
      ∧ (∀ d, d ∈ ds ↔ ∃ w, (⟨src, d, w⟩ : value_type N E) ∈ records g.edges_rep_) := by
  have hmem := fun d w => mem_records_iff_bucket hv.2.2.2.1 (⟨src, d, w⟩ : value_type N E)
  unfold graph.connections
  rw [if_neg (by simp [hs])]
  cases hb : map_second node_compare src g.edges_rep_ with
  | none =>
    refine ⟨[], rfl, List.Pairwise.nil, fun d => ?_⟩
    simp [hmem, hb]
  | some b =>
    have hasc : ascending edge_compare b := hv.2.2.1 _ (map_second_mem node_compare_strict hb)
    have hloop := connections_loop_spec b (b.head?.map Prod.fst) []
      (destinations_weakly_ascending b hasc) List.Pairwise.nil (fun h => absurd rfl h)
    refine ⟨_, rfl, hloop.1, fun d => ?_⟩
    rw [hloop.2 d]
    simp only [List.not_mem_nil, false_or, List.mem_map, hmem, hb, Option.some.injEq,
      exists_eq_left']
    constructor
    · rintro ⟨p, hp, rfl⟩
      exact ⟨p.2, hp⟩
    · rintro ⟨w, hw⟩
      exact ⟨(d, w), hw, rfl⟩

/-- C38: on a valid graph and for nodes `src` and `d`, the three accessors return normally;
`weights(src, d)` is non-empty if and only if `is_connected(src, d)` is true, and `d` occurs
in `connections(src)` if and only if `is_connected(src, d)` is true. -/
theorem accessors_agree_on_connection (g : graph N E) (hv : g.valid) (src d : N)
    (hs : g.is_node src = true) (hd : g.is_node d = true) :
    ∃ ws ds b, g.weights src d = .ok ws ∧ g.connections src = .ok ds
      ∧ g.is_connected src d = .ok b
      ∧ (ws ≠ [] ↔ b = true) ∧ (d ∈ ds ↔ b = true) := by
  obtain ⟨ws, hw1, _, hw3⟩ := weights_spec g hv src d hs hd
  obtain ⟨ds, hc1, _, hc3⟩ := connections_spec g hv src hs
  obtain ⟨b, hb1, hb2⟩ := is_connected_iff_bucket g hv src d hs hd
  refine ⟨ws, ds, b, hw1, hc1, hb1, ?_, ?_⟩
  · rw [hb2]
    constructor
    · intro hne
      obtain ⟨w, rest, hwr⟩ := List.exists_cons_of_ne_nil hne
      exact ⟨w, (hw3 w).1 (by rw [hwr]; simp)⟩
    · rintro ⟨w, hw⟩ hnil
      have := (hw3 w).2 hw
      rw [hnil] at this
      cases this
  · rw [hb2, hc3]

/-- Scenario A: node 1 is connected to node 2 (weights 3 and 5) and node 2 is not connected
to node 1. -/
theorem accessors_agree_on_connection_witness :
    scenario_a.weights 1 2 = .ok [3, 5] ∧ scenario_a.is_connected 1 2 = .ok true
      ∧ scenario_a.weights 2 1 = .ok [] ∧ scenario_a.connections 2 = .ok []
      ∧ scenario_a.is_connected 2 1 = .ok false
      ∧ ∃ ws ds b, scenario_a.weights 1 2 = .ok ws ∧ scenario_a.connections 1 = .ok ds
        ∧ scenario_a.is_connected 1 2 = .ok b
        ∧ (ws ≠ [] ↔ b = true) ∧ (2 ∈ ds ↔ b = true) :=
  ⟨by decide, by decide, by decide, by decide, by decide,
    accessors_agree_on_connection scenario_a (by decide) 1 2 (by decide) (by decide)⟩

/-- C39: `operator==` is an equivalence relation, on valid graphs and on all others: it is
reflexive, symmetric and transitive. -/
theorem graph_equality_is_equivalence (g1 g2 g3 : graph N E) :
    g1.operator_eq g1 = true
      ∧ (g1.operator_eq g2 = true → g2.operator_eq g1 = true)
      ∧ (g1.operator_eq g2 = true → g2.operator_eq g3 = true → g1.operator_eq g3 = true) := by
  refine ⟨(graph_operator_eq_iff _ _).2 ⟨rfl, rfl⟩, fun h => ?_, fun h12 h23 => ?_⟩
  · rw [graph_operator_eq_iff] at h ⊢
    exact ⟨h.1.symm, h.2.symm⟩
  · rw [graph_operator_eq_iff] at h12 h23 ⊢
    exact ⟨h12.1.trans h23.1, h12.2.trans h23.2⟩

end accessor_relations

/-! ## Round trips -/

section round_trips
variable {N E : Type} [LinearOrder N] [LinearOrder E]

/-- The call `erase_edge(src, dst, w)` on a valid graph that holds the edge: it returns true
and takes the record out, and nothing else. -/
theorem erase_edge_present (g : graph N E) (hv : g.valid) (src dst : N) (w : E)
    (hs : g.is_node src = true) (hd : g.is_node dst = true)
    (hmem : (⟨src, dst, w⟩ : value_type N E) ∈ records g.edges_rep_) :
    ∃ g1, g.erase_edge src dst w = some (.ok true, g1) ∧ g1.valid
      ∧ g1.nodes_rep_ = g.nodes_rep_
      ∧ ∀ r, r ∈ records g1.edges_rep_ ↔ r ∈ records g.edges_rep_ ∧ r ≠ ⟨src, dst, w⟩ := by
  have hfind := find_position g hv src dst w
  rw [if_pos hmem] at hfind
  obtain ⟨l1, l2, hl⟩ := List.append_of_mem hmem
  obtain ⟨it1, g1, herase, hg1, hv1, _, _, _⟩ :=
    erase_edge_iter_spec hv hl (g.find src dst w) hfind.1 hfind.2
  have hne : (g.find src dst w).operator_eq g.end_ = false := by
    rw [operator_eq_false_iff, hfind.2, end_position]
    exact position_of_some_ne_none _
  refine ⟨g1, ?_, hv1, by rw [hg1], fun r => ?_⟩
  · unfold graph.erase_edge
    simp [hs, hd, hne, herase]
  · rw [hg1]
    exact mem_records_erase_at hv.2.2.2.1 src (dst, w) r

/-- C36: on a valid graph with edge sequence `l`, for nodes `src` and `dst` and a weight `w`
with the record `(src, dst, w)` not in `l`: `insert_edge(src, dst, w)` returns true, the
following `erase_edge(src, dst, w)` is defined and returns true, and the graph it leaves
compares equal to the original graph.  Nothing is assumed about the edges of `src`, so it
may have none. -/
theorem insert_then_erase_edge_restores (g : graph N E) (hv : g.valid)
    (l : List (value_type N E)) (hl : g.edges = some l) (src dst : N) (w : E)
    (hs : g.is_node src = true) (hd : g.is_node dst = true)
    (hx : (⟨src, dst, w⟩ : value_type N E) ∉ l) :
    ∃ g2, (g.insert_edge src dst w).1 = .ok true
      ∧ (g.insert_edge src dst w).2.erase_edge src dst w = some (.ok true, g2)
      ∧ g2.operator_eq g = true := by
  have hrec : l = records g.edges_rep_ := by
    rw [valid_edges hv] at hl
    exact (Option.some.inj hl).symm
  subst hrec
  have hres := insert_edge_result g src dst w hs hd hv.2.2.2.1
  have hmem := insert_edge_mem_records g src dst w hs hd hv.2.2.2.1
  have hval := insert_edge_valid hv src dst w
  have hn : (g.insert_edge src dst w).2.nodes_rep_ = g.nodes_rep_ := insert_edge_nodes g src dst w
  obtain ⟨g2, he, hv2, hn2, hm2⟩ := erase_edge_present (g.insert_edge src dst w).2 hval src dst w
    (by rw [is_node_congr hn]; exact hs) (by rw [is_node_congr hn]; exact hd)
    ((hmem _).2 (Or.inl rfl))
  refine ⟨g2, by rw [hres]; simp [hx], he, ?_⟩
  apply operator_eq_of_same_members hv2 hv
  · intro v
    rw [hn2, hn]
  · intro r
    rw [hm2, hmem]
    constructor
    · rintro ⟨h | h, hne⟩
      · exact absurd h hne
      · exact h
    · intro h
      exact ⟨Or.inr h, fun e => hx (e ▸ h)⟩

/-- Scenario A, where node 2 has no outgoing edge: inserting and erasing the edge (2,1,9)
gives back a graph equal to scenario A. -/
theorem insert_then_erase_edge_restores_witness :
    (scenario_a.insert_edge 2 1 9).2.edges
        = some [⟨1, 2, 3⟩, ⟨1, 2, 5⟩, ⟨1, 3, 10⟩, ⟨2, 1, 9⟩]
      ∧ ∃ g2, (scenario_a.insert_edge 2 1 9).1 = .ok true
        ∧ (scenario_a.insert_edge 2 1 9).2.erase_edge 2 1 9 = some (.ok true, g2)
        ∧ g2.operator_eq scenario_a = true :=
  ⟨by decide, insert_then_erase_edge_restores scenario_a (by decide)
    [⟨1, 2, 3⟩, ⟨1, 2, 5⟩, ⟨1, 3, 10⟩] (by decide) 2 1 9 (by decide) (by decide) (by decide)⟩

end round_trips

section replace_round_trip
variable {N E : Type} [LinearOrder N] [LinearOrder E]

/-- The call `replace_node(old, new)` on a valid graph for a node `old` and a value `new` that
is not a node: it returns true, leaves a valid graph, and renames the node and the edge
records. -/
theorem replace_node_spec (g : graph N E) (hv : g.valid) (old_data new_data : N)
    (hold : g.is_node old_data = true) (hnew : g.is_node new_data = false) :
    (g.replace_node old_data new_data).1 = .ok true
      ∧ (g.replace_node old_data new_data).2.valid
      ∧ (∀ v, v ∈ (g.replace_node old_data new_data).2.nodes_rep_
          ↔ v = new_data ∨ (v ∈ g.nodes_rep_ ∧ v ≠ old_data))
      ∧ ∀ r, r ∈ records (g.replace_node old_data new_data).2.edges_rep_
          ↔ ∃ r0 ∈ records g.edges_rep_, r = rename_record old_data new_data r0 := by
  have hne : old_data ≠ new_data := by
    intro e
    rw [e, hnew] at hold
    exact Bool.noConfusion hold
  have ho := valid_index_ordered hv
  have hval := replace_node_valid hv old_data new_data
  rw [replace_node_eq g old_data new_data hold hnew] at hval ⊢
  refine ⟨rfl, hval, fun v => ?_, fun r => ?_⟩
  · show v ∈ set_erase node_compare old_data (set_emplace node_compare new_data g.nodes_rep_) ↔ _
    rw [mem_set_erase node_compare_strict, mem_set_emplace node_compare_strict]
    constructor
    · rintro ⟨h1 | h1, h2⟩
      · exact Or.inl h1
      · exact Or.inr ⟨h1, h2⟩
    · rintro (h1 | ⟨h1, h2⟩)
      · exact ⟨Or.inl h1, by rw [h1]; exact fun e => hne e.symm⟩
      · exact ⟨Or.inr h1, h2⟩
  · show r ∈ records (repoint_all old_data new_data
      (rekey_entry old_data new_data g.edges_rep_)) ↔ _
    rw [mem_records_repoint_all hne]
    constructor
    · rintro ⟨r1, hr1, rfl⟩
      obtain ⟨r0, hr0, rfl⟩ :=
        (mem_records_rekey_entry ho.1 (keys_not_node hv.2.1 hnew) r1).1 hr1
      exact ⟨r0, hr0, rfl⟩
    · rintro ⟨r0, hr0, rfl⟩
      exact ⟨⟨rename_node old_data new_data r0.from_, r0.to_, r0.weight⟩,
        (mem_records_rekey_entry ho.1 (keys_not_node hv.2.1 hnew) _).2 ⟨r0, hr0, rfl⟩, rfl⟩

theorem rename_node_back {a b x : N} (hx : x ≠ b) :
    rename_node b a (rename_node a b x) = x := by
  unfold rename_node
  by_cases h : x = a
  · simp [h]
  · simp [h, hx]

/-- C37: on a valid graph, for a node `a` and a value `b` that is not a node,
`replace_node(a, b)` returns true, the following `replace_node(b, a)` returns true, and the
graph it leaves compares equal to the original graph. -/
theorem replace_node_there_and_back (g : graph N E) (hv : g.valid) (a b : N)
    (ha : g.is_node a = true) (hb : g.is_node b = false) :
    (g.replace_node a b).1 = .ok true
      ∧ ((g.replace_node a b).2.replace_node b a).1 = .ok true
      ∧ ((g.replace_node a b).2.replace_node b a).2.operator_eq g = true := by
  have hab : a ≠ b := by
    intro e
    rw [e, hb] at ha
    exact Bool.noConfusion ha
  obtain ⟨h1, hv1, hn1, hr1⟩ := replace_node_spec g hv a b ha hb
  have hb1 : (g.replace_node a b).2.is_node b = true := by
    rw [is_node_iff, hn1]; exact Or.inl rfl
  have ha1 : (g.replace_node a b).2.is_node a = false := by
    rw [← Bool.not_eq_true, is_node_iff, hn1]
    rintro (h | ⟨_, h⟩)
    · exact hab h
    · exact h rfl
  obtain ⟨h2, hv2, hn2, hr2⟩ := replace_node_spec (g.replace_node a b).2 hv1 b a hb1 ha1
  have hbnot : b ∉ g.nodes_rep_ := by
    intro hm
    rw [(is_node_iff g b).2 hm] at hb
    cases hb
  refine ⟨h1, h2, operator_eq_of_same_members hv2 hv (fun v => ?_) (fun r => ?_)⟩
  · rw [hn2]
    constructor
    · rintro (h | ⟨h3, h4⟩)
      · rw [h]; exact (is_node_iff g a).1 ha
      · rcases (hn1 v).1 h3 with h5 | ⟨h5, _⟩
        · exact absurd h5 h4
        · exact h5
    · intro h
      by_cases hva : v = a
      · exact Or.inl hva
      · exact Or.inr ⟨(hn1 v).2 (Or.inr ⟨h, hva⟩), fun e => hbnot (e ▸ h)⟩
  · have hback : ∀ r0 ∈ records g.edges_rep_,
        rename_record b a (rename_record a b r0) = r0 := by
      intro r0 hr0
      have hnodes := valid_records_nodes hv r0 hr0
      have hf : r0.from_ ≠ b := fun e => hbnot (e ▸ (is_node_iff g _).1 hnodes.1)
      have ht : r0.to_ ≠ b := fun e => hbnot (e ▸ (is_node_iff g _).1 hnodes.2)
      cases r0
      simp only [rename_record, rename_node_back hf, rename_node_back ht]
    rw [hr2]
    constructor
    · rintro ⟨r1, hr1m, rfl⟩
      obtain ⟨r0, hr0, rfl⟩ := (hr1 r1).1 hr1m
      rw [hback r0 hr0]; exact hr0
    · intro h
      exact ⟨rename_record a b r, (hr1 _).2 ⟨r, h, rfl⟩, (hback r h).symm⟩

/-- Scenario A: `replace_node(1, 5)` and then `replace_node(5, 1)` give back a graph equal to
scenario A. -/
theorem replace_node_there_and_back_witness :
    (scenario_a.replace_node 1 5).2.nodes = [2, 3, 5]
      ∧ ((scenario_a.replace_node 1 5).2.replace_node 5 1).2.nodes = [1, 2, 3]
      ∧ (scenario_a.replace_node 1 5).1 = .ok true
      ∧ ((scenario_a.replace_node 1 5).2.replace_node 5 1).1 = .ok true
      ∧ ((scenario_a.replace_node 1 5).2.replace_node 5 1).2.operator_eq scenario_a = true :=
  ⟨by decide, by decide,
    replace_node_there_and_back scenario_a (by decide) 1 5 (by decide) (by decide)⟩

end replace_round_trip

/-! ## The traversal and the accessors -/

section traversal_and_accessors
variable {N E : Type} [LinearOrder N] [LinearOrder E]

theorem records_of_connections_spec (g : graph N E) (hv : g.valid) (src : N)
    (hs : g.is_node src = true) (ds : List N) :
    (∀ d ∈ ds, g.is_node d = true) → ds.Pairwise (fun x y => x < y) →
    ∃ l, records_of_connections g src ds = .ok l ∧ ascending value_compare l
      ∧ ∀ r, r ∈ l ↔ r.from_ = src ∧ r.to_ ∈ ds ∧ r ∈ records g.edges_rep_ := by
  induction ds with
  | nil =>
    intro _ _
    exact ⟨[], rfl, List.Pairwise.nil, fun r => by simp⟩
  | cons d ds ih =>
    intro hnodes hasc
    rw [List.pairwise_cons] at hasc
    obtain ⟨ws, hw1, hw2, hw3⟩ := weights_spec g hv src d hs (hnodes d (List.mem_cons_self _ _))
    obtain ⟨rest, hr1, hr2, hr3⟩ := ih (fun x hx => hnodes x (List.mem_cons_of_mem _ hx)) hasc.2
    refine ⟨ws.map (fun w => (⟨src, d, w⟩ : value_type N E)) ++ rest, ?_, ?_, fun r => ?_⟩
    · rw [records_of_connections, hw1]
      simp only [hr1]
    · unfold ascending
      rw [List.pairwise_append]
      refine ⟨?_, hr2, ?_⟩
      · rw [List.pairwise_map]
        refine List.Pairwise.imp ?_ hw2
        intro x y hxy
        rw [value_compare_iff]
        exact Or.inr ⟨rfl, Or.inr ⟨rfl, hxy⟩⟩
      · intro x hx y hy
        obtain ⟨w, _, rfl⟩ := List.mem_map.1 hx
        obtain ⟨hy1, hy2, _⟩ := (hr3 y).1 hy
        rw [value_compare_iff]
        exact Or.inr ⟨hy1.symm, Or.inl (hasc.1 _ hy2)⟩
    · rw [List.mem_append, hr3 r, List.mem_map]
      constructor
      · rintro (⟨w, hw, rfl⟩ | ⟨h1, h2, h3⟩)
        · exact ⟨rfl, List.mem_cons_self _ _, (hw3 w).1 hw⟩
        · exact ⟨h1, List.mem_cons_of_mem _ h2, h3⟩
      · rintro ⟨h1, h2, h3⟩
        rcases List.mem_cons.1 h2 with h4 | h4
        · left
          have hr : r = ⟨src, d, r.weight⟩ := by
            cases r; simp_all
          refine ⟨r.weight, (hw3 _).2 (hr ▸ h3), hr.symm⟩
        · exact Or.inr ⟨h1, h4, h3⟩

theorem records_of_nodes_spec (g : graph N E) (hv : g.valid) (srcs : List N) :
    (∀ s ∈ srcs, g.is_node s = true) → srcs.Pairwise (fun x y => x < y) →
    ∃ l, records_of_nodes g srcs = .ok l ∧ ascending value_compare l
      ∧ ∀ r, r ∈ l ↔ r.from_ ∈ srcs ∧ r ∈ records g.edges_rep_ := by
  induction srcs with
  | nil =>
    intro _ _
    exact ⟨[], rfl, List.Pairwise.nil, fun r => by simp⟩
  | cons src srcs ih =>
    intro hnodes hasc
    rw [List.pairwise_cons] at hasc
    have hs := hnodes src (List.mem_cons_self _ _)
    obtain ⟨ds, hc1, hc2, hc3⟩ := connections_spec g hv src hs
    have hds : ∀ d ∈ ds, g.is_node d = true := by
      intro d hd
      obtain ⟨w, hw⟩ := (hc3 d).1 hd
      exact (valid_records_nodes hv _ hw).2
    obtain ⟨l, hl1, hl2, hl3⟩ := records_of_connections_spec g hv src hs ds hds hc2
    obtain ⟨rest, hr1, hr2, hr3⟩ := ih (fun x hx => hnodes x (List.mem_cons_of_mem _ hx)) hasc.2
    refine ⟨l ++ rest, ?_, ?_, fun r => ?_⟩
    · rw [records_of_nodes, hc1]
      simp only [hl1, hr1]
    · unfold ascending
      rw [List.pairwise_append]
      refine ⟨hl2, hr2, ?_⟩
      intro x hx y hy
      have hx1 := ((hl3 x).1 hx).1
      have hy1 := ((hr3 y).1 hy).1
      rw [value_compare_iff]
      exact Or.inl (hx1 ▸ hasc.1 _ hy1)
    · rw [List.mem_append, hl3 r, hr3 r]
      constructor
      · rintro (⟨h1, _, h3⟩ | ⟨h1, h3⟩)
        · exact ⟨h1 ▸ List.mem_cons_self _ _, h3⟩
        · exact ⟨List.mem_cons_of_mem _ h1, h3⟩
      · rintro ⟨h1, h3⟩
        rcases List.mem_cons.1 h1 with h4 | h4
        · left
          refine ⟨h4, (hc3 _).2 ⟨r.weight, ?_⟩, h3⟩
          have hr : (⟨src, r.to_, r.weight⟩ : value_type N E) = r := by
            cases r; simp_all
          rw [hr]; exact h3
        · exact Or.inr ⟨h4, h3⟩

/-- C35: on a valid graph no accessor call of the nested enumeration raises, and the list it
gives (for each `src` in `nodes()`, each `d` in `connections(src)`, each `w` in
`weights(src, d)`, the record `(src, d, w)`) is the sequence of edge records of the traversal
from `begin()` to `end()`. -/
theorem traversal_equals_accessor_enumeration (g : graph N E) (hv : g.valid) :
    ∃ l, g.edges = some l ∧ g.edges_by_accessors = .ok l := by
  have hasc : g.nodes.Pairwise (fun x y => x < y) := by
    have := hv.1
    unfold graph.nodes_ascending ascending at this
    refine List.Pairwise.imp ?_ this
    intro a b hab
    simpa [node_compare] using hab
  obtain ⟨l, hl1, hl2, hl3⟩ := records_of_nodes_spec g hv g.nodes
    (fun s hs => (is_node_iff g s).2 hs) hasc
  have ho := valid_index_ordered hv
  have heq : l = records g.edges_rep_ := by
    apply ascending_ext value_compare_strict hl2 (ascending_records ho.1 ho.2.1)
    intro r
    rw [hl3]
    constructor
    · exact fun h => h.2
    · exact fun h => ⟨(is_node_iff g _).1 (valid_records_nodes hv r h).1, h⟩
  refine ⟨records g.edges_rep_, valid_edges hv, ?_⟩
  rw [← heq]
  exact hl1

/-- Scenario C: the accessors enumerate (1,2,3), (1,2,5), (1,3,10), (3,1,99), as the
traversal does. -/
theorem traversal_equals_accessor_enumeration_witness :
    scenario_c.edges_by_accessors = .ok [⟨1, 2, 3⟩, ⟨1, 2, 5⟩, ⟨1, 3, 10⟩, ⟨3, 1, 99⟩]
      ∧ ∃ l, scenario_c.edges = some l ∧ scenario_c.edges_by_accessors = .ok l :=
  ⟨by decide, traversal_equals_accessor_enumeration scenario_c (by decide)⟩

end traversal_and_accessors

/-! ## Iterators obtained from a graph -/

section obtained_iterators
variable {N E : Type} [LinearOrder N] [LinearOrder E]

theorem records_eq_nil {m : List (N × List (N × E))} (hne : ∀ p ∈ m, p.2 ≠ [])
    (h : records m = []) : m = [] := by
  cases m with
  | nil => rfl
  | cons p ps =>
    exfalso
    obtain ⟨e, b, hb⟩ := List.exists_cons_of_ne_nil (hne p (List.mem_cons_self _ _))
    simp [records, hb] at h

/-- The decrement of an iterator at the first record whose begin member is the first entry
of the adjacency index leaves the iterator as it is. -/
theorem decr_at_first {m : List (N × List (N × E))} (ho : index_ordered m)
    {L2 : List (value_type N E)} {r : value_type N E} (hl : records m = r :: L2)
    (it : iterator N E) (hend : it.edges_map_end_ = none)
    (hbeg : it.edges_map_begin_ = (m.map Prod.fst).head?)
    (hpos : it.position = position_of (some r)) : it.decr m = some it := by
  have hk : it.curr_map_iter_ = some r.from_ := congrArg Prod.fst hpos
  have he : it.curr_set_iter_ = some (r.to_, r.weight) := congrArg Prod.snd hpos
  cases m with
  | nil => simp [records] at hl
  | cons p ps =>
    obtain ⟨e, b, hb⟩ := List.exists_cons_of_ne_nil (ho.2.2 p (List.mem_cons_self _ _))
    have hr : r = ⟨p.1, e.1, e.2⟩ := by
      simp only [records, hb, List.map_cons, List.cons_append, List.cons.injEq] at hl
      exact hl.1.symm
    subst hr
    have he2 : it.curr_set_iter_ = some e := he
    have hms : map_second node_compare p.1 (p :: ps) = some (e :: b) := by
      rw [← hb]
      simp [map_second, equiv_under_eq_decide node_compare_strict]
    have hbeg2 : it.edges_map_begin_ = some p.1 := by
      rw [hbeg]; rfl
    have hk2 : it.curr_map_iter_ = some p.1 := hk
    simp [iterator.decr, hk2, he2, hend, hms, hbeg2]

/-- An iterator obtained from a valid graph has the end member and the begin member of the
graph, and is at a record of the edge sequence or at the end. -/
theorem obtained_from_position {g : graph N E} (hv : g.valid) {it : iterator N E}
    (h : obtained_from g it) :
    it.edges_map_end_ = none ∧ it.edges_map_begin_ = (g.edges_rep_.map Prod.fst).head?
      ∧ ∃ x : Option (value_type N E), it.position = position_of x
          ∧ ∀ r, x = some r → r ∈ records g.edges_rep_ := by
  have ho := valid_index_ordered hv
  induction h with
  | begin =>
    refine ⟨rfl, rfl, _, begin_position ho, fun r hr => ?_⟩
    exact List.mem_of_mem_head? hr
  | end_ => exact ⟨rfl, rfl, none, rfl, fun r hr => by cases hr⟩
  | find src dst weight =>
    have hf := find_position g hv src dst weight
    have hb : (g.find src dst weight).edges_map_begin_ = (g.edges_rep_.map Prod.fst).head? := by
      rw [find_valid g hv]
      split_ifs <;> rfl
    refine ⟨hf.1, hb, _, hf.2, fun r hr => ?_⟩
    split_ifs at hr with hmem
    · cases hr; exact hmem
  | @incr it it1 _ hincr ih =>
    obtain ⟨hend, hbeg, x, hpos, hx⟩ := ih
    cases x with
    | none =>
      exfalso
      have hk : it.curr_map_iter_ = none := congrArg Prod.fst hpos
      simp [iterator.incr, hk] at hincr
    | some r =>
      obtain ⟨L1, L2, hl⟩ := List.append_of_mem (hx r rfl)
      obtain ⟨it2, hincr2, hend2, hpos2, hbeg2⟩ := incr_spec ho hl it hend hpos
      rw [hincr] at hincr2
      have h12 : it1 = it2 := Option.some.inj hincr2
      rw [h12]
      refine ⟨hend2, by rw [hbeg2, hbeg], L2.head?, hpos2, fun r2 hr2 => ?_⟩
      rw [hl]
      exact List.mem_append_right _ (List.mem_cons_of_mem _ (List.mem_of_mem_head? hr2))
  | @decr it it1 _ hdecr ih =>
    obtain ⟨hend, hbeg, x, hpos, hx⟩ := ih
    have key : ∀ (L1 L2 : List (value_type N E)) (r0 : value_type N E),
        records g.edges_rep_ = L1 ++ r0 :: L2 → it.position = position_of L2.head? →
        it1.edges_map_end_ = none
          ∧ it1.edges_map_begin_ = (g.edges_rep_.map Prod.fst).head?
          ∧ ∃ x : Option (value_type N E), it1.position = position_of x
              ∧ ∀ r, x = some r → r ∈ records g.edges_rep_ := by
      intro L1 L2 r0 hl hp
      obtain ⟨it2, hdecr2, hend2, hpos2, hbeg2⟩ := decr_spec ho hl it hend (Or.inl hbeg) hp
      rw [hdecr] at hdecr2
      have h12 : it1 = it2 := Option.some.inj hdecr2
      rw [h12]
      refine ⟨hend2, by rw [hbeg2, hbeg], some r0, hpos2, fun r hr => ?_⟩
      cases hr
      rw [hl]; simp
    cases x with
    | none =>
      by_cases hnil : records g.edges_rep_ = []
      · exfalso
        have hm := records_eq_nil ho.2.2 hnil
        have hk : it.curr_map_iter_ = none := congrArg Prod.fst hpos
        simp [iterator.decr, hk, hend, hm, iter_pred] at hdecr
      · exact key _ [] _ (List.dropLast_append_getLast hnil).symm hpos
    | some r =>
      obtain ⟨L0, L2, hl⟩ := List.append_of_mem (hx r rfl)
      by_cases hL0 : L0 = []
      · rw [hL0, List.nil_append] at hl
        have hstay := decr_at_first ho hl it hend hbeg hpos
        rw [hdecr] at hstay
        have h12 : it1 = it := Option.some.inj hstay
        rw [h12]
        exact ⟨hend, hbeg, some r, hpos, hx⟩
      · refine key L0.dropLast (r :: L2) (L0.getLast hL0) ?_ hpos
        rw [hl]
        conv_lhs => rw [← List.dropLast_append_getLast hL0]
        simp

theorem position_of_inj (x y : Option (value_type N E)) (h : position_of x = position_of y) :
    x = y := by
  cases x with
  | none =>
    cases y with
    | none => rfl
    | some r => exact absurd h.symm (position_of_some_ne_none r)
  | some r =>
    cases y with
    | none => exact absurd h (position_of_some_ne_none r)
    | some r1 => rw [position_of_some_inj r r1 h]

end obtained_iterators

section iterator_equality
variable {N E : Type} [LinearOrder N] [LinearOrder E]

/-- An iterator obtained from a valid graph dereferences to a record where it is, or is
undefined to dereference and at the end. -/
theorem obtained_from_cases {g : graph N E} (hv : g.valid) {it : iterator N E}
    (h : obtained_from g it) :
    (∃ r, it.deref g.edges_rep_ = some r ∧ it.position = position_of (some r))
      ∨ (it.deref g.edges_rep_ = none ∧ it.position = position_of none) := by
  obtain ⟨_, _, x, hpos, hx⟩ := obtained_from_position hv h
  cases x with
  | some r => exact Or.inl ⟨r, deref_of_position hv.2.2.2.1 hpos (hx r rfl), hpos⟩
  | none =>
    refine Or.inr ⟨?_, hpos⟩
    have hk : it.curr_map_iter_ = none := congrArg Prod.fst hpos
    simp [iterator.deref, hk]

/-- C31: on a valid graph with edge sequence `l`, for every record `e` at index `k` of `l`,
`begin()` can be incremented `k` times and `find(e.from, e.to, e.weight)` compares equal to
the result; and two iterators obtained from the graph by `begin()`, `end()`, `find` and any
increments and decrements compare equal if and only if they dereference to the same record
or both compare equal to `end()`. -/
theorem find_equals_traversal_position (g : graph N E) (hv : g.valid) :
    ∃ l, g.edges = some l
      ∧ (∀ k e, l[k]? = some e →
          ∃ it, g.begin.advance g.edges_rep_ k = some it
            ∧ (g.find e.from_ e.to_ e.weight).operator_eq it = true)
      ∧ (∀ it1 it2, obtained_from g it1 → obtained_from g it2 →
          (it1.operator_eq it2 = true
            ↔ (∃ r, it1.deref g.edges_rep_ = some r ∧ it2.deref g.edges_rep_ = some r)
              ∨ (it1.operator_eq g.end_ = true ∧ it2.operator_eq g.end_ = true))) := by
  have ho := valid_index_ordered hv
  refine ⟨_, valid_edges hv, fun k e hke => ?_, fun it1 it2 h1 h2 => ?_⟩
  · have hk : k < (records g.edges_rep_).length := by
      by_contra hc
      rw [List.getElem?_eq_none (by omega)] at hke
      cases hke
    have hbegin : g.begin.position = position_of (records g.edges_rep_)[0]? := by
      rw [begin_position ho, List.head?_eq_getElem?]
    obtain ⟨it, hadv, _, hpos, _⟩ := advance_defined ho k 0 g.begin rfl hbegin (by omega)
    rw [Nat.zero_add, hke] at hpos
    refine ⟨it, hadv, ?_⟩
    have hmem : e ∈ records g.edges_rep_ := List.getElem?_mem hke
    have heta : (⟨e.from_, e.to_, e.weight⟩ : value_type N E) = e := rfl
    rw [operator_eq_iff, hpos, (find_position g hv e.from_ e.to_ e.weight).2, heta, if_pos hmem]
  · rw [operator_eq_iff, operator_eq_iff, operator_eq_iff, end_position]
    rcases obtained_from_cases hv h1 with ⟨r1, hd1, hp1⟩ | ⟨hd1, hp1⟩
    · rcases obtained_from_cases hv h2 with ⟨r2, hd2, hp2⟩ | ⟨hd2, hp2⟩
      · rw [hp1, hp2, hd1, hd2]
        constructor
        · intro h
          have := position_of_some_inj r1 r2 h
          exact Or.inl ⟨r1, rfl, by rw [this]⟩
        · rintro (⟨r, hr1, hr2⟩ | ⟨hc, _⟩)
          · rw [hr1, hr2]
          · exact absurd hc (position_of_some_ne_none r1)
      · rw [hp1, hp2, hd1, hd2]
        constructor
        · intro h
          exact absurd h (position_of_some_ne_none r1)
        · rintro (⟨r, _, hr2⟩ | ⟨hc, _⟩)
          · cases hr2
          · exact absurd hc (position_of_some_ne_none r1)
    · rcases obtained_from_cases hv h2 with ⟨r2, hd2, hp2⟩ | ⟨hd2, hp2⟩
      · rw [hp1, hp2, hd1, hd2]
        constructor
        · intro h
          exact absurd h.symm (position_of_some_ne_none r2)
        · rintro (⟨r, hr1, _⟩ | ⟨_, hc⟩)
          · cases hr1
          · exact absurd hc (position_of_some_ne_none r2)
      · rw [hp1, hp2]
        exact ⟨fun _ => Or.inr ⟨rfl, rfl⟩, fun _ => rfl⟩

/-- The graph `three_cycle` has the edges (1,2,4), (2,3,8), (3,1,6): `find(2,3,8)` equals
`begin()` incremented once, and differs from `find(3,1,6)`. -/
theorem find_equals_traversal_position_witness :
    (three_cycle.begin.advance three_cycle.edges_rep_ 1).map
        (fun it => (three_cycle.find 2 3 8).operator_eq it) = some true
      ∧ (three_cycle.find 2 3 8).operator_eq (three_cycle.find 3 1 6) = false
      ∧ ∃ l, three_cycle.edges = some l
        ∧ (∀ k e, l[k]? = some e →
            ∃ it, three_cycle.begin.advance three_cycle.edges_rep_ k = some it
              ∧ (three_cycle.find e.from_ e.to_ e.weight).operator_eq it = true)
        ∧ (∀ it1 it2, obtained_from three_cycle it1 → obtained_from three_cycle it2 →
            (it1.operator_eq it2 = true
              ↔ (∃ r, it1.deref three_cycle.edges_rep_ = some r
                    ∧ it2.deref three_cycle.edges_rep_ = some r)
                ∨ (it1.operator_eq three_cycle.end_ = true
                    ∧ it2.operator_eq three_cycle.end_ = true))) :=
  ⟨by decide, by decide, find_equals_traversal_position three_cycle (by decide)⟩

end iterator_equality

/-! ## No operation leaves an empty bucket -/

section no_empty_bucket_kept
variable {N E : Type} [LinearOrder N] [LinearOrder E]

theorem erase_edge_iter_ordered {g g1 : graph N E} {i i1 : iterator N E}
    (ho : index_ordered g.edges_rep_) (h : g.erase_edge_iter i = some (i1, g1)) :
    index_ordered g1.edges_rep_ := by
  obtain ⟨k, e, _, _, _, _, _, _, hg1⟩ := erase_edge_iter_eq h
  rw [hg1]
  exact index_ordered_erase_at ho k e

theorem erase_range_loop_ordered (n : Nat) {g g1 : graph N E} {i s i1 : iterator N E}
    (ho : index_ordered g.edges_rep_) (h : erase_range_loop n g i s = some (i1, g1)) :
    index_ordered g1.edges_rep_ := by
  induction n generalizing g i with
  | zero =>
    unfold erase_range_loop at h
    split_ifs at h
    simp only [Option.some.injEq, Prod.mk.injEq] at h
    rw [← h.2]; exact ho
  | succ n ih =>
    unfold erase_range_loop at h
    split_ifs at h
    · simp only [Option.some.injEq, Prod.mk.injEq] at h
      rw [← h.2]; exact ho
    · split at h
      · rename_i iter1 g2 heq
        exact ih (erase_edge_iter_ordered ho heq) h
      · exact absurd h (by simp)

theorem erase_edge_ordered {g g1 : graph N E} {src dst : N} {w : E} {r : Except String Bool}
    (ho : index_ordered g.edges_rep_) (h : g.erase_edge src dst w = some (r, g1)) :
    index_ordered g1.edges_rep_ := by
  unfold graph.erase_edge at h
  dsimp only at h
  split_ifs at h
  · simp only [Option.some.injEq, Prod.mk.injEq] at h
    rw [← h.2]; exact ho
  · simp only [Option.some.injEq, Prod.mk.injEq] at h
    rw [← h.2]; exact ho
  · split at h
    · rename_i i1 g2 heq
      simp only [Option.some.injEq, Prod.mk.injEq] at h
      rw [← h.2]
      exact erase_edge_iter_ordered ho heq
    · exact absurd h (by simp)

theorem erase_node_ordered {g : graph N E} (ho : index_ordered g.edges_rep_) (value : N) :
    index_ordered (g.erase_node value).2.edges_rep_ := by
  cases hn : g.is_node value with
  | false => rw [erase_node_unchanged g value hn]; exact ho
  | true =>
    rw [erase_node_eq g value hn]
    exact index_ordered_erase_incoming value (index_ordered_erase ho value)

theorem replace_node_ordered {g : graph N E} (ho : index_ordered g.edges_rep_)
    (old_data new_data : N) : index_ordered (g.replace_node old_data new_data).2.edges_rep_ := by
  by_cases h : g.is_node old_data = true ∧ g.is_node new_data = false
  · rw [replace_node_eq g old_data new_data h.1 h.2]
    exact index_ordered_repoint_all _ _ (index_ordered_rekey_entry _ _ ho)
  · rw [replace_node_unchanged g old_data new_data h]
    exact ho

theorem merge_loop_ordered (new_data : N) (l : List (N × E)) :
    ∀ g : graph N E, index_ordered g.edges_rep_ →
      index_ordered (merge_loop new_data l g).2.edges_rep_ := by
  induction l with
  | nil => intro g ho; exact ho
  | cons e rest ih =>
    intro g ho
    rw [merge_loop]
    split_ifs
    · exact ih g ho
    · have h1 := insert_edge_index_ordered g new_data e.1 e.2 ho
      rcases hie : g.insert_edge new_data e.1 e.2 with ⟨res, g1⟩
      rw [hie] at h1
      cases res with
      | error msg => exact h1
      | ok b => exact ih g1 h1

/-- The first pass of the last loop of `merge_replace_node` into an index whose only bucket
that may be empty is the bucket of `new`: unless an exception is raised, no bucket is empty
afterwards. -/
theorem merge_loop_fills_bucket (new_data : N) (e : N × E) (rest : List (N × E))
    (g : graph N E) (hs : index_sorted g.edges_rep_)
    (hne : ∀ p ∈ g.edges_rep_, p.1 ≠ new_data → p.2 ≠ [])
    (hok : (merge_loop new_data (e :: rest) g).1 = .ok ()) :
    index_ordered (merge_loop new_data (e :: rest) g).2.edges_rep_ := by
  have hnd := ascending_nodup node_compare_strict hs.1
  rw [merge_loop] at hok ⊢
  split_ifs at hok ⊢ with hc
  · refine merge_loop_ordered new_data rest g ⟨hs.1, hs.2, fun p hp => ?_⟩
    by_cases hk : p.1 = new_data
    · have hp2 : (new_data, p.2) ∈ g.edges_rep_ := by
        rw [← hk]; exact hp
      have hms := map_second_of_mem node_compare_strict hnd hp2
      rw [hms] at hc
      intro hnil
      rw [hnil] at hc
      simp [set_contains] at hc
    · exact hne p hp hk
  · have hraise := insert_edge_raises_iff g new_data e.1 e.2
    have hsort := insert_edge_sorted g new_data e.1 e.2 hs.1 hs.2
    have hnon := insert_edge_nonempty_except g new_data e.1 e.2 new_data hs.1 hne
    have hrec := insert_edge_mem_records g new_data e.1 e.2
    rcases hie : g.insert_edge new_data e.1 e.2 with ⟨res, g1⟩
    rw [hie] at hok hraise hsort hnon hrec
    cases res with
    | error msg => simp at hok
    | ok b =>
      dsimp only at hok hraise hsort hnon hrec ⊢
      have hnodes : g.is_node new_data = true ∧ g.is_node e.1 = true := by
        by_contra hcon
        have : g.is_node new_data = false ∨ g.is_node e.1 = false := by
          by_cases h1 : g.is_node new_data = true
          · right
            simpa using fun h2 => hcon ⟨h1, h2⟩
          · left
            simpa using h1
        obtain ⟨msg, hmsg⟩ := hraise.2 this
        cases hmsg
      have hin : (⟨new_data, e.1, e.2⟩ : value_type N E) ∈ records g1.edges_rep_ :=
        (hrec hnodes.1 hnodes.2 hs.1 _).2 (Or.inl rfl)
      obtain ⟨q, hq, hqe, hqk⟩ := (mem_records g1.edges_rep_ _).1 hin
      have hnd1 := ascending_nodup node_compare_strict hsort.1
      refine merge_loop_ordered new_data rest g1 ⟨hsort.1, hsort.2, fun p hp => ?_⟩
      by_cases hk : p.1 = new_data
      · have hp2 : (new_data, p.2) ∈ g1.edges_rep_ := by
          rw [← hk]; exact hp
        have hq2 : (new_data, q.2) ∈ g1.edges_rep_ := by
          rw [show new_data = q.1 from hqk]; exact hq
        have h1 := map_second_of_mem node_compare_strict hnd1 hp2
        have h2 := map_second_of_mem node_compare_strict hnd1 hq2
        rw [h1] at h2
        rw [Option.some.inj h2]
        exact List.ne_nil_of_mem hqe
      · exact hnon p hp hk

theorem merge_replace_node_ordered {g : graph N E} (ho : index_ordered g.edges_rep_)
    (old_data new_data : N) :
    (g.merge_replace_node old_data new_data).1 = .ok () →
      index_ordered (g.merge_replace_node old_data new_data).2.edges_rep_ := by
  have ho1 : index_ordered (repoint_all old_data new_data g.edges_rep_) :=
    index_ordered_repoint_all _ _ ho
  by_cases hnodes : g.is_node old_data = true ∧ g.is_node new_data = true
  · have hpre : (!g.is_node old_data || !g.is_node new_data) = false := by
      simp [hnodes.1, hnodes.2]
    unfold graph.merge_replace_node
    rw [hpre]
    simp only [Bool.false_eq_true, if_false]
    cases hm : map_second node_compare old_data (repoint_all old_data new_data g.edges_rep_) with
    | none =>
      dsimp only
      exact fun _ => ho1
    | some old_edges =>
      dsimp only
      have hold_ne : old_edges ≠ [] := ho1.2.2 _ (map_second_mem node_compare_strict hm)
      obtain ⟨e, rest, rfl⟩ := List.exists_cons_of_ne_nil hold_ne
      generalize hG2 : (if map_contains node_compare new_data _ = true then _ else _ : graph N E)
        = G2
      have he2 : G2.edges_rep_ =
          if map_contains node_compare new_data (repoint_all old_data new_data g.edges_rep_) = true
          then repoint_all old_data new_data g.edges_rep_
          else map_emplace node_compare new_data []
            (repoint_all old_data new_data g.edges_rep_) := by
        rw [← hG2]; split_ifs <;> rfl
      have hs2 : index_sorted G2.edges_rep_ := by
        rw [he2]
        split_ifs
        · exact ⟨ho1.1, ho1.2.1⟩
        · exact index_sorted_emplace ⟨ho1.1, ho1.2.1⟩ new_data [] List.Pairwise.nil
      have hne2 : ∀ p ∈ G2.edges_rep_, p.1 ≠ new_data → p.2 ≠ [] := by
        rw [he2]
        split_ifs
        · exact fun p hp _ => ho1.2.2 p hp
        · intro p hp hk
          rcases (mem_map_emplace node_compare_strict new_data [] ho1.1 p).1 hp with h | ⟨h, _⟩
          · exact ho1.2.2 p h
          · rw [h] at hk
            exact absurd rfl hk
      have hfill := merge_loop_fills_bucket new_data e rest G2 hs2 hne2
      rcases hl : merge_loop new_data (e :: rest) G2 with ⟨res, g3⟩
      rw [hl] at hfill
      cases res with
      | error msg => intro hok; cases hok
      | ok u =>
        intro _
        exact index_ordered_erase (hfill rfl) old_data
  · intro _
    rw [merge_replace_node_unchanged g old_data new_data hnodes]
    exact ho

end no_empty_bucket_kept

section no_empty_bucket_claim
variable {N E : Type} [LinearOrder N] [LinearOrder E]

/-- C32: in a graph whose adjacency index is ordered as its containers keep it (I2, I3) and
has no empty bucket, no bucket is empty after `insert_edge`, after each of the three forms
of `erase_edge` where it is defined, after `erase_node`, after `replace_node`, and after a
`merge_replace_node` that does not raise.  For the calls other than `merge_replace_node`
this holds also when they raise, since the graph is then as before. -/
theorem no_operation_leaves_empty_bucket (g : graph N E) (h2 : g.I2) (h3 : g.I3)
    (hne : g.no_empty_bucket) :
    (∀ src dst w, (g.insert_edge src dst w).2.no_empty_bucket)
      ∧ (∀ src dst w r g1, g.erase_edge src dst w = some (r, g1) → g1.no_empty_bucket)
      ∧ (∀ i i1 g1, g.erase_edge_iter i = some (i1, g1) → g1.no_empty_bucket)
      ∧ (∀ i s i1 g1, g.erase_edge_range i s = some (i1, g1) → g1.no_empty_bucket)
      ∧ (∀ value, (g.erase_node value).2.no_empty_bucket)
      ∧ (∀ old_data new_data, (g.replace_node old_data new_data).2.no_empty_bucket)
      ∧ (∀ old_data new_data, (g.merge_replace_node old_data new_data).1 = .ok () →
          (g.merge_replace_node old_data new_data).2.no_empty_bucket) := by
  have ho : index_ordered g.edges_rep_ := ⟨h3, h2, hne⟩
  refine ⟨fun src dst w => (insert_edge_index_ordered g src dst w ho).2.2,
    fun src dst w r g1 h => (erase_edge_ordered ho h).2.2,
    fun i i1 g1 h => (erase_edge_iter_ordered ho h).2.2,
    fun i s i1 g1 h => (erase_range_loop_ordered _ ho h).2.2,
    fun value => (erase_node_ordered ho value).2.2,
    fun old_data new_data => (replace_node_ordered ho old_data new_data).2.2,
    fun old_data new_data hok => (merge_replace_node_ordered ho old_data new_data hok).2.2⟩

/-- Scenario C (edges (1,2,3), (1,2,5), (1,3,10), (3,1,99)): erasing the only edge of the
bucket of node 3 erases the bucket, and so does merging node 3 into node 1. -/
theorem no_operation_leaves_empty_bucket_witness :
    (scenario_c.erase_edge 3 1 99).map (fun x => x.2.edges_rep_)
        = some [(1, [(2, 3), (2, 5), (3, 10)])]
      ∧ (scenario_c.merge_replace_node 3 1).2.edges_rep_ = [(1, [(1, 10), (1, 99), (2, 3), (2, 5)])]
      ∧ (∀ src dst w, (scenario_c.insert_edge src dst w).2.no_empty_bucket)
      ∧ (∀ src dst w r g1, scenario_c.erase_edge src dst w = some (r, g1) → g1.no_empty_bucket)
      ∧ (∀ i i1 g1, scenario_c.erase_edge_iter i = some (i1, g1) → g1.no_empty_bucket)
      ∧ (∀ i s i1 g1, scenario_c.erase_edge_range i s = some (i1, g1) → g1.no_empty_bucket)
      ∧ (∀ value, (scenario_c.erase_node value).2.no_empty_bucket)
      ∧ (∀ old_data new_data, (scenario_c.replace_node old_data new_data).2.no_empty_bucket)
      ∧ (∀ old_data new_data, (scenario_c.merge_replace_node old_data new_data).1 = .ok () →
          (scenario_c.merge_replace_node old_data new_data).2.no_empty_bucket) :=
  ⟨by decide, by decide,
    no_operation_leaves_empty_bucket scenario_c (by decide) (by decide) (by decide)⟩

/-- The restriction to calls that do not raise is needed for `merge_replace_node`: in the
graph left by `merge_replace_node(1, 1)` (nodes 2, 3 and the edge (2,1,7), whose destination
is no node) the call `merge_replace_node(2, 3)` raises inside its loop and leaves the empty
bucket it made for node 3. -/
theorem raising_merge_leaves_empty_bucket :
    after_self_merge.no_empty_bucket
      ∧ (after_self_merge.merge_replace_node 2 3).1
          = .error "Cannot call gdwg::graph<N, E>::insert_edge when either src or dst node does not exist"
      ∧ (after_self_merge.merge_replace_node 2 3).2.edges_rep_ = [(2, [(1, 7)]), (3, [])] := by
  decide

end no_empty_bucket_claim

/-! ## Decrement at the first edge, and merge_replace_node of a node with itself -/

section begin_and_self_merge
variable {N E : Type} [LinearOrder N] [LinearOrder E]

/-- On a valid graph with at least one edge, the decrement of an iterator that compares equal
to `begin()` and has the begin and end members of the graph is defined and leaves the
iterator as it is; so pre-decrement and post-decrement both leave it equal to `begin()`. -/
theorem decr_begin_stays (g : graph N E) (hv : g.valid) (hne : records g.edges_rep_ ≠ [])
    (it : iterator N E) (hbeg : it.edges_map_begin_ = g.begin.edges_map_begin_)
    (hend : it.edges_map_end_ = g.end_.edges_map_end_) (heq : it.operator_eq g.begin = true) :
    it.decr g.edges_rep_ = some it := by
  have ho := valid_index_ordered hv
  obtain ⟨r, L2, hl⟩ := List.exists_cons_of_ne_nil hne
  refine decr_at_first ho hl it hend hbeg ?_
  rw [(operator_eq_iff _ _).1 heq, begin_position ho, hl]
  rfl

/-- C33 fails on the code for an iterator that `erase_edge(iterator)` returns.  The graph
`two_after_one` is valid and has the edges (1,2,4), (2,3,8), (2,3,9), (3,1,6);
`erase_edge(find(1,2,4))` erases the first bucket and returns an iterator of the resulting
valid graph, with edges (2,3,8), (2,3,9), (3,1,6), that compares equal to its `begin()` and
dereferences to (2,3,8), but keeps as begin member the erased entry of node 1.  Its
decrement finds the iterator at the first element of its bucket and the map position
different from the begin member, so it steps the map position back from the first entry,
which is undefined, and then takes the last element of the bucket of the entry it is at.
The last element of the bucket of node 2 is (3,9), and for no entry of the adjacency index
is the iterator at the last element of its bucket equal to `begin()`; the decrement of
`begin()` itself leaves `begin()`. -/
theorem stale_begin_member_breaks_decrement :
    two_after_one.valid
      ∧ (two_after_one.erase_edge_iter (two_after_one.find 1 2 4)).map
          (fun x => (decide x.2.valid, x.2.edges))
          = some (true, some [⟨2, 3, 8⟩, ⟨2, 3, 9⟩, ⟨3, 1, 6⟩])
      ∧ (two_after_one.erase_edge_iter (two_after_one.find 1 2 4)).map
          (fun x => (x.1.operator_eq x.2.begin, x.1.deref x.2.edges_rep_))
          = some (true, some ⟨2, 3, 8⟩)
      ∧ (two_after_one.erase_edge_iter (two_after_one.find 1 2 4)).map
          (fun x => (x.1.edges_map_begin_, x.2.begin.edges_map_begin_)) = some (some 1, some 2)
      ∧ (two_after_one.erase_edge_iter (two_after_one.find 1 2 4)).map
          (fun x => x.1.decr x.2.edges_rep_) = some none
      ∧ (two_after_one.erase_edge_iter (two_after_one.find 1 2 4)).map
          (fun x => x.2.edges_rep_) = some [(2, [(3, 8), (3, 9)]), (3, [(1, 6)])]
      ∧ (two_after_one.erase_edge_iter (two_after_one.find 1 2 4)).map
          (fun x => x.2.edges_rep_.all (fun p =>
            !(iterator.operator_eq { x.1 with curr_map_iter_ := some p.1,
                                              curr_set_iter_ := p.2.getLast? } x.2.begin)))
          = some true
      ∧ (two_after_one.erase_edge_iter (two_after_one.find 1 2 4)).map
          (fun x => decide (x.2.begin.decr x.2.edges_rep_ = some x.2.begin)) = some true := by
  decide

/-- The call `merge_replace_node(old, new)` for two distinct nodes of a valid graph leaves
`new` a node. -/
theorem merge_replace_node_keeps_new (g : graph N E) (hv : g.valid) (old_data new_data : N)
    (hold : g.is_node old_data = true) (hnew : g.is_node new_data = true)
    (hne : old_data ≠ new_data) :
    (g.merge_replace_node old_data new_data).2.is_node new_data = true := by
  obtain ⟨_, _, hn, _⟩ := merge_replace_node_distinct g hv old_data new_data hold hnew hne
  rw [is_node_iff, hn, mem_set_erase node_compare_strict]
  exact ⟨(is_node_iff g _).1 hnew, fun e => hne e.symm⟩

/-- C34 fails on the code when `old == new`.  On the valid graph with the nodes 1, 2 and the
edge (2,1,7), `merge_replace_node(1, 1)` returns normally and afterwards `is_node(1)` is
false; the same happens on the graph with the nodes 1, 2 and no edge. -/
theorem self_merge_erases_the_node :
    two_nodes_one_edge.valid
      ∧ two_nodes_one_edge.is_node 1 = true
      ∧ (two_nodes_one_edge.merge_replace_node 1 1).1 = .ok ()
      ∧ (two_nodes_one_edge.merge_replace_node 1 1).2.is_node 1 = false
      ∧ ((graph.from_range [1, 2] : graph Nat Nat).merge_replace_node 1 1).1 = .ok ()
      ∧ ((graph.from_range [1, 2] : graph Nat Nat).merge_replace_node 1 1).2.is_node 1 = false
      ∧ ((graph.from_range [1, 2] : graph Nat Nat).merge_replace_node 1 1).2.nodes = [2] := by
  decide

end begin_and_self_merge

end gdwg
